import Mathlib

/-!
# OBJ scanner (`obj/scanner/scanner.go`): shallow embedding and verified properties

Bytes are natural numbers (a Go `byte` is a value below 256; every definition
below is total on `Nat`, larger values classify as `other`).  Strings are lists
of bytes.  The `io.Reader` is modelled by the bytes it has not yet delivered
(`reader`) and by the outcomes of its next `Read` calls (`reads`): a `Read` on
the 255-byte buffer may deliver fewer bytes than the buffer holds, or return an
error other than `io.EOF`, on which `refreshBuffer` panics.  `NewScannerFrom` is
the constructor on such a reader; `NewScanner` is the constructor on the reader
that fills every `Read` request completely until its bytes are exhausted.

A Go panic is the result `panicked` (`none` for the methods below `Next`).  The
loop of `Next` and its recursive call are driven by a fuel argument; on a reader
that fills every `Read`, `Next` supplies enough fuel for every state
(`Next_refines`), so `outOfFuel` is never its result (`Next_ne_outOfFuel`).

On a reader that fills every `Read`, the buffered scanner is related to a
machine that runs over the unread bytes as one list (`cut`, `NextL`); the
properties are proved on the list level and carried over.  The scanner takes a
fill shorter than the buffer for the end of the input, so on a reader that
delivers less the properties that speak of the whole input fail: see the
theorems on `NewScannerFrom`.
-/

namespace ObjScanner

/-! ## Definitions -/

/-! ### Data model of `scanner.go` -/

/-- One of the possible values that `Scanner.Next` returns (`TokenType`). -/
inductive TokenType where
  | Word | Integer | Float | Slash | Space | EOL | EOF | Unknown | Comment
  deriving DecidableEq, Repr

/-- States of the finite state machine (`stateType`). -/
inductive stateType where
  | start | skipLine | foundEol | foundSpace | foundSlash | foundMinus
  | foundDot | foundInt | foundFloat | foundWord | unknown
  deriving DecidableEq, Repr

/-- Character classes (`symbolType`). -/
inductive symbolType where
  | eol | space | hash | slash | minus | dot | digit | letter | other
  deriving DecidableEq, Repr

/-- Numeric value of a state (the `iota` constants). -/
def stateType.toNat : stateType → Nat
  | .start => 0 | .skipLine => 1 | .foundEol => 2 | .foundSpace => 3
  | .foundSlash => 4 | .foundMinus => 5 | .foundDot => 6 | .foundInt => 7
  | .foundFloat => 8 | .foundWord => 9 | .unknown => 10

/-- Numeric value of a character class (the `iota` constants). -/
def symbolType.toNat : symbolType → Nat
  | .eol => 0 | .space => 1 | .hash => 2 | .slash => 3 | .minus => 4
  | .dot => 5 | .digit => 6 | .letter => 7 | .other => 8

open TokenType stateType symbolType

/-- The table `tokenTypeMap`, indexed by the numeric value of the state. -/
def tokenTypeMap : List TokenType :=
  [Unknown, Comment, EOL, Space, Slash, Unknown, Unknown, Integer, Float, Word, Unknown]

/-- The lookup `tokenTypeMap[state]`. -/
def tokenTypeOf (state : stateType) : TokenType :=
  tokenTypeMap.getD state.toNat Unknown

/-- The function `getSymbolType`. -/
def getSymbolType (symbol : Nat) : symbolType :=
  if symbol = 10 then eol            -- '\n'
  else if symbol = 32 then space     -- ' '
  else if symbol = 9 then space      -- '\t'
  else if symbol = 35 then hash      -- '#'
  else if symbol = 47 then slash     -- '/'
  else if symbol = 45 then minus     -- '-'
  else if symbol = 46 then dot       -- '.'
  else if symbol = 95 then letter    -- '_'
  else if 48 ≤ symbol ∧ symbol ≤ 57 then digit
  else if 97 ≤ symbol ∧ symbol ≤ 122 ∨ 65 ≤ symbol ∧ symbol ≤ 90 then letter
  else other

/-- The finite state machine table `matrix` (rows: character classes, columns: states). -/
def matrix : List (List stateType) :=
  [ [foundEol, start, start, start, start, start, start, start, start, start, start],
    [foundSpace, skipLine, start, foundSpace, start, start, start, start, start, start, start],
    [skipLine, skipLine, start, start, start, start, start, start, start, start, start],
    [foundSlash, skipLine, start, start, start, start, start, start, start, start, start],
    [foundMinus, skipLine, start, start, start, unknown, unknown, unknown, unknown, unknown, unknown],
    [unknown, skipLine, start, start, start, unknown, unknown, foundDot, unknown, unknown, unknown],
    [foundInt, skipLine, start, start, start, foundInt, foundFloat, foundInt, foundFloat, foundWord, unknown],
    [foundWord, skipLine, start, start, start, unknown, unknown, unknown, unknown, foundWord, unknown],
    [unknown, skipLine, start, start, start, unknown, unknown, unknown, unknown, unknown, unknown] ]

/-- The lookup `matrix[symbol][state]`. -/
def matrixAt (symbol : symbolType) (state : stateType) : stateType :=
  (matrix.getD symbol.toNat []).getD state.toNat start

/-- The constant `bufsize`. -/
def bufsize : Nat := 255

/-- The struct `scanner`.  The `io.Reader` is the pair of `reader`, the bytes it has not
yet delivered, and `reads`, the outcomes of its next `Read` calls: `some k` is a `Read`
that delivers at most `k` bytes, `none` is a `Read` that returns an error other than
`io.EOF`; once `reads` is used up, every `Read` fills the buffer as far as bytes are
left.  The reader that fills every `Read` request completely is `reads = []`. -/
structure scanner where
  reader : List Nat
  reads : List (Option Nat)
  buffer : List Nat
  bufpos : Nat
  buflast : Nat
  lineStr : List Nat
  switchLine : Bool
  lineNum : Int
  posNum : Int
  skipComments : Bool
  deriving DecidableEq, Repr

/-- Outcome of a call that may panic; `outOfFuel` marks an exhausted fuel argument. -/
inductive Result (α : Type) where
  | ok (a : α)
  | panicked
  | outOfFuel
  deriving DecidableEq, Repr

/-! ### Operations of `scanner.go` -/

/-- The assignments of `refreshBuffer` after a `Read` that delivered the next `n` bytes
(all the bytes left if there are fewer): they overwrite the front of the buffer. -/
def fillBuffer (n : Nat) (s : scanner) : scanner :=
  let chunk := s.reader.take n
  { s with
    reader := s.reader.drop n
    buffer := chunk ++ s.buffer.drop chunk.length
    buflast := chunk.length % 256
    bufpos := 0 }

/-- The method `refreshBuffer`: one `Read` into the whole buffer, which delivers what
the reader decides, at most `bufsize` bytes; `none` is the panic on an error other than
`io.EOF`. -/
def refreshBuffer (s : scanner) : Option scanner :=
  match s.reads with
  | [] => some (fillBuffer bufsize s)
  | some k :: rest => some (fillBuffer (min k bufsize) { s with reads := rest })
  | none :: _ => none

/-- The method `refreshLine`. -/
def refreshLine (s : scanner) : scanner :=
  { s with lineStr := [], lineNum := s.lineNum + 1 }

/-- The constructor `NewScanner` on an arbitrary `io.Reader`: the bytes `reader`,
delivered as `reads` says; `none` is the panic of `refreshBuffer`. -/
def NewScannerFrom (reads : List (Option Nat)) (reader : List Nat) : Option scanner :=
  let s : scanner :=
    { reader := reader, reads := reads, buffer := List.replicate bufsize 0, bufpos := 0,
      buflast := 0, lineStr := [], switchLine := false, lineNum := 0, posNum := 0,
      skipComments := true }
  match refreshBuffer s with
  | none => none
  | some s =>
    let s := refreshLine s
    some { s with lineNum := 0 }

/-- The constructor `NewScanner` on the reader that fills every `Read` request completely
until its bytes are exhausted and returns no error (`reads = []`, so that `refreshBuffer`
is `fillBuffer bufsize`): `NewScannerFrom [] reader = some (NewScanner reader)`. -/
def NewScanner (reader : List Nat) : scanner :=
  let s : scanner :=
    { reader := reader, reads := [], buffer := List.replicate bufsize 0, bufpos := 0,
      buflast := 0, lineStr := [], switchLine := false, lineNum := 0, posNum := 0,
      skipComments := true }
  let s := fillBuffer bufsize s
  let s := refreshLine s
  { s with lineNum := 0 }

/-- The method `has`; it may refill the buffer, so the scanner is returned too; `none` is
the panic of `refreshBuffer`. -/
def has (s : scanner) : Option (Bool × scanner) :=
  if s.bufpos = s.buflast then
    if s.buflast < bufsize then some (false, s)
    else
      match refreshBuffer s with
      | none => none
      | some s => some (decide (s.bufpos ≠ s.buflast), s)
  else some (true, s)

/-- The method `peek`; `none` is the panic (no next byte, index out of range, or the
panic of `has`). -/
def peek (s : scanner) : Option (Nat × scanner) :=
  match has s with
  | none => none
  | some r =>
    if r.1 then
      match r.2.buffer[r.2.bufpos]? with
      | some b => some (b, r.2)
      | none => none
    else none

/-- The method `step`; `none` is the panic of `peek`. -/
def step (s : scanner) : Option scanner :=
  let s := if s.switchLine then { refreshLine s with switchLine := false } else s
  match peek s with
  | none => none
  | some (symbol, s) =>
    let s := if symbol = 10 then { s with switchLine := true }
             else { s with lineStr := s.lineStr ++ [symbol] }
    some { s with bufpos := (s.bufpos + 1) % 256, posNum := s.posNum + 1 }

/-- The byte that the loop of `Next` classifies: a `'\r'` is stepped over and the
byte after it is taken (`'\n'` in the branch where `has` fails). -/
def skipCR (symbol : Nat) (s : scanner) : Option (Nat × scanner) :=
  if symbol = 13 then
    match has s with
    | none => none
    | some r =>
      if r.1 then
        match step r.2 with
        | none => none
        | some s => peek s
      else some (10, r.2)
  else some (symbol, s)

mutual
/-- The loop `for scanner.has() { ... }` of `Next`, followed by the final `return`. -/
def nextLoop : Nat → scanner → stateType → List Nat → Result (TokenType × List Nat × scanner)
  | 0, _, _, _ => .outOfFuel
  | fuel + 1, s, state, buffer =>
    match has s with
    | none => .panicked
    | some r =>
      if r.1 then
        match peek r.2 with
        | none => .panicked
        | some (symbol, s) =>
          match skipCR symbol s with
          | none => .panicked
          | some (symbol, s) =>
            let tokenType := tokenTypeOf state
            let state := matrixAt (getSymbolType symbol) state
            if state = start then
              if s.skipComments && decide (tokenType = Comment) then NextFuel fuel s
              else .ok (tokenType, buffer, s)
            else
              match step s with
              | none => .panicked
              | some s => nextLoop fuel s state (buffer ++ [symbol])
      else .ok (tokenTypeOf state, buffer, r.2)
/-- The method `Next` with an explicit bound on loop iterations and recursive calls. -/
def NextFuel : Nat → scanner → Result (TokenType × List Nat × scanner)
  | 0, _ => .outOfFuel
  | fuel + 1, s =>
    match has s with
    | none => .panicked
    | some r =>
      if r.1 then nextLoop fuel r.2 start []
      else .ok (EOF, [], r.2)
end

/-- Bytes not yet consumed: the unprocessed part of the buffer, then what the reader holds. -/
def unread (s : scanner) : List Nat :=
  (s.buffer.take s.buflast).drop s.bufpos ++ s.reader

/-- The method `Next`; the bound suffices on a reader that fills every `Read`
(`Next_ne_outOfFuel`). -/
def Next (s : scanner) : Result (TokenType × List Nat × scanner) :=
  NextFuel (3 * (unread s).length + 3) s

/-- The method `Position`. -/
def Position (s : scanner) : Int := s.posNum - 1

/-- The method `IsSkipComments`. -/
def IsSkipComments (s : scanner) : Bool := s.skipComments

/-- The method `SkipComments`. -/
def SkipComments (s : scanner) (skipComments : Bool) : scanner :=
  { s with skipComments := skipComments }

/-! ### Sequences of calls and what is observed of them -/

/-- The first `n` results of repeated `Next` calls, and the scanner after them. -/
def nextN : Nat → scanner → Result (List (TokenType × List Nat) × scanner)
  | 0, s => .ok ([], s)
  | n + 1, s =>
    match Next s with
    | .ok (t, lex, s) =>
      match nextN n s with
      | .ok (toks, s) => .ok ((t, lex) :: toks, s)
      | .panicked => .panicked
      | .outOfFuel => .outOfFuel
    | .panicked => .panicked
    | .outOfFuel => .outOfFuel

/-- Tokens returned by repeated `Next` calls before the first `EOF`, with at most `n` calls. -/
def tokensUntilEOF : Nat → scanner → Result (List (TokenType × List Nat))
  | 0, _ => .outOfFuel
  | n + 1, s =>
    match Next s with
    | .ok (t, lex, s) =>
      if t = EOF then .ok []
      else
        match tokensUntilEOF n s with
        | .ok toks => .ok ((t, lex) :: toks)
        | .panicked => .panicked
        | .outOfFuel => .outOfFuel
    | .panicked => .panicked
    | .outOfFuel => .outOfFuel

/-- The token stream of a scanner: every token that repeated `Next` calls return before
the first `EOF` (each such call consumes a byte, so the bound is never reached). -/
def tokens (s : scanner) : Result (List (TokenType × List Nat)) :=
  tokensUntilEOF ((unread s).length + 1) s

/-- Token types and lexemes of a call result, without the scanner. -/
def Result.token : Result (TokenType × List Nat × scanner) → Result (TokenType × List Nat)
  | .ok (t, lex, _) => .ok (t, lex)
  | .panicked => .panicked
  | .outOfFuel => .outOfFuel

/-- Tokens of the results of the calls, without the scanner. -/
def Result.tokens :
    Result (List (TokenType × List Nat) × scanner) → Result (List (TokenType × List Nat))
  | .ok (toks, _) => .ok toks
  | .panicked => .panicked
  | .outOfFuel => .outOfFuel

/-- Results of the calls and the value of `Position` after them, without the scanner. -/
def Result.withPosition :
    Result (List (TokenType × List Nat) × scanner) → Result (List (TokenType × List Nat) × Int)
  | .ok (toks, s) => .ok (toks, Position s)
  | .panicked => .panicked
  | .outOfFuel => .outOfFuel

/-- Bytes of the input consumed so far: `posNum` counts them. -/
def consumed (input : List Nat) (s : scanner) : List Nat := input.take s.posNum.toNat

/-- Sum of the byte lengths of the lexemes of the tokens. -/
def lexemeBytes (toks : List (TokenType × List Nat)) : Nat := (toks.map (fun t => t.2.length)).sum

/-- Number of `EOL` tokens. -/
def countEOL (toks : List (TokenType × List Nat)) : Nat := (toks.filter (fun t => t.1 = EOL)).length

/-- Concatenation, in order, of the lexemes of the tokens. -/
def lexemes (toks : List (TokenType × List Nat)) : List Nat := (toks.map (fun t => t.2)).flatten

/-- The tokens that are not of type `Comment`. -/
def dropComments (toks : List (TokenType × List Nat)) : List (TokenType × List Nat) :=
  toks.filter (fun t => t.1 ≠ Comment)

/-! ### Vocabulary of the specification -/

/-- Row order of the transition matrix in section 6 of the specification. -/
def specSymbols : List symbolType :=
  [eol, space, symbolType.hash, slash, minus, dot, digit, letter, other]

/-- Column order of the transition matrix in section 6 of the specification. -/
def specStates : List stateType :=
  [start, skipLine, foundEol, foundSpace, foundSlash, foundMinus, foundDot, foundInt,
   foundFloat, foundWord, unknown]

/-- The transition matrix as printed in section 6 of the specification. -/
def specMatrix : List (List stateType) :=
  [ [foundEol,   start,    start, start,      start, start,    start,      start,    start,      start,     start],
    [foundSpace, skipLine, start, foundSpace, start, start,    start,      start,    start,      start,     start],
    [skipLine,   skipLine, start, start,      start, start,    start,      start,    start,      start,     start],
    [foundSlash, skipLine, start, start,      start, start,    start,      start,    start,      start,     start],
    [foundMinus, skipLine, start, start,      start, unknown,  unknown,    unknown,  unknown,    unknown,   unknown],
    [unknown,    skipLine, start, start,      start, unknown,  unknown,    foundDot, unknown,    unknown,   unknown],
    [foundInt,   skipLine, start, start,      start, foundInt, foundFloat, foundInt, foundFloat, foundWord, unknown],
    [foundWord,  skipLine, start, start,      start, unknown,  unknown,    unknown,  unknown,    foundWord, unknown],
    [unknown,    skipLine, start, start,      start, unknown,  unknown,    unknown,  unknown,    unknown,   unknown] ]

/-- The emitted token type of each state as listed in section 6 of the specification,
in the column order of the states. -/
def specEmit : List TokenType :=
  [Unknown, Comment, EOL, Space, Slash, Unknown, Unknown, Integer, Float, Word, Unknown]

/-- A letter of the lexical grammar: `'a'`-`'z'`, `'A'`-`'Z'`, or `'_'`. -/
def isLetter (c : Nat) : Prop := c = 95 ∨ (97 ≤ c ∧ c ≤ 122) ∨ (65 ≤ c ∧ c ≤ 90)

/-- A digit `'0'`-`'9'`. -/
def isDigit (c : Nat) : Prop := 48 ≤ c ∧ c ≤ 57

/-- The pattern `digit+`. -/
def isDigits (ds : List Nat) : Prop := ds ≠ [] ∧ ∀ x ∈ ds, isDigit x

/-- The pattern of `Word`: `(letter | '_') (letter | '_' | digit)*`. -/
def matchesWord (lex : List Nat) : Prop :=
  ∃ c cs, lex = c :: cs ∧ isLetter c ∧ ∀ x ∈ cs, isLetter x ∨ isDigit x

/-- The pattern of `Integer`: `'-'? digit+`. -/
def matchesInteger (lex : List Nat) : Prop :=
  ∃ ds, isDigits ds ∧ (lex = ds ∨ lex = 45 :: ds)

/-- The pattern of `Float`: `'-'? digit+ '.' digit+`. -/
def matchesFloat (lex : List Nat) : Prop :=
  ∃ ds fs, isDigits ds ∧ isDigits fs ∧ (lex = ds ++ 46 :: fs ∨ lex = 45 :: (ds ++ 46 :: fs))

/-- The pattern of `Slash`: the lexeme `"/"`. -/
def matchesSlash (lex : List Nat) : Prop := lex = [47]

/-- The pattern of `Space`: a non-empty run of spaces and tabs. -/
def matchesSpace (lex : List Nat) : Prop := lex ≠ [] ∧ ∀ x ∈ lex, x = 32 ∨ x = 9

/-- The pattern of `EOL`: the lexeme `"\n"`. -/
def matchesEOL (lex : List Nat) : Prop := lex = [10]

/-- The pattern of `Comment`: starts with `'#'` and contains no `'\n'`. -/
def matchesComment (lex : List Nat) : Prop := ∃ cs, lex = 35 :: cs ∧ 10 ∉ cs

/-- The input with every `'\r'` byte removed. -/
def stripCR (input : List Nat) : List Nat := input.filter (fun c => c ≠ 13)

/-- Every `'\r'` is immediately followed by a byte other than `'\r'`. -/
def crFollowed : List Nat → Bool
  | [] => true
  | [c] => c != 13
  | c :: d :: rest => (c != 13 || d != 13) && crFollowed (d :: rest)

/-- Every `'\r'` is immediately followed by `'\n'`. -/
def crlfOnly : List Nat → Bool
  | [] => true
  | [c] => c != 13
  | c :: d :: rest => (c != 13 || d == 10) && crlfOnly (d :: rest)

/-- Every `'#'` is followed somewhere later by a `'\n'`. -/
def commentsClosed : List Nat → Bool
  | [] => true
  | c :: rest => (c != 35 || rest.contains 10) && commentsClosed rest

/-! ### The same machine over the unread bytes as one list -/

/-- One token cut from the unread bytes `u` by the loop of `Next`, started in `state`
with `buffer` accumulated: token type, lexeme, bytes left, and whether the
token ended by a transition to `start` (`false`: the input ended).  `none` is
the panic of `peek` after a final `'\r'`. -/
def cut : stateType → List Nat → List Nat → Option (TokenType × List Nat × List Nat × Bool)
  | state, buffer, [] => some (tokenTypeOf state, buffer, [], false)
  | state, buffer, c :: rest =>
    if c = 13 then
      match rest with
      | [] => none
      | d :: rest2 =>
        if matrixAt (getSymbolType d) state = start then
          some (tokenTypeOf state, buffer, d :: rest2, true)
        else cut (matrixAt (getSymbolType d) state) (buffer ++ [d]) rest2
    else
      if matrixAt (getSymbolType c) state = start then
        some (tokenTypeOf state, buffer, c :: rest, true)
      else cut (matrixAt (getSymbolType c) state) (buffer ++ [c]) rest

/-- The call `Next` on unread bytes `u` when comments are not skipped. -/
def rawNext (u : List Nat) : Option (TokenType × List Nat × List Nat) :=
  if u = [] then some (EOF, [], [])
  else match cut start [] u with
    | none => none
    | some (t, lex, rest, _) => some (t, lex, rest)

/-- The loop of `Next` on unread bytes `u`, with the comment-skipping setting `skip`:
a comment that ended at a transition to `start` is dropped and the next token taken. -/
def loopL (skip : Bool) (state : stateType) (buffer u : List Nat) :
    Option (TokenType × List Nat × List Nat) :=
  match cut state buffer u with
  | none => none
  | some (t, lex, rest, viaStart) =>
    if viaStart && skip && decide (t = Comment) then rawNext rest
    else some (t, lex, rest)

/-- The call `Next` on unread bytes `u` with the comment-skipping setting `skip`. -/
def NextL (skip : Bool) (u : List Nat) : Option (TokenType × List Nat × List Nat) :=
  if u = [] then some (EOF, [], []) else loopL skip start [] u

/-- The first `n` results of repeated list-level calls, and the bytes left. -/
def nextNL : Nat → Bool → List Nat → Option (List (TokenType × List Nat) × List Nat)
  | 0, _, u => some ([], u)
  | n + 1, skip, u =>
    match NextL skip u with
    | none => none
    | some (t, lex, rest) =>
      match nextNL n skip rest with
      | none => none
      | some (toks, rest) => some ((t, lex) :: toks, rest)

/-- List-level token stream before the first `EOF`, with at most `n` calls. -/
def tokensL : Nat → Bool → List Nat → Result (List (TokenType × List Nat))
  | 0, _, _ => .outOfFuel
  | n + 1, skip, u =>
    match NextL skip u with
    | none => .panicked
    | some (t, lex, rest) =>
      if t = EOF then .ok []
      else
        match tokensL n skip rest with
        | .ok toks => .ok ((t, lex) :: toks)
        | .panicked => .panicked
        | .outOfFuel => .outOfFuel

/-- State reached from `st` over the bytes `cs`. -/
def run (st : stateType) (cs : List Nat) : stateType :=
  cs.foldl (fun q c => matrixAt (getSymbolType c) q) st

/-- No transition over `cs` from `st` enters `start`. -/
def pathOK : stateType → List Nat → Prop
  | _, [] => True
  | st, c :: cs =>
    matrixAt (getSymbolType c) st ≠ start ∧ pathOK (matrixAt (getSymbolType c) st) cs

/-- The lexeme bytes of consumed input: a `'\r'` is dropped and the byte after it kept. -/
def absorb : List Nat → List Nat
  | [] => []
  | [c] => if c = 13 then [] else [c]
  | c :: d :: rest => if c = 13 then d :: absorb rest else c :: absorb (d :: rest)

/-- The bytes of a character class (for `other` only that the byte is not `'\n'`). -/
def inClass : symbolType → Nat → Prop
  | eol, c => c = 10
  | space, c => c = 32 ∨ c = 9
  | symbolType.hash, c => c = 35
  | slash, c => c = 47
  | minus, c => c = 45
  | dot, c => c = 46
  | digit, c => isDigit c
  | letter, c => isLetter c
  | other, c => c ≠ 10

/-- An integer followed by a dot (the lexemes of state `foundDot`). -/
def matchesIntDot (lex : List Nat) : Prop :=
  ∃ ds, isDigits ds ∧ (lex = ds ++ [46] ∨ lex = 45 :: (ds ++ [46]))

/-- The lexemes that lead from `start` to a state without passing through `start`
(no constraint is recorded for `unknown`). -/
def Lang : stateType → List Nat → Prop
  | start, lex => lex = []
  | skipLine, lex => matchesComment lex
  | foundEol, lex => matchesEOL lex
  | foundSpace, lex => matchesSpace lex
  | foundSlash, lex => matchesSlash lex
  | foundMinus, lex => lex = [45]
  | foundDot, lex => matchesIntDot lex
  | foundInt, lex => matchesInteger lex
  | foundFloat, lex => matchesFloat lex
  | foundWord, lex => matchesWord lex
  | unknown, _ => True

/-! ### Relations between the buffered scanner and the list-level machine -/

/-- Buffer invariant of a scanner made by `NewScanner` and used through its methods:
the reader fills every `Read`, so a fill length below 255 means that no byte is left. -/
def Inv (s : scanner) : Prop :=
  s.buffer.length = 255 ∧ s.bufpos ≤ s.buflast ∧ s.buflast ≤ 255 ∧
    (s.buflast < 255 → s.reader = []) ∧ s.reads = []

/-- The method `has` on a reader that fills every `Read` (`refreshBuffer` is
`fillBuffer bufsize`). -/
def hasOk (s : scanner) : Bool × scanner :=
  if s.bufpos = s.buflast then
    if s.buflast < bufsize then (false, s)
    else
      let s := fillBuffer bufsize s
      (decide (s.bufpos ≠ s.buflast), s)
  else (true, s)

/-- The scanner `s2` holds the same unread bytes, position and settings as `s1`. -/
def Sim (s1 s2 : scanner) : Prop :=
  Inv s2 ∧ unread s2 = unread s1 ∧ s2.skipComments = s1.skipComments ∧ s2.posNum = s1.posNum

/-- The scanner `s2` is `s1` after consuming some bytes: same setting, and the
position has grown by the number of bytes no longer unread. -/
def Adv (s1 s2 : scanner) : Prop :=
  Inv s2 ∧ s2.skipComments = s1.skipComments ∧
    s2.posNum + (unread s2).length = s1.posNum + (unread s1).length

/-- The scanner `s2` is `s1` advanced to the unread bytes `rest`. -/
def Post (s1 s2 : scanner) (rest : List Nat) : Prop :=
  Adv s1 s2 ∧ unread s2 = rest

/-- The result `r` of a call on `s` is the list-level result `spec`. -/
def Refines (r : Result (TokenType × List Nat × scanner)) (s : scanner)
    (spec : Option (TokenType × List Nat × List Nat)) : Prop :=
  match spec with
  | none => r = .panicked
  | some (t, lex, rest) => ∃ s2, r = .ok (t, lex, s2) ∧ Post s s2 rest

/-- First part of `step`: the pending line switch. -/
def stepLine (s : scanner) : scanner :=
  if s.switchLine then { refreshLine s with switchLine := false } else s

/-- Second part of `step`: the byte `symbol` is recorded and the cursor moves. -/
def stepByte (symbol : Nat) (s : scanner) : scanner :=
  let s := if symbol = 10 then { s with switchLine := true }
           else { s with lineStr := s.lineStr ++ [symbol] }
  { s with bufpos := (s.bufpos + 1) % 256, posNum := s.posNum + 1 }

/-- Body of the loop of `Next` once the byte to classify is known. -/
def loopBody (fuel : Nat) (s : scanner) (state : stateType) (buffer : List Nat) (symbol : Nat) :
    Result (TokenType × List Nat × scanner) :=
  if matrixAt (getSymbolType symbol) state = start then
    if s.skipComments && decide (tokenTypeOf state = Comment) then NextFuel fuel s
    else .ok (tokenTypeOf state, buffer, s)
  else
    match step s with
    | none => .panicked
    | some s => nextLoop fuel s (matrixAt (getSymbolType symbol) state) (buffer ++ [symbol])

/-- List-level body of the loop: `d` is the byte to classify, `rest` follows it. -/
def cutBody (skip : Bool) (state : stateType) (buffer : List Nat) (d : Nat) (rest : List Nat) :
    Option (TokenType × List Nat × List Nat) :=
  if matrixAt (getSymbolType d) state = start then
    if skip && decide (tokenTypeOf state = Comment) then rawNext (d :: rest)
    else some (tokenTypeOf state, buffer, d :: rest)
  else loopL skip (matrixAt (getSymbolType d) state) (buffer ++ [d]) rest

/-- Fuel that suffices for the loop of `Next` entered in state `st` with `n` unread bytes. -/
def loopFuel (n : Nat) (st : stateType) : Nat := 3 * n + (if st = start then 1 else 3)

/-! ### Line bookkeeping and `SkipLine` of `scanner.go` -/

/-- The method `LineString`. -/
def LineString (s : scanner) : List Nat := s.lineStr

/-- The loop `for scanner.has() { ... }` of `SkipLine`. -/
def skipLineLoop : Nat → scanner → Result scanner
  | 0, _ => .outOfFuel
  | fuel + 1, s =>
    match has s with
    | none => .panicked
    | some r =>
      if r.1 then
        match peek r.2 with
        | none => .panicked
        | some (symbol, s) =>
          match step s with
          | none => .panicked
          | some s => if symbol = 10 then .ok s else skipLineLoop fuel s
      else .ok r.2

/-- The method `SkipLine` (every iteration of its loop consumes a byte). -/
def SkipLine (s : scanner) : Result scanner :=
  if s.switchLine then .ok s else skipLineLoop ((unread s).length + 1) s

/-- A call of a method that moves the scanner. -/
inductive Call where
  | next
  | skipLine
  deriving DecidableEq, Repr

/-- The scanner after a sequence of `Next` and `SkipLine` calls. -/
def runCalls : List Call → scanner → Result scanner
  | [], s => .ok s
  | .next :: cs, s =>
    match Next s with
    | .ok (_, _, s) => runCalls cs s
    | .panicked => .panicked
    | .outOfFuel => .outOfFuel
  | .skipLine :: cs, s =>
    match SkipLine s with
    | .ok s => runCalls cs s
    | .panicked => .panicked
    | .outOfFuel => .outOfFuel

/-! ### Lines of the input and the line fields -/

/-- The bytes up to the first `'\n'`, without it. -/
def firstLine : List Nat → List Nat
  | [] => []
  | c :: rest => if c = 10 then [] else c :: firstLine rest

/-- The bytes up to and including the first `'\n'` (all bytes if there is none). -/
def lineHead : List Nat → List Nat
  | [] => []
  | c :: rest => if c = 10 then [10] else c :: lineHead rest

/-- The bytes that follow the first `'\n'` (none if there is no `'\n'`). -/
def lineRest : List Nat → List Nat
  | [] => []
  | c :: rest => if c = 10 then rest else lineRest rest

/-- The text of line `k` of the input (counted from 0, lines separated by `'\n'`),
without its `'\n'`. -/
def lineAt : Nat → List Nat → List Nat
  | 0, u => firstLine u
  | k + 1, u => lineAt k (lineRest u)

/-- The fields `lineStr`, `switchLine` and `lineNum` of a scanner. -/
def lineFields (s : scanner) : List Nat × Bool × Int := (s.lineStr, s.switchLine, s.lineNum)

/-- What `step` does to `lineStr`, `switchLine` and `lineNum` when it consumes `b`. -/
def lineStep (st : List Nat × Bool × Int) (b : Nat) : List Nat × Bool × Int :=
  if b = 10 then (if st.2.1 then [] else st.1, true, if st.2.1 then st.2.2 + 1 else st.2.2)
  else ((if st.2.1 then [] else st.1) ++ [b], false, if st.2.1 then st.2.2 + 1 else st.2.2)

/-- The line fields after consuming the bytes `c` from a new scanner. -/
def lineState (c : List Nat) : List Nat × Bool × Int := c.foldl lineStep ([], false, 0)

/-- The scanner `s2` is `s1` after consuming the bytes `pre`. -/
def Track (s1 s2 : scanner) (pre : List Nat) : Prop :=
  Adv s1 s2 ∧ unread s1 = pre ++ unread s2 ∧ lineFields s2 = pre.foldl lineStep (lineFields s1)

/-! ### Parser matrices of `builder_test.go` and their runs -/

/-- Numeric value of a token type (the `iota` constants): the column of a parser matrix. -/
def TokenType.toNat : TokenType → Nat
  | .Word => 0 | .Integer => 1 | .Float => 2 | .Slash => 3 | .Space => 4
  | .EOL => 5 | .EOF => 6 | .Unknown => 7 | .Comment => 8

/-- The nine token types in the order of their constants. -/
def allTokens : List TokenType :=
  [Word, Integer, TokenType.Float, Slash, Space, EOL, EOF, Unknown, Comment]

/-- The matrix `want` of `TestBuildParser_vertex` (`builder_test.go`). -/
def vertexMatrix : List (List Nat) :=
  [ [1, 1, 1, 1, 2, 1, 1, 1, 1],
    [1, 1, 1, 1, 1, 1, 1, 1, 1],
    [1, 3, 3, 1, 1, 1, 1, 1, 1],
    [1, 1, 1, 1, 4, 1, 1, 1, 1],
    [1, 5, 5, 1, 1, 1, 1, 1, 1],
    [1, 1, 1, 1, 6, 1, 1, 1, 1],
    [1, 7, 7, 1, 1, 1, 1, 1, 1],
    [1, 1, 1, 1, 8, 0, 0, 1, 1],
    [1, 9, 9, 1, 1, 0, 0, 1, 1],
    [1, 1, 1, 1, 10, 0, 0, 1, 1],
    [1, 1, 1, 1, 1, 0, 0, 1, 1] ]

/-- The matrix `want` of `TestBuildParser_face` (`builder_test.go`). -/
def faceMatrix : List (List Nat) :=
  [ [1, 1, 1, 1, 2, 1, 1, 1, 1],
    [1, 1, 1, 1, 1, 1, 1, 1, 1],
    [1, 3, 1, 1, 1, 1, 1, 1, 1],
    [1, 1, 1, 4, 55, 1, 1, 1, 1],
    [1, 5, 1, 38, 1, 1, 1, 1, 1],
    [1, 1, 1, 6, 26, 1, 1, 1, 1],
    [1, 7, 1, 1, 1, 1, 1, 1, 1],
    [1, 1, 1, 1, 8, 1, 1, 1, 1],
    [1, 9, 1, 1, 1, 1, 1, 1, 1],
    [1, 1, 1, 10, 1, 1, 1, 1, 1],
    [1, 11, 1, 1, 1, 1, 1, 1, 1],
    [1, 1, 1, 12, 1, 1, 1, 1, 1],
    [1, 13, 1, 1, 1, 1, 1, 1, 1],
    [1, 1, 1, 1, 14, 1, 1, 1, 1],
    [1, 15, 1, 1, 1, 1, 1, 1, 1],
    [1, 1, 1, 16, 1, 1, 1, 1, 1],
    [1, 17, 1, 1, 1, 1, 1, 1, 1],
    [1, 1, 1, 18, 1, 1, 1, 1, 1],
    [1, 19, 1, 1, 1, 1, 1, 1, 1],
    [1, 1, 1, 1, 20, 0, 0, 1, 1],
    [1, 21, 1, 1, 1, 1, 1, 1, 1],
    [1, 1, 1, 22, 1, 1, 1, 1, 1],
    [1, 23, 1, 1, 1, 1, 1, 1, 1],
    [1, 1, 1, 24, 1, 1, 1, 1, 1],
    [1, 25, 1, 1, 1, 1, 1, 1, 1],
    [1, 1, 1, 1, 20, 0, 0, 1, 1],
    [1, 27, 1, 1, 1, 1, 1, 1, 1],
    [1, 1, 1, 28, 1, 1, 1, 1, 1],
    [1, 29, 1, 1, 1, 1, 1, 1, 1],
    [1, 1, 1, 1, 30, 1, 1, 1, 1],
    [1, 31, 1, 1, 1, 1, 1, 1, 1],
    [1, 1, 1, 32, 1, 1, 1, 1, 1],
    [1, 33, 1, 1, 1, 1, 1, 1, 1],
    [1, 1, 1, 1, 34, 0, 0, 1, 1],
    [1, 35, 1, 1, 1, 1, 1, 1, 1],
    [1, 1, 1, 36, 1, 1, 1, 1, 1],
    [1, 37, 1, 1, 1, 1, 1, 1, 1],
    [1, 1, 1, 1, 34, 0, 0, 1, 1],
    [1, 39, 1, 1, 1, 1, 1, 1, 1],
    [1, 1, 1, 1, 40, 1, 1, 1, 1],
    [1, 41, 1, 1, 1, 1, 1, 1, 1],
    [1, 1, 1, 42, 1, 1, 1, 1, 1],
    [1, 1, 1, 43, 1, 1, 1, 1, 1],
    [1, 44, 1, 1, 1, 1, 1, 1, 1],
    [1, 1, 1, 1, 45, 1, 1, 1, 1],
    [1, 46, 1, 1, 1, 1, 1, 1, 1],
    [1, 1, 1, 47, 1, 1, 1, 1, 1],
    [1, 1, 1, 48, 1, 1, 1, 1, 1],
    [1, 49, 1, 1, 1, 1, 1, 1, 1],
    [1, 1, 1, 1, 50, 0, 0, 1, 1],
    [1, 51, 1, 1, 1, 1, 1, 1, 1],
    [1, 1, 1, 52, 1, 1, 1, 1, 1],
    [1, 1, 1, 53, 1, 1, 1, 1, 1],
    [1, 54, 1, 1, 1, 1, 1, 1, 1],
    [1, 1, 1, 1, 50, 0, 0, 1, 1],
    [1, 56, 1, 1, 1, 1, 1, 1, 1],
    [1, 1, 1, 1, 57, 1, 1, 1, 1],
    [1, 58, 1, 1, 1, 1, 1, 1, 1],
    [1, 1, 1, 1, 59, 0, 0, 1, 1],
    [1, 60, 1, 1, 1, 1, 1, 1, 1],
    [1, 1, 1, 1, 59, 0, 0, 1, 1] ]

/-- Modelled from the spec: the step of the element-parser runtime (the
`finiteStateMachine` that `buildParser` returns is not under `src/`): `matrix[s][t]` is
the next state when a token of type `t` arrives in state `s`.  An index outside the
matrix, which the fixtures never produce, gives the reject state 1. -/
def parserStep (M : List (List Nat)) (s : Nat) (t : TokenType) : Nat :=
  (M.getD s []).getD t.toNat 1

/-- Modelled from the spec: the state in which the element-parser runtime stops: it
steps the matrix on each token and stops at the first new state that is 0 (accept) or
1 (reject), or when the tokens are used up. -/
def parserFinal (M : List (List Nat)) : Nat → List TokenType → Nat
  | s, [] => s
  | s, t :: ts =>
    if parserStep M s t = 0 ∨ parserStep M s t = 1 then parserStep M s t
    else parserFinal M (parserStep M s t) ts

/-- Modelled from the spec: the run from row `s` over the tokens is accepted: the state
after the last token is 0 and no earlier state of the run is 0 or 1. -/
def accepted (M : List (List Nat)) : Nat → List TokenType → Bool
  | _, [] => false
  | s, [t] => parserStep M s t == 0
  | s, t :: u :: ts =>
    parserStep M s t != 0 && parserStep M s t != 1 && accepted M (parserStep M s t) (u :: ts)

/-- An `Integer` or `Float` token. -/
def isNumeric (t : TokenType) : Bool := t == Integer || t == TokenType.Float

/-- Number of `Integer` and `Float` tokens. -/
def numericCount (ts : List TokenType) : Nat := (ts.filter isNumeric).length

/-- The four shapes of a face corner: `v`, `v/vt`, `v//vn`, `v/vt/vn`. -/
def cornerShapes : List (List TokenType) :=
  [ [Integer], [Integer, Slash, Integer], [Integer, Slash, Slash, Integer],
    [Integer, Slash, Integer, Slash, Integer] ]

/-- The token sequence `Space C (Space C)^k T`. -/
def faceTokens (C : List TokenType) (k : Nat) (T : TokenType) : List TokenType :=
  Space :: C ++ ((List.replicate k (Space :: C)).flatten ++ [T])

/-- The transitions of row `s` that do not reject. -/
def exits (M : List (List Nat)) (s : Nat) : List (TokenType × Nat) :=
  allTokens.filterMap (fun t => if parserStep M s t = 1 then none else some (t, parserStep M s t))

/-- The tokens `p` lead from `s` to `q` through states other than 0 and 1. -/
def pathTo (M : List (List Nat)) : Nat → List TokenType → Nat → Bool
  | s, [], q => s == q
  | s, a :: as, q =>
    parserStep M s a != 0 && parserStep M s a != 1 && pathTo M (parserStep M s a) as q

/-- The tokens `p` lead from `s` to `q` and every other token on the way rejects. -/
def forcedPath (M : List (List Nat)) : Nat → List TokenType → Nat → Bool
  | s, [], q => s == q
  | s, a :: as, q =>
    decide (exits M s = [(a, parserStep M s a)]) && parserStep M s a != 0 &&
      forcedPath M (parserStep M s a) as q

/-- Most numeric tokens of an accepted run of the Vertex matrix from a state. -/
def vertexBudget (s : Nat) : Nat :=
  [4, 0, 4, 3, 3, 2, 2, 1, 1, 0, 0].getD s 0

/-! ### The token stream without the buffer -/

/-- Following the specification's words (the same state machine run directly over the
whole input as one byte list): the tokens that the list-level machine returns on the whole
input before the first `EOF`.  A list-level call that returns a token other than `EOF`
shortens the list, so `input.length + 1` calls suffice. -/
def directTokens (skip : Bool) (input : List Nat) : Result (List (TokenType × List Nat)) :=
  tokensL (input.length + 1) skip input

/-- Following the specification's words: the results of the first `n` calls of the
list-level machine on the whole input; a call that fails is the panic. -/
def directNextN (n : Nat) (skip : Bool) (input : List Nat) :
    Result (List (TokenType × List Nat)) :=
  match nextNL n skip input with
  | none => .panicked
  | some (toks, _) => .ok toks

/-- Number of tokens other than `EOF`. -/
def countNonEOF (toks : List (TokenType × List Nat)) : Nat :=
  (toks.filter (fun t => t.1 ≠ EOF)).length

/-! ## Theorems -/

/-! ### The buffer: `has`, `peek`, `step` -/

theorem matrixAt_start_ne (sy : symbolType) : matrixAt sy start ≠ start := by
  cases sy <;> decide

theorem Inv_NewScanner (input : List Nat) : Inv (NewScanner input) := by
  simp only [Inv, NewScanner, fillBuffer, refreshLine, bufsize]
  simp only [List.length_append, List.length_take, List.length_drop, List.length_replicate]
  refine ⟨by omega, by omega, by omega, ?_, trivial⟩
  intro h
  apply List.drop_eq_nil_of_le
  omega

/-- On the reader that fills every `Read`, the constructor does not panic and makes
`NewScanner input`. -/
theorem NewScannerFrom_full (input : List Nat) :
    NewScannerFrom [] input = some (NewScanner input) := rfl

/-- On a reader that fills every `Read`, `has` does not panic and is `hasOk`. -/
theorem has_full {s : scanner} (h : s.reads = []) : has s = some (hasOk s) := by
  unfold has hasOk refreshBuffer
  rw [h]
  by_cases e : s.bufpos = s.buflast
  · rw [if_pos e, if_pos e]
    by_cases l : s.buflast < bufsize
    · rw [if_pos l, if_pos l]
    · rw [if_neg l, if_neg l]
  · rw [if_neg e, if_neg e]

theorem has_eq {s : scanner} (h : Inv s) : has s = some (hasOk s) := has_full h.2.2.2.2

theorem unread_NewScanner (input : List Nat) : unread (NewScanner input) = input := by
  simp only [unread, NewScanner, fillBuffer, refreshLine, bufsize, List.drop_zero]
  have h : min 255 input.length % 256 = (List.take 255 input).length := by
    simp only [List.length_take]; omega
  rw [List.length_take, h, List.take_left, List.take_append_drop]

theorem has_spec (s : scanner) (h : Inv s) :
    (hasOk s).1 = decide (unread s ≠ []) ∧ Sim s (hasOk s).2 := by
  obtain ⟨h1, h2, h3, h4, h5⟩ := h
  unfold hasOk
  by_cases e : s.bufpos = s.buflast
  · rw [if_pos e]
    by_cases l : s.buflast < bufsize
    · rw [if_pos l]
      have hr : s.reader = [] := h4 (by simpa [bufsize] using l)
      have hu : unread s = [] := by
        simp only [unread, hr, List.append_nil]
        apply List.drop_eq_nil_of_le
        simp only [List.length_take]; omega
      refine ⟨by simp [hu], ⟨h1, h2, h3, h4, h5⟩, rfl, rfl, rfl⟩
    · rw [if_neg l]
      have hl : s.buflast = 255 := by simp only [bufsize] at l; omega
      have hu : unread s = s.reader := by
        simp only [unread]
        rw [List.drop_eq_nil_of_le, List.nil_append]
        simp only [List.length_take]; omega
      have hlen : (List.take 255 s.reader).length % 256 = (List.take 255 s.reader).length := by
        simp only [List.length_take]; omega
      have hu2 : unread (fillBuffer bufsize s) = s.reader := by
        simp only [unread, fillBuffer, bufsize, List.drop_zero]
        rw [hlen, List.take_left, List.take_append_drop]
      refine ⟨?_, ⟨?_, ?_, ?_, ?_, h5⟩, ?_, rfl, rfl⟩
      · simp only [fillBuffer, bufsize, hu, hlen]
        cases hrd : s.reader with
        | nil => simp
        | cons a t => simp
      · simp only [fillBuffer, bufsize, List.length_append, List.length_take, List.length_drop]
        omega
      · simp only [fillBuffer]; omega
      · simp only [fillBuffer, bufsize, List.length_take]; omega
      · simp only [fillBuffer, bufsize, List.length_take]
        intro hlt
        apply List.drop_eq_nil_of_le
        omega
      · rw [hu2, hu]
  · rw [if_neg e]
    have hu : unread s ≠ [] := by
      intro hnil
      have := congrArg List.length hnil
      simp only [unread, List.length_append, List.length_drop, List.length_take,
        List.length_nil] at this
      omega
    exact ⟨by simp [hu], ⟨h1, h2, h3, h4, h5⟩, rfl, rfl, rfl⟩

theorem has_lt (s : scanner) (h : Inv s) (ht : (hasOk s).1 = true) :
    (hasOk s).2.bufpos < (hasOk s).2.buflast := by
  obtain ⟨h1, h2, h3, h4, h5⟩ := h
  unfold hasOk at ht ⊢
  by_cases e : s.bufpos = s.buflast
  · rw [if_pos e] at ht ⊢
    by_cases l : s.buflast < bufsize
    · rw [if_pos l] at ht; simp at ht
    · rw [if_neg l] at ht ⊢
      simp only [decide_eq_true_eq] at ht
      simp only [fillBuffer] at ht ⊢
      omega
  · rw [if_neg e]
    show s.bufpos < s.buflast
    omega

theorem Sim.adv {s1 s2 : scanner} (h : Sim s1 s2) : Adv s1 s2 :=
  ⟨h.1, h.2.2.1, by rw [h.2.1, h.2.2.2]⟩

theorem Adv.refl {s : scanner} (h : Inv s) : Adv s s := ⟨h, rfl, rfl⟩

theorem Adv.trans {s1 s2 s3 : scanner} (h12 : Adv s1 s2) (h23 : Adv s2 s3) : Adv s1 s3 :=
  ⟨h23.1, h23.2.1.trans h12.2.1, h23.2.2.trans h12.2.2⟩

theorem unread_advance (s : scanner) (h : Inv s) (hlt : s.bufpos < s.buflast) :
    ∃ b, s.buffer[s.bufpos]? = some b ∧
      unread s = b :: ((s.buffer.take s.buflast).drop (s.bufpos + 1) ++ s.reader) := by
  obtain ⟨h1, h2, h3, h4, h5⟩ := h
  have hb : s.bufpos < s.buffer.length := by omega
  have ht : s.bufpos < (s.buffer.take s.buflast).length := by
    simp only [List.length_take]; omega
  refine ⟨s.buffer[s.bufpos], List.getElem?_eq_getElem hb, ?_⟩
  simp only [unread]
  rw [List.drop_eq_getElem_cons ht, List.getElem_take]
  rfl

theorem peek_cons (s : scanner) (h : Inv s) {b : Nat} {rest : List Nat}
    (hu : unread s = b :: rest) : peek s = some (b, (hasOk s).2) := by
  obtain ⟨hb, hs⟩ := has_spec s h
  have ht : (hasOk s).1 = true := by rw [hb, hu]; simp
  obtain ⟨x, hx, hux⟩ := unread_advance _ hs.1 (has_lt s h ht)
  rw [hs.2.1, hu] at hux
  have hbx : b = x := (List.cons.inj hux).1
  simp only [peek, has_eq h, ht, if_true, hx, hbx]

theorem peek_nil (s : scanner) (h : Inv s) (hu : unread s = []) : peek s = none := by
  obtain ⟨hb, _⟩ := has_spec s h
  have ht : (hasOk s).1 = false := by rw [hb, hu]; simp
  simp [peek, has_eq h, ht]

theorem step_eq (s : scanner) :
    step s = (peek (stepLine s)).map (fun r => stepByte r.1 r.2) := by
  simp only [step, stepLine, stepByte]
  cases peek (if s.switchLine = true then { refreshLine s with switchLine := false } else s) <;> rfl

theorem stepLine_spec (s : scanner) (h : Inv s) :
    Inv (stepLine s) ∧ unread (stepLine s) = unread s ∧
      (stepLine s).skipComments = s.skipComments ∧ (stepLine s).posNum = s.posNum := by
  unfold stepLine
  cases s.switchLine
  · exact ⟨h, rfl, rfl, rfl⟩
  · exact ⟨h, rfl, rfl, rfl⟩

theorem stepByte_fields (b : Nat) (s : scanner) :
    (stepByte b s).reader = s.reader ∧ (stepByte b s).buffer = s.buffer ∧
      (stepByte b s).bufpos = (s.bufpos + 1) % 256 ∧ (stepByte b s).buflast = s.buflast ∧
      (stepByte b s).skipComments = s.skipComments ∧ (stepByte b s).posNum = s.posNum + 1 ∧
      (stepByte b s).reads = s.reads := by
  unfold stepByte
  by_cases e : b = 10
  · simp only [e, if_true, and_self]
  · simp only [e, if_false, and_self]

theorem step_cons (s : scanner) (h : Inv s) {b : Nat} {rest : List Nat}
    (hu : unread s = b :: rest) : ∃ s2, step s = some s2 ∧ Post s s2 rest := by
  obtain ⟨hI0, hu0, hk0, hp0⟩ := stepLine_spec s h
  obtain ⟨hb, hs⟩ := has_spec (stepLine s) hI0
  have ht : (hasOk (stepLine s)).1 = true := by rw [hb, hu0, hu]; simp
  have hlt := has_lt (stepLine s) hI0 ht
  obtain ⟨x, hx, hux⟩ := unread_advance _ hs.1 hlt
  have hu1 : unread (hasOk (stepLine s)).2 = b :: rest := by rw [hs.2.1, hu0, hu]
  rw [hu1] at hux
  have hrest := (List.cons.inj hux).2
  have hpk : peek (stepLine s) = some (b, (hasOk (stepLine s)).2) :=
    peek_cons (stepLine s) hI0 (hu0.trans hu)
  obtain ⟨i1, i2, i3, i4, i5⟩ := hs.1
  have hmod : ((hasOk (stepLine s)).2.bufpos + 1) % 256 = (hasOk (stepLine s)).2.bufpos + 1 := by
    omega
  have hk1 : (hasOk (stepLine s)).2.skipComments = s.skipComments := hs.2.2.1.trans hk0
  have hp1 : (hasOk (stepLine s)).2.posNum = s.posNum := hs.2.2.2.trans hp0
  obtain ⟨e1, e2, e3, e4, e5, e6, e7⟩ := stepByte_fields b (hasOk (stepLine s)).2
  refine ⟨stepByte b (hasOk (stepLine s)).2, ?_, ?_⟩
  · rw [step_eq, hpk]; rfl
  · have hur : unread (stepByte b (hasOk (stepLine s)).2) = rest := by
      simp only [unread, e1, e2, e3, e4, hmod]
      exact hrest.symm
    refine ⟨⟨⟨?_, ?_, ?_, ?_, e7.trans i5⟩, ?_, ?_⟩, hur⟩
    · rw [e2]; exact i1
    · rw [e3, e4, hmod]; omega
    · rw [e4]; exact i3
    · rw [e4, e1]; exact i4
    · rw [e5]; exact hk1
    · rw [hur, hu, e6, hp1]
      simp only [List.length_cons]
      push_cast
      ring

theorem step_nil (s : scanner) (h : Inv s) (hu : unread s = []) : step s = none := by
  obtain ⟨hI0, hu0, _, _⟩ := stepLine_spec s h
  rw [step_eq, peek_nil _ hI0 (hu0.trans hu)]
  rfl

theorem skipCR_ne (s : scanner) {c : Nat} (hc : c ≠ 13) : skipCR c s = some (c, s) := by
  simp [skipCR, hc]

theorem skipCR_last (s : scanner) (h : Inv s) (hu : unread s = [13]) : skipCR 13 s = none := by
  obtain ⟨hb, hs⟩ := has_spec s h
  have ht : (hasOk s).1 = true := by rw [hb, hu]; simp
  obtain ⟨s2, hst, hp⟩ := step_cons (hasOk s).2 hs.1 (hs.2.1.trans hu)
  simp only [skipCR, has_eq h, ht, if_true, hst]
  exact peek_nil s2 hp.1.1 hp.2

theorem skipCR_cons (s : scanner) (h : Inv s) {d : Nat} {rest : List Nat}
    (hu : unread s = 13 :: d :: rest) :
    ∃ s2, skipCR 13 s = some (d, s2) ∧ Post s s2 (d :: rest) := by
  obtain ⟨hb, hs⟩ := has_spec s h
  have ht : (hasOk s).1 = true := by rw [hb, hu]; simp
  obtain ⟨s2, hst, hp⟩ := step_cons (hasOk s).2 hs.1 (hs.2.1.trans hu)
  obtain ⟨hb2, hs2⟩ := has_spec s2 hp.1.1
  refine ⟨(hasOk s2).2, ?_, ⟨(hs.adv.trans hp.1).trans hs2.adv, hs2.2.1.trans hp.2⟩⟩
  simp only [skipCR, has_eq h, ht, if_true, hst]
  exact peek_cons s2 hp.1.1 hp.2

/-! ### The buffered scanner runs the list-level machine -/

theorem nextLoop_succ (fuel : Nat) (s : scanner) (state : stateType) (buffer : List Nat)
    (hI : Inv s) :
    nextLoop (fuel + 1) s state buffer =
      if (hasOk s).1 then
        match peek (hasOk s).2 with
        | none => .panicked
        | some (symbol, s2) =>
          match skipCR symbol s2 with
          | none => .panicked
          | some (symbol, s3) => loopBody fuel s3 state buffer symbol
      else .ok (tokenTypeOf state, buffer, (hasOk s).2) := by
  rw [nextLoop, has_eq hI]
  rfl

theorem NextFuel_succ (fuel : Nat) (s : scanner) (hI : Inv s) :
    NextFuel (fuel + 1) s =
      if (hasOk s).1 then nextLoop fuel (hasOk s).2 start [] else .ok (EOF, [], (hasOk s).2) := by
  rw [NextFuel, has_eq hI]

theorem cut_nil (st : stateType) (buf : List Nat) :
    cut st buf [] = some (tokenTypeOf st, buf, [], false) := by
  rw [cut]

theorem cut_cons (st : stateType) (buf : List Nat) {c : Nat} (rest : List Nat) (hc : c ≠ 13) :
    cut st buf (c :: rest) =
      if matrixAt (getSymbolType c) st = start then some (tokenTypeOf st, buf, c :: rest, true)
      else cut (matrixAt (getSymbolType c) st) (buf ++ [c]) rest := by
  cases rest with
  | nil => simp only [cut, if_neg hc]
  | cons d r => rw [cut, if_neg hc]

theorem cut_cr_last (st : stateType) (buf : List Nat) : cut st buf [13] = none := by
  rw [cut, if_pos rfl]

theorem cut_cr_cons (st : stateType) (buf : List Nat) (d : Nat) (rest : List Nat) :
    cut st buf (13 :: d :: rest) =
      if matrixAt (getSymbolType d) st = start then some (tokenTypeOf st, buf, d :: rest, true)
      else cut (matrixAt (getSymbolType d) st) (buf ++ [d]) rest := by
  rw [cut, if_pos rfl]

theorem loopL_nil (skip : Bool) (st : stateType) (buf : List Nat) :
    loopL skip st buf [] = some (tokenTypeOf st, buf, []) := by
  simp [loopL, cut_nil]

theorem loopL_cons (skip : Bool) (st : stateType) (buf : List Nat) {c : Nat} (rest : List Nat)
    (hc : c ≠ 13) : loopL skip st buf (c :: rest) = cutBody skip st buf c rest := by
  simp only [loopL, cut_cons st buf rest hc, cutBody]
  by_cases e : matrixAt (getSymbolType c) st = start
  · simp only [e, if_true, Bool.true_and]
  · simp only [e, if_false]

theorem loopL_cr_last (skip : Bool) (st : stateType) (buf : List Nat) :
    loopL skip st buf [13] = none := by
  simp [loopL, cut_cr_last]

theorem loopL_cr_cons (skip : Bool) (st : stateType) (buf : List Nat) (d : Nat) (rest : List Nat) :
    loopL skip st buf (13 :: d :: rest) = cutBody skip st buf d rest := by
  simp only [loopL, cut_cr_cons, cutBody]
  by_cases e : matrixAt (getSymbolType d) st = start
  · simp only [e, if_true, Bool.true_and]
  · simp only [e, if_false]

theorem Refines.of_adv {r : Result (TokenType × List Nat × scanner)} {s1 s2 : scanner}
    {spec : Option (TokenType × List Nat × List Nat)} (h : Refines r s2 spec) (ha : Adv s1 s2) :
    Refines r s1 spec := by
  unfold Refines at h ⊢
  match spec, h with
  | none, h => exact h
  | some (t, lex, rest), ⟨s3, h3, hp⟩ => exact ⟨s3, h3, ha.trans hp.1, hp.2⟩

theorem ite_motive {P : symbolType → Prop} {p : Prop} [Decidable p] {a b : symbolType}
    (ha : p → P a) (hb : ¬ p → P b) : P (if p then a else b) := by
  by_cases h : p
  · rw [if_pos h]; exact ha h
  · rw [if_neg h]; exact hb h

theorem getSymbolType_inClass (c : Nat) : inClass (getSymbolType c) c := by
  unfold getSymbolType
  refine ite_motive (P := fun sy => inClass sy c) (fun h => h) (fun h1 => ?_)
  refine ite_motive (P := fun sy => inClass sy c) (fun h => Or.inl h) (fun _ => ?_)
  refine ite_motive (P := fun sy => inClass sy c) (fun h => Or.inr h) (fun _ => ?_)
  refine ite_motive (P := fun sy => inClass sy c) (fun h => h) (fun _ => ?_)
  refine ite_motive (P := fun sy => inClass sy c) (fun h => h) (fun _ => ?_)
  refine ite_motive (P := fun sy => inClass sy c) (fun h => h) (fun _ => ?_)
  refine ite_motive (P := fun sy => inClass sy c) (fun h => h) (fun _ => ?_)
  refine ite_motive (P := fun sy => inClass sy c) (fun h => Or.inl h) (fun _ => ?_)
  refine ite_motive (P := fun sy => inClass sy c) (fun h => h) (fun _ => ?_)
  refine ite_motive (P := fun sy => inClass sy c) (fun h => Or.inr h) (fun _ => h1)

theorem getSymbolType_plain {c : Nat}
    (h : c ≠ 10 ∧ c ≠ 32 ∧ c ≠ 9 ∧ c ≠ 35 ∧ c ≠ 47 ∧ c ≠ 45 ∧ c ≠ 46 ∧ c ≠ 95) :
    getSymbolType c =
      if 48 ≤ c ∧ c ≤ 57 then digit
      else if 97 ≤ c ∧ c ≤ 122 ∨ 65 ≤ c ∧ c ≤ 90 then letter
      else other := by
  obtain ⟨h1, h2, h3, h4, h5, h6, h7, h8⟩ := h
  unfold getSymbolType
  rw [if_neg h1, if_neg h2, if_neg h3, if_neg h4, if_neg h5, if_neg h6, if_neg h7, if_neg h8]

theorem getSymbolType_digit {c : Nat} (h : isDigit c) : getSymbolType c = digit := by
  have hr : 48 ≤ c ∧ c ≤ 57 := h
  rw [getSymbolType_plain (by omega), if_pos hr]

theorem getSymbolType_letter {c : Nat} (h : isLetter c) : getSymbolType c = letter := by
  rcases h with h | h
  · subst h; rfl
  · rw [getSymbolType_plain (by omega), if_neg (by omega), if_pos h]

theorem getSymbolType_space {c : Nat} (h : c = 32 ∨ c = 9) : getSymbolType c = space := by
  rcases h with h | h <;> subst h <;> rfl

theorem getSymbolType_eol {d : Nat} (h : getSymbolType d = eol) : d = 10 := by
  have := getSymbolType_inClass d
  rw [h] at this
  exact this

theorem getSymbolType_ne_eol {c : Nat} (h : c ≠ 10) : getSymbolType c ≠ eol :=
  fun e => h (getSymbolType_eol e)

theorem matrixAt_skipLine {sy : symbolType} (h : matrixAt sy skipLine = start) : sy = eol := by
  cases sy <;> first | rfl | (exact absurd h (by decide))

theorem tokenTypeOf_comment {st : stateType} (h : tokenTypeOf st = Comment) : st = skipLine := by
  cases st <;> first | rfl | (exact absurd h (by decide))

theorem matrixAt_foundEol (d : Nat) : matrixAt (getSymbolType d) foundEol = start := by
  cases getSymbolType d <;> rfl

theorem cut_foundEol (buf u : List Nat) :
    cut foundEol buf u = none ∨ ∃ rest via, cut foundEol buf u = some (EOL, buf, rest, via) := by
  match u with
  | [] => exact Or.inr ⟨[], false, cut_nil _ _⟩
  | [c] =>
    by_cases hc : c = 13
    · left; rw [hc, cut_cr_last]
    · right
      refine ⟨[c], true, ?_⟩
      rw [cut_cons _ _ _ hc, if_pos (matrixAt_foundEol c)]; rfl
  | c :: d :: rest =>
    right
    by_cases hc : c = 13
    · refine ⟨d :: rest, true, ?_⟩
      rw [hc, cut_cr_cons, if_pos (matrixAt_foundEol d)]; rfl
    · refine ⟨c :: d :: rest, true, ?_⟩
      rw [cut_cons _ _ _ hc, if_pos (matrixAt_foundEol c)]; rfl

theorem NextL_eol (skip : Bool) (rest : List Nat) :
    NextL skip (10 :: rest) = rawNext (10 :: rest) := by
  have h1 : cut start [] (10 :: rest) = cut foundEol [10] rest := by
    rw [cut_cons _ _ _ (by decide)]
    rfl
  simp only [NextL, rawNext, loopL, h1, if_neg (List.cons_ne_nil 10 rest)]
  rcases cut_foundEol [10] rest with h | ⟨r, via, h⟩
  · simp only [h]
  · simp [h]

theorem body_refines (fuel : Nat)
    (ih1 : ∀ s st buf, Inv s → loopFuel (unread s).length st ≤ fuel →
      Refines (nextLoop fuel s st buf) s (loopL s.skipComments st buf (unread s)))
    (ih2 : ∀ s, Inv s → 3 * (unread s).length + 2 ≤ fuel →
      Refines (NextFuel fuel s) s (NextL s.skipComments (unread s)))
    (s : scanner) (st : stateType) (buf : List Nat) (d : Nat) (rest : List Nat)
    (hI : Inv s) (hu : unread s = d :: rest) (hf : loopFuel (rest.length + 1) st ≤ fuel + 1) :
    Refines (loopBody fuel s st buf d) s (cutBody s.skipComments st buf d rest) := by
  unfold loopBody cutBody
  by_cases e : matrixAt (getSymbolType d) st = start
  · rw [if_pos e, if_pos e]
    by_cases c : (s.skipComments && decide (tokenTypeOf st = Comment)) = true
    · rw [if_pos c, if_pos c]
      have hst : st = skipLine := by
        simp only [Bool.and_eq_true, decide_eq_true_eq] at c
        exact tokenTypeOf_comment c.2
      subst hst
      have hd : d = 10 := getSymbolType_eol (matrixAt_skipLine e)
      subst hd
      have h2 := ih2 s hI (by
        rw [hu]; simp only [loopFuel, List.length_cons] at hf ⊢
        rw [if_neg (by decide)] at hf
        omega)
      rw [hu, NextL_eol] at h2
      exact h2
    · rw [if_neg c, if_neg c]
      exact ⟨s, rfl, Adv.refl hI, hu⟩
  · rw [if_neg e, if_neg e]
    obtain ⟨s2, hst, hp⟩ := step_cons s hI hu
    rw [hst]
    have h1 := ih1 s2 (matrixAt (getSymbolType d) st) (buf ++ [d]) hp.1.1 (by
      rw [hp.2]; simp only [loopFuel] at hf ⊢
      rw [if_neg e]
      split at hf <;> omega)
    rw [hp.2, hp.1.2.1] at h1
    exact h1.of_adv hp.1

theorem refines_aux (fuel : Nat) :
    (∀ s st buf, Inv s → loopFuel (unread s).length st ≤ fuel →
      Refines (nextLoop fuel s st buf) s (loopL s.skipComments st buf (unread s))) ∧
    (∀ s, Inv s → 3 * (unread s).length + 2 ≤ fuel →
      Refines (NextFuel fuel s) s (NextL s.skipComments (unread s))) := by
  induction fuel with
  | zero =>
    constructor
    · intro s st buf _ hf
      simp only [loopFuel] at hf
      split at hf <;> omega
    · intro s _ hf
      omega
  | succ fuel ih =>
    obtain ⟨ih1, ih2⟩ := ih
    constructor
    · intro s st buf hI hf
      rw [nextLoop_succ _ _ _ _ hI]
      obtain ⟨hb, hs⟩ := has_spec s hI
      cases hu : unread s with
      | nil =>
        have ht : (hasOk s).1 = false := by rw [hb, hu]; simp
        rw [ht, loopL_nil]
        exact ⟨(hasOk s).2, rfl, hs.adv, hs.2.1.trans hu⟩
      | cons c rest =>
        have ht : (hasOk s).1 = true := by rw [hb, hu]; simp
        rw [ht, if_pos rfl]
        have hu1 : unread (hasOk s).2 = c :: rest := hs.2.1.trans hu
        rw [peek_cons _ hs.1 hu1]
        obtain ⟨_, hs1⟩ := has_spec (hasOk s).2 hs.1
        have hu2 : unread (hasOk (hasOk s).2).2 = c :: rest := hs1.2.1.trans hu1
        have ha2 : Adv s (hasOk (hasOk s).2).2 := hs.adv.trans hs1.adv
        have hk2 : (hasOk (hasOk s).2).2.skipComments = s.skipComments := ha2.2.1
        by_cases hc : c = 13
        · subst hc
          cases rest with
          | nil =>
            show Refines (match skipCR 13 (hasOk (hasOk s).2).2 with
              | none => .panicked
              | some (symbol, s3) => loopBody fuel s3 st buf symbol) s _
            rw [skipCR_last _ hs1.1 hu2, loopL_cr_last]
            rfl
          | cons d rest2 =>
            obtain ⟨s3, h3, hp3⟩ := skipCR_cons _ hs1.1 hu2
            show Refines (match skipCR 13 (hasOk (hasOk s).2).2 with
              | none => .panicked
              | some (symbol, s3) => loopBody fuel s3 st buf symbol) s _
            rw [h3, loopL_cr_cons]
            have hb3 := body_refines fuel ih1 ih2 s3 st buf d rest2 hp3.1.1 hp3.2 (by
              rw [hu] at hf
              simp only [loopFuel, List.length_cons] at hf ⊢
              omega)
            rw [hp3.1.2.1, hk2] at hb3
            exact hb3.of_adv (ha2.trans hp3.1)
        · show Refines (match skipCR c (hasOk (hasOk s).2).2 with
              | none => .panicked
              | some (symbol, s3) => loopBody fuel s3 st buf symbol) s _
          rw [skipCR_ne _ hc, loopL_cons _ _ _ _ hc]
          have hb3 := body_refines fuel ih1 ih2 _ st buf c rest hs1.1 hu2 (by
            rw [hu] at hf
            simpa only [loopFuel, List.length_cons] using hf)
          rw [hk2] at hb3
          exact hb3.of_adv ha2
    · intro s hI hf
      rw [NextFuel_succ _ _ hI]
      obtain ⟨hb, hs⟩ := has_spec s hI
      cases hu : unread s with
      | nil =>
        have ht : (hasOk s).1 = false := by rw [hb, hu]; simp
        rw [ht]
        exact ⟨(hasOk s).2, rfl, hs.adv, hs.2.1.trans hu⟩
      | cons c rest =>
        have ht : (hasOk s).1 = true := by rw [hb, hu]; simp
        rw [ht, if_pos rfl]
        have h1 := ih1 (hasOk s).2 start [] hs.1 (by
          rw [hs.2.1, hu]; rw [hu] at hf
          simp only [loopFuel, if_true, List.length_cons] at hf ⊢
          omega)
        rw [hs.2.1, hs.2.2.1, hu] at h1
        have hn : NextL s.skipComments (c :: rest) = loopL s.skipComments start [] (c :: rest) := by
          simp [NextL]
        rw [hn]
        exact h1.of_adv hs.adv

/-- The buffered `Next` computes the list-level `NextL` of its unread bytes: it
panics exactly when `NextL` does, and otherwise returns the same token and is
left with the same unread bytes. -/
theorem Next_refines (s : scanner) (hI : Inv s) :
    Refines (Next s) s (NextL s.skipComments (unread s)) :=
  (refines_aux _).2 s hI (by omega)

/-! ### What one token consumes -/

theorem absorb_cons {c : Nat} (hc : c ≠ 13) (rest : List Nat) :
    absorb (c :: rest) = c :: absorb rest := by
  cases rest with
  | nil => simp [absorb, hc]
  | cons d r => simp [absorb, hc]

theorem absorb_cr_cons (d : Nat) (rest : List Nat) :
    absorb (13 :: d :: rest) = d :: absorb rest := by
  simp [absorb]

theorem run_append (st : stateType) (xs ys : List Nat) :
    run st (xs ++ ys) = run (run st xs) ys := by
  simp [run, List.foldl_append]

theorem pathOK_append (st : stateType) (xs ys : List Nat) :
    pathOK st (xs ++ ys) ↔ pathOK st xs ∧ pathOK (run st xs) ys := by
  induction xs generalizing st with
  | nil => simp [pathOK, run]
  | cons c cs ih =>
    have hr : run st (c :: cs) = run (matrixAt (getSymbolType c) st) cs := rfl
    rw [hr]
    show _ ∧ pathOK (matrixAt (getSymbolType c) st) (cs ++ ys) ↔ _ ∧ _
    rw [ih]
    exact (and_assoc).symm

theorem list_two_step {P : List Nat → Prop} (h0 : P []) (h1 : ∀ c, P [c])
    (h2 : ∀ c d u, P u → P (d :: u) → P (c :: d :: u)) : ∀ u, P u := by
  have key : ∀ u, P u ∧ ∀ c, P (c :: u) := by
    intro u
    induction u with
    | nil => exact ⟨h0, h1⟩
    | cons d u ih => exact ⟨ih.2 d, fun c => h2 c d u ih.1 (ih.2 d)⟩
  exact fun u => (key u).1

/-- What `cut` returns: the unread bytes split into the consumed part `pre` and
the rest; the lexeme extends the buffer by `absorb pre`; the type is that of
the state reached; a token ended by a transition to `start` is followed by the
byte that caused it, a token ended otherwise is followed by nothing. -/
theorem cut_spec (u : List Nat) : ∀ (st : stateType) (buf : List Nat) (t : TokenType)
    (lex rest : List Nat) (via : Bool), cut st buf u = some (t, lex, rest, via) →
    ∃ pre, u = pre ++ rest ∧ lex = buf ++ absorb pre ∧ pathOK st (absorb pre) ∧
      t = tokenTypeOf (run st (absorb pre)) ∧
      (via = true → ∃ d r, rest = d :: r ∧
        matrixAt (getSymbolType d) (run st (absorb pre)) = start) ∧
      (via = false → rest = []) := by
  induction u using list_two_step with
  | h0 =>
    intro st buf t lex rest via h
    rw [cut_nil] at h
    obtain ⟨rfl, rfl, rfl, rfl⟩ := by simpa using h
    exact ⟨[], rfl, by simp [absorb], trivial, rfl, by simp, by simp⟩
  | h1 c =>
    intro st buf t lex rest via h
    by_cases hc : c = 13
    · rw [hc, cut_cr_last] at h; cases h
    · rw [cut_cons _ _ _ hc] at h
      by_cases e : matrixAt (getSymbolType c) st = start
      · rw [if_pos e] at h
        obtain ⟨rfl, rfl, rfl, rfl⟩ := by simpa using h
        exact ⟨[], rfl, by simp [absorb], trivial, rfl, fun _ => ⟨c, [], rfl, e⟩, by simp⟩
      · rw [if_neg e, cut_nil] at h
        obtain ⟨rfl, rfl, rfl, rfl⟩ := by simpa using h
        have ha : absorb [c] = [c] := by simp [absorb, hc]
        refine ⟨[c], rfl, by rw [ha], ?_, ?_, by simp, by simp⟩
        · rw [ha]; exact ⟨e, trivial⟩
        · rw [ha]; rfl
  | h2 c d u ih1 ih2 =>
    intro st buf t lex rest via h
    by_cases hc : c = 13
    · subst hc
      rw [cut_cr_cons] at h
      by_cases e : matrixAt (getSymbolType d) st = start
      · rw [if_pos e] at h
        obtain ⟨rfl, rfl, rfl, rfl⟩ := by simpa using h
        exact ⟨[13], rfl, by simp [absorb], trivial, rfl, fun _ => ⟨d, u, rfl, e⟩, by simp⟩
      · rw [if_neg e] at h
        obtain ⟨pre, h1, h2, h3, h4, h5, h6⟩ := ih1 _ _ _ _ _ _ h
        refine ⟨13 :: d :: pre, by rw [h1]; rfl, ?_, ?_, ?_, ?_, h6⟩
        · rw [h2, absorb_cr_cons]; simp
        · rw [absorb_cr_cons]; exact ⟨e, h3⟩
        · rw [absorb_cr_cons]; exact h4
        · rw [absorb_cr_cons]; exact h5
    · rw [cut_cons _ _ _ hc] at h
      by_cases e : matrixAt (getSymbolType c) st = start
      · rw [if_pos e] at h
        obtain ⟨rfl, rfl, rfl, rfl⟩ := by simpa using h
        exact ⟨[], rfl, by simp [absorb], trivial, rfl, fun _ => ⟨c, d :: u, rfl, e⟩, by simp⟩
      · rw [if_neg e] at h
        obtain ⟨pre, h1, h2, h3, h4, h5, h6⟩ := ih2 _ _ _ _ _ _ h
        refine ⟨c :: pre, by rw [h1]; rfl, ?_, ?_, ?_, ?_, h6⟩
        · rw [h2, absorb_cons hc]; simp
        · rw [absorb_cons hc]; exact ⟨e, h3⟩
        · rw [absorb_cons hc]; exact h4
        · rw [absorb_cons hc]; exact h5

theorem tokenTypeOf_ne_EOF (st : stateType) : tokenTypeOf st ≠ EOF := by
  cases st <;> decide

theorem cut_ne_EOF {st : stateType} {buf u : List Nat} {t : TokenType} {lex rest : List Nat}
    {via : Bool} (h : cut st buf u = some (t, lex, rest, via)) : t ≠ EOF := by
  obtain ⟨pre, _, _, _, h4, _⟩ := cut_spec u st buf t lex rest via h
  rw [h4]; exact tokenTypeOf_ne_EOF _

/-- From `start` the first byte is always consumed. -/
theorem cut_start_spec {u : List Nat} (hu : u ≠ []) {t : TokenType} {lex rest : List Nat}
    {via : Bool} (h : cut start [] u = some (t, lex, rest, via)) :
    ∃ pre, u = pre ++ rest ∧ lex = absorb pre ∧ lex ≠ [] ∧ pathOK start lex ∧
      t = tokenTypeOf (run start lex) ∧
      (via = true → ∃ d r, rest = d :: r ∧ matrixAt (getSymbolType d) (run start lex) = start) ∧
      (via = false → rest = []) := by
  obtain ⟨pre, h1, h2, h3, h4, h5, h6⟩ := cut_spec u start [] t lex rest via h
  rw [List.nil_append] at h2
  rw [← h2] at h3 h4 h5
  refine ⟨pre, h1, h2, ?_, h3, h4, h5, h6⟩
  intro hl
  rw [hl] at h5
  cases via with
  | true =>
    obtain ⟨d, r, _, hm⟩ := h5 rfl
    exact matrixAt_start_ne _ hm
  | false =>
    have hr := h6 rfl
    rw [hr, List.append_nil] at h1
    rw [hl] at h2
    -- nothing consumed although the input is not empty
    match u, hu, h, h1 with
    | [c], _, h, h1 =>
      by_cases hc : c = 13
      · rw [hc, cut_cr_last] at h; cases h
      · rw [← h1, absorb_cons hc] at h2; cases h2
    | c :: d :: w, _, h, h1 =>
      by_cases hc : c = 13
      · rw [← h1, hc, absorb_cr_cons] at h2; cases h2
      · rw [← h1, absorb_cons hc] at h2; cases h2

theorem NextL_nil (skip : Bool) : NextL skip [] = some (EOF, [], []) := by
  simp [NextL]

/-- What a call of `Next` consumes and returns on non-empty unread bytes `u`:
possibly a hidden part (a skipped comment), then the bytes `pre` of the token. -/
theorem NextL_spec {skip : Bool} {u : List Nat} (hu : u ≠ []) {t : TokenType}
    {lex rest : List Nat} (h : NextL skip u = some (t, lex, rest)) :
    ∃ hid pre, u = hid ++ pre ++ rest ∧ lex = absorb pre ∧ lex ≠ [] ∧ pathOK start lex ∧
      t = tokenTypeOf (run start lex) ∧ (skip = false → hid = []) := by
  simp only [NextL, if_neg hu, loopL] at h
  cases hc : cut start [] u with
  | none => rw [hc] at h; cases h
  | some r =>
    obtain ⟨t1, lex1, rest1, via⟩ := r
    rw [hc] at h
    simp only at h
    obtain ⟨pre, h1, h2, h3, h4, h5, h6, h7⟩ := cut_start_spec hu hc
    by_cases c : (via && skip && decide (t1 = Comment)) = true
    · rw [if_pos c] at h
      simp only [Bool.and_eq_true, decide_eq_true_eq] at c
      obtain ⟨⟨hv, hs⟩, ht⟩ := c
      obtain ⟨d, r, hr, hm⟩ := h6 hv
      have hst : run start lex1 = skipLine := tokenTypeOf_comment (h5 ▸ ht)
      rw [hst] at hm
      have hd : d = 10 := getSymbolType_eol (matrixAt_skipLine hm)
      subst hd
      have hne : rest1 ≠ [] := by rw [hr]; simp
      rw [rawNext, if_neg hne] at h
      cases hc2 : cut start [] rest1 with
      | none => rw [hc2] at h; cases h
      | some r2 =>
        obtain ⟨t2, lex2, rest2, via2⟩ := r2
        rw [hc2] at h
        simp only [Option.some.injEq, Prod.mk.injEq] at h
        obtain ⟨rfl, rfl, rfl⟩ := h
        obtain ⟨pre2, g1, g2, g3, g4, g5, _, _⟩ := cut_start_spec hne hc2
        refine ⟨pre, pre2, ?_, g2, g3, g4, g5, ?_⟩
        · rw [h1, g1]; simp
        · intro hf; rw [hf] at hs; cases hs
    · rw [if_neg c] at h
      simp only [Option.some.injEq, Prod.mk.injEq] at h
      obtain ⟨rfl, rfl, rfl⟩ := h
      exact ⟨[], pre, by simpa using h1, h2, h3, h4, h5, fun _ => rfl⟩

theorem NextL_eof {skip : Bool} {u lex rest : List Nat}
    (h : NextL skip u = some (EOF, lex, rest)) : u = [] ∧ lex = [] ∧ rest = [] := by
  by_cases hu : u = []
  · subst hu
    rw [NextL_nil] at h
    simp only [Option.some.injEq, Prod.mk.injEq, true_and] at h
    exact ⟨rfl, h.1.symm, h.2.symm⟩
  · obtain ⟨_, _, _, _, _, _, h5, _⟩ := NextL_spec hu h
    exact absurd h5.symm (tokenTypeOf_ne_EOF _)

theorem NextL_length {skip : Bool} {u : List Nat} {t : TokenType} {lex rest : List Nat}
    (h : NextL skip u = some (t, lex, rest)) (ht : t ≠ EOF) : rest.length < u.length := by
  have hu : u ≠ [] := by
    intro hu; subst hu; rw [NextL_nil] at h
    simp only [Option.some.injEq, Prod.mk.injEq] at h
    exact ht h.1.symm
  obtain ⟨hid, pre, h1, h2, h3, _⟩ := NextL_spec hu h
  have hp : pre ≠ [] := by
    intro hp; rw [hp] at h2; exact h3 (by rw [h2]; rfl)
  have : 0 < pre.length := List.length_pos.mpr hp
  rw [h1]; simp only [List.length_append]; omega

/-! ### Sequences of calls -/

theorem Next_panicked {s : scanner} (hI : Inv s) (h : NextL s.skipComments (unread s) = none) :
    Next s = .panicked := by
  have := Next_refines s hI
  rw [h] at this
  exact this

theorem Next_of_NextL {s : scanner} (hI : Inv s) {t : TokenType} {lex rest : List Nat}
    (h : NextL s.skipComments (unread s) = some (t, lex, rest)) :
    ∃ s2, Next s = .ok (t, lex, s2) ∧ Post s s2 rest := by
  have := Next_refines s hI
  rw [h] at this
  exact this

theorem Next_ok {s : scanner} (hI : Inv s) {t : TokenType} {lex : List Nat} {s2 : scanner}
    (h : Next s = .ok (t, lex, s2)) :
    NextL s.skipComments (unread s) = some (t, lex, unread s2) ∧ Adv s s2 := by
  cases hn : NextL s.skipComments (unread s) with
  | none => rw [Next_panicked hI hn] at h; cases h
  | some r =>
    obtain ⟨t1, lex1, rest1⟩ := r
    obtain ⟨s3, h3, hp⟩ := Next_of_NextL hI hn
    rw [h3] at h
    simp only [Result.ok.injEq, Prod.mk.injEq] at h
    obtain ⟨rfl, rfl, rfl⟩ := h
    exact ⟨by rw [hp.2], hp.1⟩

theorem Next_ne_outOfFuel {s : scanner} (hI : Inv s) : Next s ≠ .outOfFuel := by
  cases hn : NextL s.skipComments (unread s) with
  | none => rw [Next_panicked hI hn]; exact fun h => by cases h
  | some r =>
    obtain ⟨t1, lex1, rest1⟩ := r
    obtain ⟨s3, h3, _⟩ := Next_of_NextL hI hn
    rw [h3]; exact fun h => by cases h

theorem nextN_of_nextNL (n : Nat) : ∀ {s : scanner}, Inv s →
    ∀ {toks : List (TokenType × List Nat)} {rest : List Nat},
    nextNL n s.skipComments (unread s) = some (toks, rest) →
    ∃ s2, nextN n s = .ok (toks, s2) ∧ Post s s2 rest := by
  induction n with
  | zero =>
    intro s hI toks rest h
    simp only [nextNL, Option.some.injEq, Prod.mk.injEq] at h
    obtain ⟨rfl, rfl⟩ := h
    exact ⟨s, rfl, Adv.refl hI, rfl⟩
  | succ n ih =>
    intro s hI toks rest h
    rw [nextNL] at h
    cases hn : NextL s.skipComments (unread s) with
    | none => rw [hn] at h; cases h
    | some r =>
      obtain ⟨t1, lex1, rest1⟩ := r
      rw [hn] at h
      simp only at h
      obtain ⟨s1, h1, hp1⟩ := Next_of_NextL hI hn
      cases hm : nextNL n s.skipComments rest1 with
      | none => rw [hm] at h; cases h
      | some r2 =>
        obtain ⟨toks2, rest2⟩ := r2
        rw [hm] at h
        simp only [Option.some.injEq, Prod.mk.injEq] at h
        obtain ⟨rfl, rfl⟩ := h
        rw [← hp1.2, ← hp1.1.2.1] at hm
        obtain ⟨s2, h2, hp2⟩ := ih hp1.1.1 hm
        refine ⟨s2, ?_, hp1.1.trans hp2.1, hp2.2⟩
        rw [nextN, h1]
        simp only [h2]

theorem nextN_panicked (n : Nat) : ∀ {s : scanner}, Inv s →
    nextNL n s.skipComments (unread s) = none → nextN n s = .panicked := by
  induction n with
  | zero => intro s _ h; simp [nextNL] at h
  | succ n ih =>
    intro s hI h
    rw [nextNL] at h
    cases hn : NextL s.skipComments (unread s) with
    | none => rw [nextN, Next_panicked hI hn]
    | some r =>
      obtain ⟨t1, lex1, rest1⟩ := r
      rw [hn] at h
      simp only at h
      obtain ⟨s1, h1, hp1⟩ := Next_of_NextL hI hn
      cases hm : nextNL n s.skipComments rest1 with
      | none =>
        rw [← hp1.2, ← hp1.1.2.1] at hm
        rw [nextN, h1]
        simp only [ih hp1.1.1 hm]
      | some r2 =>
        obtain ⟨toks2, rest2⟩ := r2
        rw [hm] at h
        cases h

theorem nextN_ok {n : Nat} {s : scanner} (hI : Inv s) {toks : List (TokenType × List Nat)}
    {s2 : scanner} (h : nextN n s = .ok (toks, s2)) :
    nextNL n s.skipComments (unread s) = some (toks, unread s2) ∧ Adv s s2 := by
  cases hn : nextNL n s.skipComments (unread s) with
  | none => rw [nextN_panicked n hI hn] at h; cases h
  | some r =>
    obtain ⟨toks1, rest1⟩ := r
    obtain ⟨s3, h3, hp⟩ := nextN_of_nextNL n hI hn
    rw [h3] at h
    simp only [Result.ok.injEq, Prod.mk.injEq] at h
    obtain ⟨rfl, rfl⟩ := h
    exact ⟨by rw [hp.2], hp.1⟩

theorem tokens_refines (n : Nat) : ∀ {s : scanner}, Inv s →
    tokensUntilEOF n s = tokensL n s.skipComments (unread s) := by
  induction n with
  | zero => intro s _; rfl
  | succ n ih =>
    intro s hI
    rw [tokensUntilEOF, tokensL]
    cases hn : NextL s.skipComments (unread s) with
    | none => rw [Next_panicked hI hn]
    | some r =>
      obtain ⟨t1, lex1, rest1⟩ := r
      obtain ⟨s1, h1, hp1⟩ := Next_of_NextL hI hn
      rw [h1]
      simp only
      rw [ih hp1.1.1, hp1.2, hp1.1.2.1]

theorem Inv_SkipComments {s : scanner} (h : Inv s) (b : Bool) : Inv (SkipComments s b) := h

theorem unread_SkipComments (s : scanner) (b : Bool) : unread (SkipComments s b) = unread s := rfl

/-! ### C1: `EOF` is sticky -/

theorem eof_sticky_aux (k : Nat) : ∀ {s : scanner}, Inv s → unread s = [] →
    ∃ s2, nextN k s = .ok (List.replicate k (EOF, []), s2) := by
  induction k with
  | zero => intro s _ _; exact ⟨s, rfl⟩
  | succ k ih =>
    intro s hI hu
    have hn : NextL s.skipComments (unread s) = some (EOF, [], []) := by rw [hu, NextL_nil]
    obtain ⟨s1, h1, hp1⟩ := Next_of_NextL hI hn
    obtain ⟨s2, h2⟩ := ih hp1.1.1 hp1.2
    refine ⟨s2, ?_⟩
    rw [nextN, h1]
    simp only [h2]
    rfl

/-- C1: on a scanner made by `NewScanner` (with either comment-skipping setting), after
any number of `Next` calls, if a call returns a token of type `EOF` then its lexeme is
empty and every later call returns exactly `(EOF, "")`. -/
theorem eof_is_sticky (input : List Nat) (skip : Bool) (n : Nat)
    (toks : List (TokenType × List Nat)) (s s2 : scanner) (lex : List Nat)
    (hrun : nextN n (SkipComments (NewScanner input) skip) = .ok (toks, s))
    (heof : Next s = .ok (EOF, lex, s2)) :
    lex = [] ∧ ∀ k, ∃ s3, nextN k s2 = .ok (List.replicate k (EOF, []), s3) := by
  have hI0 : Inv (SkipComments (NewScanner input) skip) := Inv_NewScanner input
  obtain ⟨_, ha⟩ := nextN_ok hI0 hrun
  obtain ⟨hn, ha2⟩ := Next_ok ha.1 heof
  obtain ⟨_, hl, hr⟩ := NextL_eof hn
  exact ⟨hl, fun k => eof_sticky_aux k ha2.1 hr⟩

set_option maxRecDepth 100000 in
theorem eof_is_sticky_witness :
    nextN 1 (SkipComments (NewScanner [97]) true)
        = .ok ([(Word, [97])], { NewScanner [97] with bufpos := 1, posNum := 1, lineStr := [97] }) ∧
      Next { NewScanner [97] with bufpos := 1, posNum := 1, lineStr := [97] }
        = .ok (EOF, [], { NewScanner [97] with bufpos := 1, posNum := 1, lineStr := [97] }) ∧
      (([] : List Nat) = [] ∧ ∀ k, ∃ s3,
        nextN k { NewScanner [97] with bufpos := 1, posNum := 1, lineStr := [97] }
          = .ok (List.replicate k (EOF, []), s3)) :=
  ⟨by decide, by decide,
    eof_is_sticky [97] true 1 [(Word, [97])]
      { NewScanner [97] with bufpos := 1, posNum := 1, lineStr := [97] }
      { NewScanner [97] with bufpos := 1, posNum := 1, lineStr := [97] } [] (by decide) (by decide)⟩

/-! ### Positions and newlines (C9, C10), tables (C8), failing inputs (C5, C6) -/

theorem absorb_no_cr {pre : List Nat} (h : 13 ∉ pre) : absorb pre = pre := by
  induction pre with
  | nil => rfl
  | cons c r ih =>
    have hc : c ≠ 13 := fun e => h (by rw [e]; exact List.mem_cons_self _ _)
    rw [absorb_cons hc, ih (fun e => h (List.mem_cons_of_mem _ e))]

theorem absorb_count_le (pre : List Nat) : (absorb pre).count 10 ≤ pre.count 10 := by
  induction pre using list_two_step with
  | h0 => simp [absorb]
  | h1 c => by_cases hc : c = 13 <;> simp [absorb, hc]
  | h2 c d u ih1 ih2 =>
    by_cases hc : c = 13
    · subst hc
      rw [absorb_cr_cons, List.count_cons, List.count_cons, List.count_cons]
      simp only [show ((13 : Nat) == 10) = false from rfl]
      simp only [Bool.false_eq_true, if_false, add_zero]
      omega
    · rw [absorb_cons hc, List.count_cons, List.count_cons]
      omega

theorem matrixAt_foundEol_from {sy : symbolType} {q : stateType}
    (h : matrixAt sy q = foundEol) : q = start ∧ sy = eol := by
  cases sy <;> cases q <;> first | exact ⟨rfl, rfl⟩ | exact absurd h (by decide)

theorem run_foundEol_aux (cs : List Nat) : ∀ q : stateType, q ≠ start → pathOK q cs →
    run q cs = foundEol → q = foundEol ∧ cs = [] := by
  induction cs with
  | nil => intro q _ _ h; exact ⟨h, rfl⟩
  | cons c cs ih =>
    intro q hq hp h
    obtain ⟨h1, _⟩ := ih _ hp.1 hp.2 h
    exact absurd (matrixAt_foundEol_from h1).1 hq

theorem tokenTypeOf_EOL {st : stateType} (h : tokenTypeOf st = EOL) : st = foundEol := by
  cases st <;> first | rfl | exact absurd h (by decide)

theorem lex_of_EOL {lex : List Nat} (hp : pathOK start lex)
    (h : tokenTypeOf (run start lex) = EOL) : lex = [10] := by
  have hr := tokenTypeOf_EOL h
  match lex, hp, hr with
  | [], _, hr => cases hr
  | c :: cs, hp, hr =>
    obtain ⟨h1, h2⟩ := run_foundEol_aux cs _ hp.1 hp.2 hr
    rw [h2, getSymbolType_eol (matrixAt_foundEol_from h1).2]

/-- What `n` calls consume. -/
theorem nextNL_spec (n : Nat) : ∀ {skip : Bool} {u : List Nat}
    {toks : List (TokenType × List Nat)} {rest : List Nat},
    nextNL n skip u = some (toks, rest) →
    ∃ pre, u = pre ++ rest ∧ (skip = false → 13 ∉ u → lexemeBytes toks = pre.length) ∧
      countEOL toks ≤ pre.count 10 ∧ ∀ lex, (EOL, lex) ∈ toks → lex = [10] := by
  induction n with
  | zero =>
    intro skip u toks rest h
    simp only [nextNL, Option.some.injEq, Prod.mk.injEq] at h
    obtain ⟨rfl, rfl⟩ := h
    exact ⟨[], rfl, fun _ _ => rfl, by simp [countEOL], by simp⟩
  | succ n ih =>
    intro skip u toks rest h
    rw [nextNL] at h
    cases hn : NextL skip u with
    | none => rw [hn] at h; cases h
    | some r =>
      obtain ⟨t1, lex1, rest1⟩ := r
      rw [hn] at h
      simp only at h
      cases hm : nextNL n skip rest1 with
      | none => rw [hm] at h; cases h
      | some r2 =>
        obtain ⟨toks2, rest2⟩ := r2
        rw [hm] at h
        simp only [Option.some.injEq, Prod.mk.injEq] at h
        obtain ⟨rfl, rfl⟩ := h
        obtain ⟨pre2, g1, g2, g3, g4⟩ := ih hm
        by_cases hu : u = []
        · subst hu
          rw [NextL_nil] at hn
          simp only [Option.some.injEq, Prod.mk.injEq] at hn
          obtain ⟨rfl, rfl, rfl⟩ := hn
          refine ⟨pre2, g1, ?_, ?_, ?_⟩
          · intro hs h13
            simpa [lexemeBytes] using g2 hs h13
          · simpa [countEOL] using g3
          · intro lex hl
            simp only [List.mem_cons, Prod.mk.injEq] at hl
            rcases hl with ⟨hl, _⟩ | hl
            · cases hl
            · exact g4 lex hl
        · obtain ⟨hid, pre, h1, h2, h3, h4, h5, h6⟩ := NextL_spec hu hn
          refine ⟨hid ++ pre ++ pre2, by rw [h1, g1]; simp, ?_, ?_, ?_⟩
          · intro hs h13
            have hh := h6 hs
            subst hh
            have hp13 : 13 ∉ pre := fun e => h13 (by rw [h1]; simp [e])
            have hr13 : 13 ∉ rest1 := fun e => h13 (by rw [h1]; simp [e])
            have := g2 hs hr13
            simp only [lexemeBytes, List.map_cons, List.sum_cons] at this ⊢
            rw [this, h2, absorb_no_cr hp13]
            simp
          · by_cases he : t1 = EOL
            · have hl := lex_of_EOL h4 (h5 ▸ he)
              have hc := absorb_count_le pre
              rw [← h2, hl] at hc
              simp only [countEOL, List.filter_cons, he, decide_True, if_true,
                List.length_cons, List.count_append] at g3 ⊢
              simp only [List.count_singleton_self] at hc
              omega
            · simp only [countEOL, List.filter_cons, he, decide_False, List.count_append,
                Bool.false_eq_true, if_false] at g3 ⊢
              omega
          · intro lex hl
            simp only [List.mem_cons, Prod.mk.injEq] at hl
            rcases hl with ⟨hl, hl2⟩ | hl
            · rw [hl2]
              exact lex_of_EOL h4 (by rw [← h5, ← hl])
            · exact g4 lex hl

theorem consumed_spec {input : List Nat} {skip : Bool} {n : Nat}
    {toks : List (TokenType × List Nat)} {s : scanner}
    (hrun : nextN n (SkipComments (NewScanner input) skip) = .ok (toks, s)) :
    input = consumed input s ++ unread s ∧ s.posNum = (consumed input s).length ∧
      nextNL n skip input = some (toks, unread s) := by
  have hI0 : Inv (SkipComments (NewScanner input) skip) := Inv_NewScanner input
  obtain ⟨hn, ha⟩ := nextN_ok hI0 hrun
  have hu0 : unread (SkipComments (NewScanner input) skip) = input := unread_NewScanner input
  rw [hu0] at hn
  have hn2 : nextNL n skip input = some (toks, unread s) := hn
  obtain ⟨pre, h1, _⟩ := nextNL_spec n hn2
  have hp := ha.2.2
  rw [hu0] at hp
  have hp0 : (SkipComments (NewScanner input) skip).posNum = 0 := rfl
  rw [hp0] at hp
  have hlen : input.length = pre.length + (unread s).length := by
    conv_lhs => rw [h1]
    simp
  have hpos : s.posNum = (pre.length : Int) := by
    rw [hlen] at hp; push_cast at hp; omega
  have hc : consumed input s = pre := by
    unfold consumed
    rw [hpos, Int.toNat_ofNat]
    conv_lhs => rw [h1]
    simp
  exact ⟨by rw [hc]; exact h1, by rw [hc]; exact hpos, hn2⟩

/-- C5 (the code at the failing input): with comment skipping on, `Next` returns a
`Comment` token for a comment that runs to the end of the input. -/
theorem comment_returned_at_end_of_input :
    IsSkipComments (NewScanner [35, 97]) = true ∧
      (Next (NewScanner [35, 97])).token = .ok (Comment, [35, 97]) := by
  decide!

/-- C6 (the code at the failing input): on the stream `"a\r"` the first `Next` call
panics in `peek` instead of returning a token. -/
theorem trailing_cr_panics : Next (NewScanner [97, 13]) = .panicked := by
  decide!

/-- C8: the table `matrix` is the transition matrix of section 6 of the specification,
entry for entry, with rows and columns in the stated order, and `tokenTypeMap` maps the
eleven states to the listed token types in that order. -/
theorem tables_are_spec_tables :
    matrix = specMatrix ∧ tokenTypeMap = specEmit ∧
      specSymbols.map (fun sy => specStates.map (matrixAt sy)) = specMatrix ∧
      specStates.map tokenTypeOf = specEmit ∧
      specSymbols.map symbolType.toNat = List.range 9 ∧
      specStates.map stateType.toNat = List.range 11 := by
  decide

/-- C10: after any number of successful `Next` calls on a scanner made by `NewScanner`,
with either comment-skipping setting, the number of `EOL` tokens returned so far is at
most the number of `'\n'` bytes among the input bytes consumed so far, and every `EOL`
token has the lexeme `"\n"`. -/
theorem eol_tokens_track_newlines (input : List Nat) (skip : Bool) (n : Nat)
    (toks : List (TokenType × List Nat)) (s : scanner)
    (hrun : nextN n (SkipComments (NewScanner input) skip) = .ok (toks, s)) :
    countEOL toks ≤ (consumed input s).count 10 ∧ ∀ lex, (EOL, lex) ∈ toks → lex = [10] := by
  obtain ⟨h1, _, h3⟩ := consumed_spec hrun
  obtain ⟨pre, g1, _, g3, g4⟩ := nextNL_spec n h3
  have hpre : pre = consumed input s := by
    have := h1.symm.trans g1
    exact (List.append_cancel_right this).symm
  rw [← hpre]
  exact ⟨g3, g4⟩

set_option maxRecDepth 100000 in
theorem eol_tokens_track_newlines_witness :
    nextN 2 (SkipComments (NewScanner [35, 10, 10]) true)
        = .ok ([(EOL, [10]), (EOL, [10])],
            { NewScanner [35, 10, 10] with bufpos := 3, posNum := 3, lineStr := [],
                                           lineNum := 1, switchLine := true }) ∧
      countEOL [(EOL, [10]), (EOL, [10])] ≤ 2 :=
  ⟨by decide!,
    (eol_tokens_track_newlines [35, 10, 10] true 2 [(EOL, [10]), (EOL, [10])]
      { NewScanner [35, 10, 10] with bufpos := 3, posNum := 3, lineStr := [],
                                     lineNum := 1, switchLine := true }
      (by decide!)).1.trans (by decide!)⟩

/-! ### C2: concatenation of the lexemes -/

theorem crFollowed_tail {c : Nat} {rest : List Nat} (h : crFollowed (c :: rest) = true) :
    crFollowed rest = true := by
  cases rest with
  | nil => rfl
  | cons d r =>
    simp only [crFollowed, Bool.and_eq_true] at h
    exact h.2

theorem crFollowed_suffix (pre : List Nat) {rest : List Nat}
    (h : crFollowed (pre ++ rest) = true) : crFollowed rest = true := by
  induction pre with
  | nil => exact h
  | cons c p ih => exact ih (crFollowed_tail h)

theorem crFollowed_of_no_cr {u : List Nat} (h : 13 ∉ u) : crFollowed u = true := by
  induction u using list_two_step with
  | h0 => rfl
  | h1 c =>
    have : c ≠ 13 := fun e => h (by simp [e])
    simp [crFollowed, this]
  | h2 c d u _ ih2 =>
    have hc : c ≠ 13 := fun e => h (by simp [e])
    simp only [crFollowed, Bool.and_eq_true]
    exact ⟨by simp [hc], ih2 (fun e => h (List.mem_cons_of_mem _ e))⟩

theorem cut_none (u : List Nat) : ∀ (st : stateType) (buf : List Nat),
    cut st buf u = none → crFollowed u = false := by
  induction u using list_two_step with
  | h0 => intro st buf h; rw [cut_nil] at h; cases h
  | h1 c =>
    intro st buf h
    by_cases hc : c = 13
    · simp [crFollowed, hc]
    · rw [cut_cons _ _ _ hc] at h
      by_cases e : matrixAt (getSymbolType c) st = start
      · rw [if_pos e] at h; cases h
      · rw [if_neg e, cut_nil] at h; cases h
  | h2 c d u ih1 ih2 =>
    intro st buf h
    have key : crFollowed (d :: u) = false → crFollowed (c :: d :: u) = false := by
      intro hd; simp [crFollowed, hd]
    by_cases hc : c = 13
    · subst hc
      rw [cut_cr_cons] at h
      by_cases e : matrixAt (getSymbolType d) st = start
      · rw [if_pos e] at h; cases h
      · rw [if_neg e] at h
        have hu := ih1 _ _ h
        apply key
        by_contra hne
        have := @crFollowed_tail d u (by simpa using hne)
        rw [hu] at this; cases this
    · rw [cut_cons _ _ _ hc] at h
      by_cases e : matrixAt (getSymbolType c) st = start
      · rw [if_pos e] at h; cases h
      · rw [if_neg e] at h
        exact key (ih2 _ _ h)

theorem absorb_eq_stripCR (pre : List Nat) : ∀ rest : List Nat,
    crFollowed (pre ++ rest) = true → absorb pre = stripCR pre := by
  induction pre using list_two_step with
  | h0 => intro _ _; rfl
  | h1 c =>
    intro rest _
    by_cases hc : c = 13
    · simp [absorb, stripCR, hc]
    · simp [absorb, stripCR, hc]
  | h2 c d u ih1 ih2 =>
    intro rest h
    by_cases hc : c = 13
    · subst hc
      have hd : d ≠ 13 := by
        simp only [List.cons_append, crFollowed, Bool.and_eq_true, Bool.or_eq_true] at h
        rcases h.1 with h1 | h1
        · simp at h1
        · simpa using h1
      have h2 : crFollowed (u ++ rest) = true := crFollowed_tail (crFollowed_tail h)
      rw [absorb_cr_cons, ih1 rest h2]
      simp [stripCR, hd]
    · have h2 : crFollowed ((d :: u) ++ rest) = true := crFollowed_tail h
      rw [absorb_cons hc, ih2 rest h2]
      simp [stripCR, hc]

theorem stripCR_append (xs ys : List Nat) : stripCR (xs ++ ys) = stripCR xs ++ stripCR ys := by
  simp [stripCR]

/-- List level: with comment skipping disabled and well-placed `'\r'` bytes the token
stream exists and its lexemes concatenate to the input without its `'\r'` bytes. -/
theorem tokensL_lexemes (n : Nat) : ∀ u : List Nat, u.length < n → crFollowed u = true →
    ∃ toks, tokensL n false u = .ok toks ∧ lexemes toks = stripCR u := by
  induction n with
  | zero => intro u h _; omega
  | succ n ih =>
    intro u hlen hcr
    rw [tokensL]
    by_cases hu : u = []
    · subst hu
      rw [NextL_nil]
      exact ⟨[], by simp, rfl⟩
    · cases hn : NextL false u with
      | none =>
        exfalso
        simp only [NextL, if_neg hu, loopL] at hn
        cases hc : cut start [] u with
        | none => have := cut_none u _ _ hc; rw [hcr] at this; cases this
        | some r =>
          obtain ⟨t, lex, rest, via⟩ := r
          rw [hc] at hn
          simp at hn
      | some r =>
        obtain ⟨t, lex, rest⟩ := r
        obtain ⟨hid, pre, h1, h2, h3, h4, h5, h6⟩ := NextL_spec hu hn
        have hh := h6 rfl
        subst hh
        rw [List.nil_append] at h1
        have hte : t ≠ EOF := by rw [h5]; exact tokenTypeOf_ne_EOF _
        have hrl : rest.length < n := by
          have := NextL_length hn hte
          omega
        have hcr2 : crFollowed rest = true := crFollowed_suffix pre (h1 ▸ hcr)
        obtain ⟨toks, g1, g2⟩ := ih rest hrl hcr2
        refine ⟨(t, lex) :: toks, by simp [hte, g1], ?_⟩
        have ha : absorb pre = stripCR pre := absorb_eq_stripCR pre rest (h1 ▸ hcr)
        rw [h1, stripCR_append, ← ha, ← h2, ← g2]
        simp [lexemes]

/-- With comment skipping disabled, on an input whose `'\r'` bytes are each followed by
a byte other than `'\r'`, the scanner does not fail and the lexemes of its token
stream concatenate to the input without its `'\r'` bytes. -/
theorem tokens_lexemes_of_crFollowed {input : List Nat} (h : crFollowed input = true) :
    ∃ toks, tokens (SkipComments (NewScanner input) false) = .ok toks ∧
      lexemes toks = stripCR input := by
  have hI0 : Inv (SkipComments (NewScanner input) false) := Inv_NewScanner input
  have hu0 : unread (SkipComments (NewScanner input) false) = input := unread_NewScanner input
  rw [tokens, tokens_refines _ hI0, hu0]
  exact tokensL_lexemes _ input (by omega) h

/-- C2 (as stated it fails): on `"\r\ra"`, scanned with comment skipping disabled, the only
token before `EOF` is `Unknown` with lexeme `"\ra"`, which is not the input without its
`'\r'` bytes; on `"a\r"` the scan panics.  And a reader may deliver fewer bytes than the
buffer holds: when the `Read` of `NewScanner` delivers only the first byte of `"ab c\n"`,
the short fill is taken for the end of the input and the only token before `EOF` is
`(Word, "a")`. -/
theorem lexeme_concat_counterexample :
    (¬ ∀ input : List Nat, ∃ toks, tokens (SkipComments (NewScanner input) false) = .ok toks ∧
      lexemes toks = stripCR input) ∧
    tokens (SkipComments (NewScanner [97, 13]) false) = .panicked ∧
    ((NewScannerFrom [some 1] [97, 98, 32, 99, 10]).map
        (fun s => tokens (SkipComments s false)) = some (.ok [(Word, [97])]) ∧
      lexemes [(Word, [97])] ≠ stripCR [97, 98, 32, 99, 10]) := by
  refine ⟨fun h => ?_, by decide!, by decide!⟩
  obtain ⟨toks, h1, h2⟩ := h [13, 13, 97]
  have e : tokens (SkipComments (NewScanner [13, 13, 97]) false) = .ok [(Unknown, [13, 97])] := by
    decide!
  rw [e] at h1
  simp only [Result.ok.injEq] at h1
  subst h1
  revert h2
  decide

/-- C2 (amended): for a reader that fills every `Read` request completely until the stream
is exhausted (`NewScanner`), and for every byte stream in which every `'\r'` is immediately
followed by a byte other than `'\r'`, scanned with comment skipping disabled, the tokens
returned by
`Next` before the first `EOF` exist (no call fails) and their lexemes, concatenated in
order, are exactly the input with every `'\r'` byte removed. -/
theorem lexeme_concat (input : List Nat) (h : crFollowed input = true) :
    ∃ toks, tokens (SkipComments (NewScanner input) false) = .ok toks ∧
      lexemes toks = stripCR input :=
  tokens_lexemes_of_crFollowed h

theorem lexeme_concat_witness :
    crFollowed [118, 32, 49, 13, 10] = true ∧
      ∃ toks, tokens (SkipComments (NewScanner [118, 32, 49, 13, 10]) false) = .ok toks ∧
        lexemes toks = stripCR [118, 32, 49, 13, 10] :=
  ⟨by decide, lexeme_concat [118, 32, 49, 13, 10] (by decide)⟩

/-! ### C7: `"\r\n"` line ends -/

theorem crlfOnly_tail {c : Nat} {rest : List Nat} (h : crlfOnly (c :: rest) = true) :
    crlfOnly rest = true := by
  cases rest with
  | nil => rfl
  | cons d r =>
    simp only [crlfOnly, Bool.and_eq_true] at h
    exact h.2

theorem stripCR_cons_ne {c : Nat} (hc : c ≠ 13) (rest : List Nat) :
    stripCR (c :: rest) = c :: stripCR rest := by
  simp [stripCR, hc]

theorem stripCR_cr (rest : List Nat) : stripCR (13 :: rest) = stripCR rest := by
  simp [stripCR]

theorem stripCR_eq_nil {u : List Nat} (h : crlfOnly u = true) (hs : stripCR u = []) : u = [] := by
  match u, h, hs with
  | [], _, _ => rfl
  | [c], h, hs =>
    have hc : c ≠ 13 := by simpa [crlfOnly] using h
    rw [stripCR_cons_ne hc] at hs; cases hs
  | c :: d :: r, h, hs =>
    by_cases hc : c = 13
    · subst hc
      simp only [crlfOnly, Bool.and_eq_true, Bool.or_eq_true] at h
      have hd : d = 10 := by
        rcases h.1 with h1 | h1
        · simp at h1
        · simpa using h1
      subst hd
      rw [stripCR_cr, stripCR_cons_ne (by decide)] at hs; cases hs
    · rw [stripCR_cons_ne hc] at hs; cases hs

/-- One token is cut alike from an input with `"\r\n"` line ends and from the input
without its `'\r'` bytes. -/
theorem cut_stripCR (u : List Nat) : ∀ (st : stateType) (buf : List Nat),
    crlfOnly u = true →
    ∃ t lex rest via, cut st buf u = some (t, lex, rest, via) ∧
      cut st buf (stripCR u) = some (t, lex, stripCR rest, via) ∧ crlfOnly rest = true := by
  induction u using list_two_step with
  | h0 =>
    intro st buf _
    exact ⟨_, _, _, _, cut_nil st buf, cut_nil st buf, rfl⟩
  | h1 c =>
    intro st buf h
    have hc : c ≠ 13 := by simpa [crlfOnly] using h
    have hs : stripCR [c] = [c] := by simp [stripCR, hc]
    rw [hs, cut_cons _ _ _ hc]
    by_cases e : matrixAt (getSymbolType c) st = start
    · rw [if_pos e]
      exact ⟨_, _, _, _, rfl, by rw [hs], h⟩
    · rw [if_neg e]
      exact ⟨_, _, _, _, cut_nil _ _, cut_nil _ _, rfl⟩
  | h2 c d u ih1 ih2 =>
    intro st buf h
    have ht : crlfOnly (d :: u) = true := crlfOnly_tail h
    by_cases hc : c = 13
    · subst hc
      have hd : d = 10 := by
        simp only [crlfOnly, Bool.and_eq_true, Bool.or_eq_true] at h
        rcases h.1 with h1 | h1
        · simp at h1
        · simpa using h1
      subst hd
      rw [stripCR_cr, stripCR_cons_ne (by decide), cut_cr_cons, cut_cons _ _ _ (by decide)]
      by_cases e : matrixAt (getSymbolType 10) st = start
      · rw [if_pos e, if_pos e]
        exact ⟨_, _, _, _, rfl, by rw [stripCR_cons_ne (by decide)], ht⟩
      · rw [if_neg e, if_neg e]
        exact ih1 _ _ (crlfOnly_tail ht)
    · rw [stripCR_cons_ne hc, cut_cons _ _ _ hc, cut_cons _ _ _ hc]
      by_cases e : matrixAt (getSymbolType c) st = start
      · rw [if_pos e, if_pos e]
        exact ⟨_, _, _, _, rfl, by rw [stripCR_cons_ne hc], h⟩
      · rw [if_neg e, if_neg e]
        exact ih2 _ _ ht

theorem rawNext_stripCR {u : List Nat} (h : crlfOnly u = true) :
    ∃ t lex rest, rawNext u = some (t, lex, rest) ∧
      rawNext (stripCR u) = some (t, lex, stripCR rest) ∧ crlfOnly rest = true := by
  by_cases hu : u = []
  · subst hu
    exact ⟨EOF, [], [], rfl, rfl, rfl⟩
  · have hs : stripCR u ≠ [] := fun e => hu (stripCR_eq_nil h e)
    obtain ⟨t, lex, rest, via, h1, h2, h3⟩ := cut_stripCR u start [] h
    refine ⟨t, lex, rest, ?_, ?_, h3⟩
    · simp only [rawNext, if_neg hu, h1]
    · simp only [rawNext, if_neg hs, h2]

theorem NextL_stripCR (skip : Bool) {u : List Nat} (h : crlfOnly u = true) :
    ∃ t lex rest, NextL skip u = some (t, lex, rest) ∧
      NextL skip (stripCR u) = some (t, lex, stripCR rest) ∧ crlfOnly rest = true := by
  by_cases hu : u = []
  · subst hu
    exact ⟨EOF, [], [], rfl, rfl, rfl⟩
  · have hs : stripCR u ≠ [] := fun e => hu (stripCR_eq_nil h e)
    obtain ⟨t, lex, rest, via, h1, h2, h3⟩ := cut_stripCR u start [] h
    simp only [NextL, if_neg hu, if_neg hs, loopL, h1, h2]
    by_cases c : (via && skip && decide (t = Comment)) = true
    · simp only [if_pos c]
      exact rawNext_stripCR h3
    · simp only [if_neg c]
      exact ⟨t, lex, rest, rfl, rfl, h3⟩

theorem nextNL_stripCR (skip : Bool) (n : Nat) : ∀ {u : List Nat}, crlfOnly u = true →
    ∃ toks rest, nextNL n skip u = some (toks, rest) ∧
      nextNL n skip (stripCR u) = some (toks, stripCR rest) := by
  induction n with
  | zero => intro u _; exact ⟨[], u, rfl, rfl⟩
  | succ n ih =>
    intro u h
    obtain ⟨t, lex, rest, h1, h2, h3⟩ := NextL_stripCR skip h
    obtain ⟨toks, rest2, g1, g2⟩ := ih h3
    refine ⟨(t, lex) :: toks, rest2, ?_, ?_⟩
    · rw [nextNL, h1]; simp only [g1]
    · rw [nextNL, h2]; simp only [g2]

theorem nextN_tokens_of_nextNL {n : Nat} {s : scanner} (hI : Inv s)
    {toks : List (TokenType × List Nat)} {rest : List Nat}
    (h : nextNL n s.skipComments (unread s) = some (toks, rest)) :
    (nextN n s).tokens = .ok toks := by
  obtain ⟨s2, h2, _⟩ := nextN_of_nextNL n hI h
  rw [h2]; rfl

/-- C7 (amended): for a reader that fills every `Read` request completely until the stream
is exhausted (`NewScanner`), for every input in which each `'\r'` is immediately followed
by `'\n'`, for either comment-skipping setting and every number `n` of calls, the first `n` results of `Next`
on the input exist and are the first `n` results of `Next` on the input with every
`'\r'` deleted. -/
theorem crlf_scans_as_lf (input : List Nat) (skip : Bool) (n : Nat)
    (h : crlfOnly input = true) :
    ∃ toks, (nextN n (SkipComments (NewScanner input) skip)).tokens = .ok toks ∧
      (nextN n (SkipComments (NewScanner (stripCR input)) skip)).tokens = .ok toks := by
  obtain ⟨toks, rest, h1, h2⟩ := nextNL_stripCR skip n h
  have hI : ∀ i : List Nat, Inv (SkipComments (NewScanner i) skip) := fun i => Inv_NewScanner i
  have hu : ∀ i : List Nat, unread (SkipComments (NewScanner i) skip) = i :=
    fun i => unread_NewScanner i
  exact ⟨toks, nextN_tokens_of_nextNL (hI input) (by rw [hu]; exact h1),
    nextN_tokens_of_nextNL (hI _) (by rw [hu]; exact h2)⟩

theorem crlf_scans_as_lf_witness :
    crlfOnly [118, 32, 49, 13, 10, 35, 13, 10] = true ∧
      ∃ toks, (nextN 6 (SkipComments (NewScanner [118, 32, 49, 13, 10, 35, 13, 10]) true)).tokens
          = .ok toks ∧
        (nextN 6 (SkipComments (NewScanner (stripCR [118, 32, 49, 13, 10, 35, 13, 10])) true)).tokens
          = .ok toks :=
  ⟨by decide, crlf_scans_as_lf [118, 32, 49, 13, 10, 35, 13, 10] true 6 (by decide)⟩

/-! ### C3: token types and the lexical grammar -/

theorem inClass_ne_eol {sy : symbolType} {c : Nat} (h : inClass sy c) (hs : sy ≠ eol) :
    c ≠ 10 := by
  cases sy <;> simp only [inClass, isDigit, isLetter] at h <;> first | omega | exact absurd rfl hs

theorem Lang_skipLine {lex : List Nat} {c : Nat} (h : matchesComment lex) (hc : c ≠ 10) :
    matchesComment (lex ++ [c]) := by
  obtain ⟨cs, h1, h2⟩ := h
  refine ⟨cs ++ [c], by rw [h1]; rfl, ?_⟩
  simp only [List.mem_append, List.mem_singleton, not_or]
  exact ⟨h2, fun e => hc e.symm⟩

theorem isDigits_snoc {ds : List Nat} {c : Nat} (h : isDigits ds) (hc : isDigit c) :
    isDigits (ds ++ [c]) := by
  refine ⟨by simp, ?_⟩
  intro x hx
  simp only [List.mem_append, List.mem_singleton] at hx
  rcases hx with hx | hx
  · exact h.2 x hx
  · rw [hx]; exact hc

theorem isDigits_single {c : Nat} (hc : isDigit c) : isDigits [c] :=
  ⟨by simp, by intro x hx; simp only [List.mem_singleton] at hx; rw [hx]; exact hc⟩

/-- One transition keeps the lexeme in the language of the state. -/
theorem Lang_step (sy : symbolType) (q : stateType) (lex : List Nat) (c : Nat)
    (h : Lang q lex) (hc : inClass sy c) (hne : matrixAt sy q ≠ start) :
    Lang (matrixAt sy q) (lex ++ [c]) := by
  have hsk : sy ≠ eol → matchesComment lex → matchesComment (lex ++ [c]) :=
    fun hs hm => Lang_skipLine hm (inClass_ne_eol hc hs)
  cases q
  case start =>
    have hl : lex = [] := h
    subst hl
    cases sy
    case eol => exact congrArg (fun x => [x]) (show c = 10 from hc)
    case space => exact ⟨by simp, by intro x hx; simp only [List.nil_append, List.mem_singleton] at hx; rw [hx]; exact hc⟩
    case hash => exact ⟨[], congrArg (fun x => [x]) (show c = 35 from hc), by simp⟩
    case slash => exact congrArg (fun x => [x]) (show c = 47 from hc)
    case minus => exact congrArg (fun x => [x]) (show c = 45 from hc)
    case dot => exact True.intro
    case digit => exact ⟨[c], isDigits_single hc, Or.inl rfl⟩
    case letter => exact ⟨c, [], rfl, hc, by simp⟩
    case other => exact True.intro
  case skipLine =>
    cases sy
    case eol => exact absurd rfl hne
    all_goals exact hsk (by decide) h
  case foundEol => cases sy <;> exact absurd rfl hne
  case foundSpace =>
    cases sy
    case space =>
      obtain ⟨h1, h2⟩ := h
      refine ⟨by simp, ?_⟩
      intro x hx
      simp only [List.mem_append, List.mem_singleton] at hx
      rcases hx with hx | hx
      · exact h2 x hx
      · rw [hx]; exact hc
    all_goals exact absurd rfl hne
  case foundSlash => cases sy <;> exact absurd rfl hne
  case foundMinus =>
    have hl : lex = [45] := h
    subst hl
    cases sy
    case digit => exact ⟨[c], isDigits_single hc, Or.inr rfl⟩
    all_goals first | exact absurd rfl hne | exact True.intro
  case foundDot =>
    cases sy
    case digit =>
      obtain ⟨ds, hd, hl⟩ := h
      refine ⟨ds, [c], hd, isDigits_single hc, ?_⟩
      rcases hl with hl | hl
      · left; rw [hl]; simp
      · right; rw [hl]; simp
    all_goals first | exact absurd rfl hne | exact True.intro
  case foundInt =>
    cases sy
    case digit =>
      obtain ⟨ds, hd, hl⟩ := h
      refine ⟨ds ++ [c], isDigits_snoc hd hc, ?_⟩
      rcases hl with hl | hl
      · left; rw [hl]
      · right; rw [hl]; rfl
    case dot =>
      obtain ⟨ds, hd, hl⟩ := h
      have hc46 : c = 46 := hc
      subst hc46
      refine ⟨ds, hd, ?_⟩
      rcases hl with hl | hl
      · left; rw [hl]
      · right; rw [hl]; rfl
    all_goals first | exact absurd rfl hne | exact True.intro
  case foundFloat =>
    cases sy
    case digit =>
      obtain ⟨ds, fs, hd, hf, hl⟩ := h
      refine ⟨ds, fs ++ [c], hd, isDigits_snoc hf hc, ?_⟩
      rcases hl with hl | hl
      · left; rw [hl]; simp
      · right; rw [hl]; simp
    all_goals first | exact absurd rfl hne | exact True.intro
  case foundWord =>
    have step : (isLetter c ∨ isDigit c) → matchesWord (lex ++ [c]) := by
      intro hcc
      obtain ⟨a, cs, hl, ha, hcs⟩ := h
      refine ⟨a, cs ++ [c], by rw [hl]; rfl, ha, ?_⟩
      intro x hx
      simp only [List.mem_append, List.mem_singleton] at hx
      rcases hx with hx | hx
      · exact hcs x hx
      · rw [hx]; exact hcc
    cases sy
    case digit => exact step (Or.inr hc)
    case letter => exact step (Or.inl hc)
    all_goals first | exact absurd rfl hne | exact True.intro
  case unknown =>
    cases sy <;> first | exact absurd rfl hne | exact True.intro

theorem Lang_run (cs : List Nat) : ∀ (q : stateType) (pre : List Nat), Lang q pre →
    pathOK q cs → Lang (run q cs) (pre ++ cs) := by
  induction cs with
  | nil => intro q pre h _; simpa [run] using h
  | cons c cs ih =>
    intro q pre h hp
    have h1 := Lang_step (getSymbolType c) q pre c h (getSymbolType_inClass c) hp.1
    have h2 := ih _ _ h1 hp.2
    have e : pre ++ [c] ++ cs = pre ++ c :: cs := by simp
    rw [e] at h2
    exact h2

theorem Lang_of_pathOK {lex : List Nat} (hp : pathOK start lex) : Lang (run start lex) lex := by
  have := Lang_run lex start [] rfl hp
  simpa using this

theorem run_cons (q : stateType) (c : Nat) (cs : List Nat) :
    run q (c :: cs) = run (matrixAt (getSymbolType c) q) cs := rfl

theorem run_word (cs : List Nat) (h : ∀ x ∈ cs, isLetter x ∨ isDigit x) :
    run foundWord cs = foundWord := by
  induction cs with
  | nil => rfl
  | cons c cs ih =>
    rw [run_cons]
    have hc := h c (List.mem_cons_self _ _)
    have e : matrixAt (getSymbolType c) foundWord = foundWord := by
      rcases hc with hc | hc
      · rw [getSymbolType_letter hc]; rfl
      · rw [getSymbolType_digit hc]; rfl
    rw [e]
    exact ih (fun x hx => h x (List.mem_cons_of_mem _ hx))

theorem run_int (ds : List Nat) (h : ∀ x ∈ ds, isDigit x) : run foundInt ds = foundInt := by
  induction ds with
  | nil => rfl
  | cons c cs ih =>
    rw [run_cons, getSymbolType_digit (h c (List.mem_cons_self _ _))]
    exact ih (fun x hx => h x (List.mem_cons_of_mem _ hx))

theorem run_float (fs : List Nat) (h : ∀ x ∈ fs, isDigit x) : run foundFloat fs = foundFloat := by
  induction fs with
  | nil => rfl
  | cons c cs ih =>
    rw [run_cons, getSymbolType_digit (h c (List.mem_cons_self _ _))]
    exact ih (fun x hx => h x (List.mem_cons_of_mem _ hx))

theorem run_space (cs : List Nat) (h : ∀ x ∈ cs, x = 32 ∨ x = 9) :
    run foundSpace cs = foundSpace := by
  induction cs with
  | nil => rfl
  | cons c cs ih =>
    rw [run_cons, getSymbolType_space (h c (List.mem_cons_self _ _))]
    exact ih (fun x hx => h x (List.mem_cons_of_mem _ hx))

theorem run_skipLine (cs : List Nat) (h : 10 ∉ cs) : run skipLine cs = skipLine := by
  induction cs with
  | nil => rfl
  | cons c cs ih =>
    rw [run_cons]
    have hc : c ≠ 10 := fun e => h (by rw [e]; exact List.mem_cons_self _ _)
    have e : matrixAt (getSymbolType c) skipLine = skipLine := by
      have := getSymbolType_ne_eol hc
      cases hs : getSymbolType c <;> first | rfl | exact absurd hs this
    rw [e]
    exact ih (fun hx => h (List.mem_cons_of_mem _ hx))

/-- From `start` or after a minus, `digit+` leads to `foundInt`. -/
theorem run_digits {q : stateType} (hq : q = start ∨ q = foundMinus) {ds : List Nat}
    (h : isDigits ds) : run q ds = foundInt := by
  obtain ⟨hne, hd⟩ := h
  match ds, hne, hd with
  | c :: cs, _, hd =>
    rw [run_cons, getSymbolType_digit (hd c (List.mem_cons_self _ _))]
    have e : matrixAt digit q = foundInt := by rcases hq with hq | hq <;> subst hq <;> rfl
    rw [e]
    exact run_int cs (fun x hx => hd x (List.mem_cons_of_mem _ hx))

theorem run_fraction {fs : List Nat} (h : isDigits fs) : run foundDot fs = foundFloat := by
  obtain ⟨hne, hd⟩ := h
  match fs, hne, hd with
  | c :: cs, _, hd =>
    rw [run_cons, getSymbolType_digit (hd c (List.mem_cons_self _ _))]
    exact run_float cs (fun x hx => hd x (List.mem_cons_of_mem _ hx))

theorem run_matchesWord {lex : List Nat} (h : matchesWord lex) : run start lex = foundWord := by
  obtain ⟨c, cs, hl, hc, hcs⟩ := h
  rw [hl, run_cons, getSymbolType_letter hc]
  exact run_word cs hcs

theorem run_matchesInteger {lex : List Nat} (h : matchesInteger lex) :
    run start lex = foundInt := by
  obtain ⟨ds, hd, hl⟩ := h
  rcases hl with hl | hl
  · rw [hl]; exact run_digits (Or.inl rfl) hd
  · rw [hl, run_cons]; exact run_digits (Or.inr rfl) hd

theorem run_matchesFloat {lex : List Nat} (h : matchesFloat lex) : run start lex = foundFloat := by
  obtain ⟨ds, fs, hd, hf, hl⟩ := h
  have key : ∀ q, q = start ∨ q = foundMinus → run q (ds ++ 46 :: fs) = foundFloat := by
    intro q hq
    rw [run_append, run_digits hq hd, run_cons]
    exact run_fraction hf
  rcases hl with hl | hl
  · rw [hl]; exact key _ (Or.inl rfl)
  · rw [hl, run_cons]; exact key _ (Or.inr rfl)

theorem run_matchesSpace {lex : List Nat} (h : matchesSpace lex) : run start lex = foundSpace := by
  obtain ⟨hne, hs⟩ := h
  match lex, hne, hs with
  | c :: cs, _, hs =>
    rw [run_cons, getSymbolType_space (hs c (List.mem_cons_self _ _))]
    exact run_space cs (fun x hx => hs x (List.mem_cons_of_mem _ hx))

theorem run_matchesComment {lex : List Nat} (h : matchesComment lex) :
    run start lex = skipLine := by
  obtain ⟨cs, hl, hcs⟩ := h
  rw [hl, run_cons]
  exact run_skipLine cs hcs

theorem tokenTypeOf_named {st : stateType} :
    (tokenTypeOf st = Word → st = foundWord) ∧ (tokenTypeOf st = Integer → st = foundInt) ∧
    (tokenTypeOf st = TokenType.Float → st = foundFloat) ∧ (tokenTypeOf st = Slash → st = foundSlash) ∧
    (tokenTypeOf st = Space → st = foundSpace) := by
  cases st <;> decide

/-- The type of a token is the one whose pattern its lexeme matches, and `Unknown` when
the lexeme matches no pattern. -/
theorem type_matches_lexeme {lex : List Nat} (hp : pathOK start lex) {t : TokenType}
    (ht : t = tokenTypeOf (run start lex)) :
    (t = Word ↔ matchesWord lex) ∧ (t = Integer ↔ matchesInteger lex) ∧
    (t = TokenType.Float ↔ matchesFloat lex) ∧ (t = Slash ↔ matchesSlash lex) ∧
    (t = Space ↔ matchesSpace lex) ∧ (t = EOL ↔ matchesEOL lex) ∧
    (t = Comment ↔ matchesComment lex) ∧
    (t = Unknown ↔ ¬ (matchesWord lex ∨ matchesInteger lex ∨ matchesFloat lex ∨
      matchesSlash lex ∨ matchesSpace lex ∨ matchesEOL lex ∨ matchesComment lex)) := by
  have hL := Lang_of_pathOK hp
  have hn := @tokenTypeOf_named (run start lex)
  have w : t = Word ↔ matchesWord lex :=
    ⟨fun h => by have e := hn.1 (ht ▸ h); rw [e] at hL; exact hL,
     fun h => by rw [ht, run_matchesWord h]; rfl⟩
  have i : t = Integer ↔ matchesInteger lex :=
    ⟨fun h => by have e := hn.2.1 (ht ▸ h); rw [e] at hL; exact hL,
     fun h => by rw [ht, run_matchesInteger h]; rfl⟩
  have f : t = TokenType.Float ↔ matchesFloat lex :=
    ⟨fun h => by have e := hn.2.2.1 (ht ▸ h); rw [e] at hL; exact hL,
     fun h => by rw [ht, run_matchesFloat h]; rfl⟩
  have sl : t = Slash ↔ matchesSlash lex :=
    ⟨fun h => by have e := hn.2.2.2.1 (ht ▸ h); rw [e] at hL; exact hL,
     fun h => by rw [ht, show lex = [47] from h]; rfl⟩
  have sp : t = Space ↔ matchesSpace lex :=
    ⟨fun h => by have e := hn.2.2.2.2 (ht ▸ h); rw [e] at hL; exact hL,
     fun h => by rw [ht, run_matchesSpace h]; rfl⟩
  have el : t = EOL ↔ matchesEOL lex :=
    ⟨fun h => by have e := tokenTypeOf_EOL (ht ▸ h); rw [e] at hL; exact hL,
     fun h => by rw [ht, show lex = [10] from h]; rfl⟩
  have cm : t = Comment ↔ matchesComment lex :=
    ⟨fun h => by have e := tokenTypeOf_comment (ht ▸ h); rw [e] at hL; exact hL,
     fun h => by rw [ht, run_matchesComment h]; rfl⟩
  refine ⟨w, i, f, sl, sp, el, cm, ?_⟩
  rw [← w, ← i, ← f, ← sl, ← sp, ← el, ← cm]
  have hne : t ≠ EOF := by rw [ht]; exact tokenTypeOf_ne_EOF _
  cases t <;> first | exact absurd rfl hne | decide

/-- Every token among the first `n` results is `(EOF, "")` or a lexeme cut from `start`. -/
theorem nextNL_mem (n : Nat) : ∀ {skip : Bool} {u : List Nat}
    {toks : List (TokenType × List Nat)} {rest : List Nat},
    nextNL n skip u = some (toks, rest) → ∀ t lex, (t, lex) ∈ toks → t ≠ EOF →
    lex ≠ [] ∧ pathOK start lex ∧ t = tokenTypeOf (run start lex) := by
  induction n with
  | zero =>
    intro skip u toks rest h t lex hm
    simp only [nextNL, Option.some.injEq, Prod.mk.injEq] at h
    rw [← h.1] at hm
    cases hm
  | succ n ih =>
    intro skip u toks rest h t lex hm hte
    rw [nextNL] at h
    cases hn : NextL skip u with
    | none => rw [hn] at h; cases h
    | some r =>
      obtain ⟨t1, lex1, rest1⟩ := r
      rw [hn] at h
      simp only at h
      cases hk : nextNL n skip rest1 with
      | none => rw [hk] at h; cases h
      | some r2 =>
        obtain ⟨toks2, rest2⟩ := r2
        rw [hk] at h
        simp only [Option.some.injEq, Prod.mk.injEq] at h
        obtain ⟨rfl, rfl⟩ := h
        simp only [List.mem_cons, Prod.mk.injEq] at hm
        rcases hm with ⟨rfl, rfl⟩ | hm
        · have hu : u ≠ [] := by
            intro hu; subst hu; rw [NextL_nil] at hn
            simp only [Option.some.injEq, Prod.mk.injEq] at hn
            exact hte hn.1.symm
          obtain ⟨_, _, _, _, h3, h4, h5, _⟩ := NextL_spec hu hn
          exact ⟨h3, h4, h5⟩
        · exact ih hk t lex hm hte

/-- C3: every non-`EOF` token `(t, lex)` among the results of `Next` calls on a scanner
made by `NewScanner` (either comment-skipping setting) has the type of the pattern its
lexeme matches: `Word` iff `(letter|'_')(letter|'_'|digit)*`, `Integer` iff `'-'? digit+`,
`Float` iff `'-'? digit+ '.' digit+`, `Slash` iff `"/"`, `Space` iff a non-empty run of
spaces and tabs, `EOL` iff `"\n"`, `Comment` iff it starts with `'#'` and contains no
`'\n'`, and `Unknown` iff it matches none of these. -/
theorem token_type_agrees_with_grammar (input : List Nat) (skip : Bool) (n : Nat)
    (toks : List (TokenType × List Nat)) (s : scanner) (t : TokenType) (lex : List Nat)
    (hrun : nextN n (SkipComments (NewScanner input) skip) = .ok (toks, s))
    (hmem : (t, lex) ∈ toks) (hne : t ≠ EOF) :
    (t = Word ↔ matchesWord lex) ∧ (t = Integer ↔ matchesInteger lex) ∧
    (t = TokenType.Float ↔ matchesFloat lex) ∧ (t = Slash ↔ matchesSlash lex) ∧
    (t = Space ↔ matchesSpace lex) ∧ (t = EOL ↔ matchesEOL lex) ∧
    (t = Comment ↔ matchesComment lex) ∧
    (t = Unknown ↔ ¬ (matchesWord lex ∨ matchesInteger lex ∨ matchesFloat lex ∨
      matchesSlash lex ∨ matchesSpace lex ∨ matchesEOL lex ∨ matchesComment lex)) := by
  obtain ⟨_, _, h3⟩ := consumed_spec hrun
  obtain ⟨_, h2, h1⟩ := nextNL_mem n h3 t lex hmem hne
  exact type_matches_lexeme h2 h1

theorem token_type_agrees_with_grammar_witness :
    nextN 1 (SkipComments (NewScanner [45, 49, 50, 46]) true)
        = .ok ([(Unknown, [45, 49, 50, 46])],
            { NewScanner [45, 49, 50, 46] with bufpos := 4, posNum := 4,
                                               lineStr := [45, 49, 50, 46] }) ∧
      ¬ matchesFloat [45, 49, 50, 46] :=
  ⟨by decide!,
    fun hf => ((token_type_agrees_with_grammar [45, 49, 50, 46] true 1
      [(Unknown, [45, 49, 50, 46])]
      { NewScanner [45, 49, 50, 46] with bufpos := 4, posNum := 4, lineStr := [45, 49, 50, 46] }
      Unknown [45, 49, 50, 46] (by decide!) (by simp) (by decide)).2.2.2.2.2.2.2.1 rfl)
      (Or.inr (Or.inr (Or.inl hf)))⟩

/-! ### C4: comment skipping -/

theorem commentsClosed_suffix (pre : List Nat) {rest : List Nat}
    (h : commentsClosed (pre ++ rest) = true) : commentsClosed rest = true := by
  induction pre with
  | nil => exact h
  | cons c p ih =>
    simp only [List.cons_append, commentsClosed, Bool.and_eq_true] at h
    exact ih h.2

theorem tokensL_fuel (skip : Bool) (n : Nat) : ∀ (m : Nat) (u : List Nat),
    u.length < n → u.length < m → tokensL n skip u = tokensL m skip u := by
  induction n with
  | zero => intro m u h _; omega
  | succ n ih =>
    intro m u hn hm
    cases m with
    | zero => omega
    | succ m =>
      rw [tokensL, tokensL]
      cases hN : NextL skip u with
      | none => rfl
      | some r =>
        obtain ⟨t, lex, rest⟩ := r
        simp only
        by_cases hte : t = EOF
        · rw [if_pos hte, if_pos hte]
        · rw [if_neg hte, if_neg hte]
          have := NextL_length hN hte
          rw [ih m rest (by omega) (by omega)]

theorem NextL_false_ne_none {u : List Nat} (h : 13 ∉ u) : NextL false u ≠ none := by
  intro hn
  by_cases hu : u = []
  · subst hu; rw [NextL_nil] at hn; cases hn
  · simp only [NextL, if_neg hu, loopL] at hn
    cases hc : cut start [] u with
    | none =>
      have := cut_none u _ _ hc
      rw [crFollowed_of_no_cr h] at this
      cases this
    | some r =>
      obtain ⟨t, lex, rest, via⟩ := r
      rw [hc] at hn
      simp at hn

theorem NextL_true_of_ne_comment {u : List Nat} {t : TokenType} {lex rest : List Nat}
    (h : NextL false u = some (t, lex, rest)) (ht : t ≠ Comment) :
    NextL true u = some (t, lex, rest) := by
  by_cases hu : u = []
  · subst hu; rw [NextL_nil] at h ⊢; exact h
  · simp only [NextL, if_neg hu, loopL] at h ⊢
    cases hc : cut start [] u with
    | none => rw [hc] at h; cases h
    | some r =>
      obtain ⟨t1, lex1, rest1, via⟩ := r
      rw [hc] at h
      simp only [Bool.and_false, Bool.false_and, Bool.false_eq_true, if_false,
        Option.some.injEq, Prod.mk.injEq] at h
      obtain ⟨rfl, rfl, rfl⟩ := h
      simp [ht]

theorem NextL_eol_type {skip : Bool} {r : List Nat} {t : TokenType} {lex rest : List Nat}
    (h : NextL skip (10 :: r) = some (t, lex, rest)) : t = EOL := by
  rw [NextL_eol] at h
  have h1 : cut start [] (10 :: r) = cut foundEol [10] r := by
    rw [cut_cons _ _ _ (by decide)]
    rfl
  simp only [rawNext, if_neg (List.cons_ne_nil 10 r), h1] at h
  rcases cut_foundEol [10] r with hc | ⟨rest2, via, hc⟩
  · rw [hc] at h; cases h
  · rw [hc] at h
    simp only [Option.some.injEq, Prod.mk.injEq] at h
    exact h.1.symm

/-- A closed comment is followed by its `'\n'`, and with comment skipping the call
returns what the call after the comment returns. -/
theorem NextL_comment {u : List Nat} {lex rest : List Nat} (h13 : 13 ∉ u)
    (hcl : commentsClosed u = true) (h : NextL false u = some (Comment, lex, rest)) :
    (∃ r, rest = 10 :: r) ∧ NextL true u = NextL true rest := by
  have hu : u ≠ [] := by
    intro hu; subst hu; rw [NextL_nil] at h; cases h
  simp only [NextL, if_neg hu, loopL] at h
  cases hc : cut start [] u with
  | none => rw [hc] at h; cases h
  | some r =>
    obtain ⟨t1, lex1, rest1, via⟩ := r
    rw [hc] at h
    simp only [Bool.and_false, Bool.false_and, Bool.false_eq_true, if_false,
      Option.some.injEq, Prod.mk.injEq] at h
    obtain ⟨ht1, hl1, hr1⟩ := h
    subst ht1
    rw [← hr1]
    obtain ⟨pre, h1, h2, h3, h4, h5, h6, h7⟩ := cut_start_spec hu hc
    have hm : matchesComment lex1 := ((type_matches_lexeme h4 h5).2.2.2.2.2.2.1).mp rfl
    have hst : run start lex1 = skipLine := tokenTypeOf_comment h5.symm
    have hvia : via = true := by
      by_contra hv
      have hv : via = false := by simpa using hv
      have hr := h7 hv
      rw [hr, List.append_nil] at h1
      have hp13 : 13 ∉ pre := h1 ▸ h13
      rw [absorb_no_cr hp13] at h2
      obtain ⟨cs, hl, hcs⟩ := hm
      rw [h1, ← h2, hl] at hcl
      simp only [commentsClosed, Bool.and_eq_true, Bool.or_eq_true] at hcl
      rcases hcl.1 with hh | hh
      · simp at hh
      · exact hcs (by simpa using hh)
    subst hvia
    obtain ⟨d, r, hr, hmx⟩ := h6 rfl
    rw [hst] at hmx
    have hd : d = 10 := getSymbolType_eol (matrixAt_skipLine hmx)
    subst hd
    refine ⟨⟨r, hr⟩, ?_⟩
    have e1 : NextL true u = rawNext rest1 := by
      simp only [NextL, if_neg hu, loopL, hc]
      simp
    rw [e1, hr, NextL_eol]

/-- List level: the stream with comments skipped is the stream without skipping, less
its `Comment` tokens, and there each `Comment` is directly followed by an `EOL`. -/
theorem tokensL_dropComments (n : Nat) : ∀ u : List Nat, u.length < n → 13 ∉ u →
    commentsClosed u = true →
    ∃ toks, tokensL n false u = .ok toks ∧ tokensL n true u = .ok (dropComments toks) ∧
      ∀ i lex, toks[i]? = some (Comment, lex) → ∃ lex2, toks[i + 1]? = some (EOL, lex2) := by
  induction n with
  | zero => intro u h _ _; omega
  | succ n ih =>
    intro u hlen h13 hcl
    by_cases hu : u = []
    · subst hu
      refine ⟨[], by simp [tokensL, NextL_nil], by simp [tokensL, NextL_nil, dropComments], ?_⟩
      intro i lex h; simp at h
    · cases hN : NextL false u with
      | none => exact absurd hN (NextL_false_ne_none h13)
      | some r =>
        obtain ⟨t, lex, rest⟩ := r
        obtain ⟨hid, pre, h1, _, _, _, h5, _⟩ := NextL_spec hu hN
        have hte : t ≠ EOF := by rw [h5]; exact tokenTypeOf_ne_EOF _
        have hrl : rest.length < n := by
          have := NextL_length hN hte
          omega
        have hr13 : 13 ∉ rest := fun e => h13 (by rw [h1]; simp [e])
        have hrcl : commentsClosed rest = true := commentsClosed_suffix (hid ++ pre) (h1 ▸ hcl)
        obtain ⟨toks, g1, g2, g3⟩ := ih rest hrl hr13 hrcl
        have hF : tokensL (n + 1) false u = .ok ((t, lex) :: toks) := by
          rw [tokensL, hN]; simp only [if_neg hte, g1]
        by_cases hcm : t = Comment
        · subst hcm
          obtain ⟨⟨r, hr⟩, hT⟩ := NextL_comment h13 hcl hN
          refine ⟨(Comment, lex) :: toks, hF, ?_, ?_⟩
          · have e1 : tokensL (n + 1) true u = tokensL (n + 1) true rest := by
              rw [tokensL, tokensL, hT]
            rw [e1, tokensL_fuel true (n + 1) n rest (by omega) hrl, g2]
            simp [dropComments]
          · intro i lx hi
            cases i with
            | zero =>
              subst hr
              cases n with
              | zero => omega
              | succ m =>
                rw [tokensL] at g1
                cases hN2 : NextL false (10 :: r) with
                | none => rw [hN2] at g1; cases g1
                | some r2 =>
                  obtain ⟨t2, lex2, rest2⟩ := r2
                  have ht2 := NextL_eol_type hN2
                  subst ht2
                  rw [hN2] at g1
                  simp only [if_neg (show EOL ≠ EOF by decide)] at g1
                  cases hk : tokensL m false rest2 with
                  | ok tl =>
                    rw [hk] at g1
                    simp only [Result.ok.injEq] at g1
                    exact ⟨lex2, by rw [← g1]; simp⟩
                  | panicked => rw [hk] at g1; cases g1
                  | outOfFuel => rw [hk] at g1; cases g1
            | succ j => simpa using g3 j lx (by simpa using hi)
        · refine ⟨(t, lex) :: toks, hF, ?_, ?_⟩
          · rw [tokensL, NextL_true_of_ne_comment hN hcm]
            simp [if_neg hte, g2, dropComments, hcm]
          · intro i lx hi
            cases i with
            | zero =>
              simp only [List.getElem?_cons_zero, Option.some.injEq, Prod.mk.injEq] at hi
              exact absurd hi.1 hcm
            | succ j => simpa using g3 j lx (by simpa using hi)

/-- C4 (amended): for a reader that fills every `Read` request completely until the stream
is exhausted (`NewScanner`), and for every `'\r'`-free input in which every `'#'` is
followed somewhere later by a `'\n'`, the token stream with comment skipping on is the token stream with comment
skipping off after deleting its `Comment` tokens, and in the stream with comment
skipping off every `Comment` token is immediately followed by an `EOL` token. -/
theorem comment_skipping_is_filter (input : List Nat) (h13 : 13 ∉ input)
    (hcl : commentsClosed input = true) :
    ∃ toks, tokens (SkipComments (NewScanner input) false) = .ok toks ∧
      tokens (SkipComments (NewScanner input) true) = .ok (dropComments toks) ∧
      ∀ i lex, toks[i]? = some (Comment, lex) → ∃ lex2, toks[i + 1]? = some (EOL, lex2) := by
  have hI : ∀ b, Inv (SkipComments (NewScanner input) b) := fun _ => Inv_NewScanner input
  have hu : ∀ b, unread (SkipComments (NewScanner input) b) = input :=
    fun _ => unread_NewScanner input
  rw [tokens, tokens, tokens_refines _ (hI false), tokens_refines _ (hI true), hu, hu]
  exact tokensL_dropComments _ input (by omega) h13 hcl

theorem comment_skipping_is_filter_witness :
    13 ∉ [35, 97, 10, 118, 32, 49, 10] ∧ commentsClosed [35, 97, 10, 118, 32, 49, 10] = true ∧
      ∃ toks, tokens (SkipComments (NewScanner [35, 97, 10, 118, 32, 49, 10]) false) = .ok toks ∧
        tokens (SkipComments (NewScanner [35, 97, 10, 118, 32, 49, 10]) true)
          = .ok (dropComments toks) ∧
        ∀ i lex, toks[i]? = some (Comment, lex) → ∃ lex2, toks[i + 1]? = some (EOL, lex2) :=
  ⟨by decide, by decide,
    comment_skipping_is_filter [35, 97, 10, 118, 32, 49, 10] (by decide) (by decide)⟩

/-! ### Runs of the parser matrices -/

theorem mem_allTokens (t : TokenType) : t ∈ allTokens := by
  cases t <;> decide

theorem mem_exits {M : List (List Nat)} {s : Nat} {t : TokenType}
    (h : parserStep M s t ≠ 1) : (t, parserStep M s t) ∈ exits M s := by
  unfold exits
  rw [List.mem_filterMap]
  exact ⟨t, mem_allTokens t, by rw [if_neg h]⟩

theorem accepted_single (M : List (List Nat)) (s : Nat) (t : TokenType) :
    accepted M s [t] = (parserStep M s t == 0) := rfl

theorem accepted_cons_cons (M : List (List Nat)) (s : Nat) (t u : TokenType)
    (ts : List TokenType) :
    accepted M s (t :: u :: ts) =
      (parserStep M s t != 0 && parserStep M s t != 1 &&
        accepted M (parserStep M s t) (u :: ts)) := rfl

theorem accepted_ne_nil {M : List (List Nat)} {s : Nat} {ts : List TokenType}
    (h : accepted M s ts = true) : ts ≠ [] := by
  intro e; subst e; cases h

/-- An accepted run starts with a transition that does not reject; it ends there when
the transition accepts, and goes on otherwise. -/
theorem accepted_inv {M : List (List Nat)} {s : Nat} {ts : List TokenType}
    (h : accepted M s ts = true) :
    ∃ t q ts2, (t, q) ∈ exits M s ∧ ts = t :: ts2 ∧
      ((ts2 = [] ∧ q = 0) ∨ (ts2 ≠ [] ∧ q ≠ 0 ∧ accepted M q ts2 = true)) := by
  match ts, h with
  | [t], h =>
    rw [accepted_single] at h
    have h0 : parserStep M s t = 0 := by simpa using h
    refine ⟨t, parserStep M s t, [], mem_exits (by rw [h0]; decide), rfl, Or.inl ⟨rfl, h0⟩⟩
  | t :: u :: ts, h =>
    rw [accepted_cons_cons] at h
    simp only [Bool.and_eq_true, bne_iff_ne, ne_eq] at h
    exact ⟨t, parserStep M s t, u :: ts, mem_exits h.1.2, rfl,
      Or.inr ⟨by simp, h.1.1, h.2⟩⟩

theorem accepted_step {M : List (List Nat)} {s : Nat} {t : TokenType} {ts : List TokenType}
    (h0 : parserStep M s t ≠ 0) (h1 : parserStep M s t ≠ 1)
    (h : accepted M (parserStep M s t) ts = true) : accepted M s (t :: ts) = true := by
  match ts, h with
  | u :: ts, h =>
    rw [accepted_cons_cons]
    simp only [Bool.and_eq_true, bne_iff_ne, ne_eq]
    exact ⟨⟨h0, h1⟩, h⟩

theorem pathTo_accepted {M : List (List Nat)} (p : List TokenType) : ∀ {s q : Nat}
    {ts : List TokenType}, pathTo M s p q = true → accepted M q ts = true →
    accepted M s (p ++ ts) = true := by
  induction p with
  | nil =>
    intro s q ts hp h
    have : s = q := by simpa [pathTo] using hp
    subst this; exact h
  | cons a as ih =>
    intro s q ts hp h
    simp only [pathTo, Bool.and_eq_true, bne_iff_ne, ne_eq] at hp
    exact accepted_step hp.1.1 hp.1.2 (ih hp.2 h)

theorem forcedPath_inv {M : List (List Nat)} (p : List TokenType) : ∀ {s q : Nat}
    {ts : List TokenType}, forcedPath M s p q = true → accepted M s ts = true →
    ∃ ts2, ts = p ++ ts2 ∧ accepted M q ts2 = true := by
  induction p with
  | nil =>
    intro s q ts hp h
    have : s = q := by simpa [forcedPath] using hp
    subst this; exact ⟨ts, rfl, h⟩
  | cons a as ih =>
    intro s q ts hp h
    simp only [forcedPath, Bool.and_eq_true, decide_eq_true_eq, bne_iff_ne, ne_eq] at hp
    obtain ⟨⟨he, h0⟩, hf⟩ := hp
    obtain ⟨t, r, ts2, hm, hts, hc⟩ := accepted_inv h
    rw [he, List.mem_singleton, Prod.mk.injEq] at hm
    obtain ⟨rfl, rfl⟩ := hm
    rcases hc with ⟨_, hz⟩ | ⟨_, _, hacc⟩
    · exact absurd hz h0
    · obtain ⟨ts3, h3, hacc3⟩ := ih hf hacc
      exact ⟨ts3, by rw [hts, h3]; rfl, hacc3⟩

/-! ### C16, C17, C18, C19: the Vertex matrix, the entries, the entry row -/

theorem parserStep_out {M : List (List Nat)} {s : Nat} (h : M.length ≤ s) (t : TokenType) :
    parserStep M s t = 1 := by
  unfold parserStep
  rw [List.getD_eq_default _ _ h]
  rfl

theorem exits_out {M : List (List Nat)} {s : Nat} (h : M.length ≤ s) : exits M s = [] := by
  unfold exits
  rw [List.filterMap_eq_nil_iff]
  intro t _
  rw [if_pos (parserStep_out h t)]

theorem numericCount_cons (t : TokenType) (ts : List TokenType) :
    numericCount (t :: ts) = (if isNumeric t = true then 1 else 0) + numericCount ts := by
  by_cases h : isNumeric t = true
  · simp only [numericCount, List.filter_cons, h, if_true, List.length_cons]
    omega
  · simp only [numericCount, List.filter_cons, h, if_false, Bool.false_eq_true]
    omega

/-- Every transition of the Vertex matrix keeps within the budget of numeric tokens. -/
theorem vertex_budget_step (s : Nat) : ∀ p ∈ exits vertexMatrix s,
    (if isNumeric p.1 = true then 1 else 0) + (if p.2 = 0 then 0 else vertexBudget p.2)
      ≤ vertexBudget s := by
  by_cases h : s < 11
  · interval_cases s <;> decide
  · rw [exits_out (by simpa [vertexMatrix] using h)]
    intro p hp; cases hp

theorem vertex_budget (ts : List TokenType) : ∀ s : Nat, accepted vertexMatrix s ts = true →
    numericCount ts ≤ vertexBudget s := by
  induction ts with
  | nil => intro s h; cases h
  | cons t ts ih =>
    intro s h
    obtain ⟨t2, q, ts2, hm, hts, hc⟩ := accepted_inv h
    obtain ⟨rfl, rfl⟩ := List.cons.inj hts
    have hb := vertex_budget_step s (t, q) hm
    rw [numericCount_cons]
    rcases hc with ⟨hn, hq⟩ | ⟨_, hq, hacc⟩
    · subst hn
      simp only [hq, if_true] at hb
      simp only [numericCount, List.filter_nil, List.length_nil]
      omega
    · have := ih q hacc
      simp only [hq, if_false] at hb
      omega

/-- C16: stepping the Vertex fixture matrix from row 0 over the tokens that follow the
keyword `v`, every sequence `Space N1 Space N2 Space N3 T` and every sequence
`Space N1 Space N2 Space N3 Space T`, with each `Ni` an `Integer` or a `Float` and `T`
an `EOL` or an `EOF`, reaches the accept state 0 at its last token without visiting
state 0 or the reject state 1 before. -/
theorem vertex_accepts_three_coordinates (n1 n2 n3 T : TokenType)
    (h1 : n1 = Integer ∨ n1 = TokenType.Float) (h2 : n2 = Integer ∨ n2 = TokenType.Float)
    (h3 : n3 = Integer ∨ n3 = TokenType.Float) (hT : T = EOL ∨ T = EOF) :
    accepted vertexMatrix 0 [Space, n1, Space, n2, Space, n3, T] = true ∧
      accepted vertexMatrix 0 [Space, n1, Space, n2, Space, n3, Space, T] = true := by
  rcases h1 with h1 | h1 <;> rcases h2 with h2 | h2 <;> rcases h3 with h3 | h3 <;>
    rcases hT with hT | hT <;> subst h1 <;> subst h2 <;> subst h3 <;> subst hT <;> decide

theorem vertex_accepts_three_coordinates_witness :
    accepted vertexMatrix 0 [Space, Integer, Space, Integer, Space, Integer, EOL] = true ∧
      accepted vertexMatrix 0 [Space, Integer, Space, Integer, Space, Integer, Space, EOL]
        = true :=
  vertex_accepts_three_coordinates Integer Integer Integer EOL
    (Or.inl rfl) (Or.inl rfl) (Or.inl rfl) (Or.inl rfl)

/-- C17 (as stated it fails): the Vertex fixture matrix accepts the tokens that follow the
keyword in `v 1 2 3 4\n`, a sequence with four `Integer` tokens: the run from row 0 stops
in the accept state 0, not in the reject state 1. -/
theorem vertex_fourth_coordinate_counterexample :
    parserFinal vertexMatrix 0
        [Space, Integer, Space, Integer, Space, Integer, Space, Integer, EOL] ≠ 1 ∧
    ¬ ∀ ts : List TokenType, accepted vertexMatrix 0 ts = true → numericCount ts ≤ 3 := by
  refine ⟨by decide, fun h => ?_⟩
  have := h [Space, Integer, Space, Integer, Space, Integer, Space, Integer, EOL] (by decide)
  revert this
  decide

/-- C17 (amended): the Vertex fixture matrix takes an optional fourth coordinate: no token
sequence that it accepts, from row 0 or from state 2, contains more than four
`Integer`/`Float` tokens; the tokens after the keyword in `v 1 2 3 4\n` are accepted, and
the run over those of `v 1 2 3 4 5\n` stops in the reject state 1. -/
theorem vertex_rejects_fifth_coordinate (ts : List TokenType)
    (h : accepted vertexMatrix 0 ts = true ∨ accepted vertexMatrix 2 ts = true) :
    numericCount ts ≤ 4 ∧
      accepted vertexMatrix 0
        [Space, Integer, Space, Integer, Space, Integer, Space, Integer, EOL] = true ∧
      parserFinal vertexMatrix 0
        [Space, Integer, Space, Integer, Space, Integer, Space, Integer, Space, Integer, EOL]
        = 1 := by
  refine ⟨?_, by decide, by decide⟩
  rcases h with h | h
  · exact vertex_budget ts 0 h
  · exact vertex_budget ts 2 h

theorem vertex_rejects_fifth_coordinate_witness :
    numericCount [Space, TokenType.Float, Space, TokenType.Float, Space, TokenType.Float, EOL]
      ≤ 4 :=
  (vertex_rejects_fifth_coordinate
    [Space, TokenType.Float, Space, TokenType.Float, Space, TokenType.Float, EOL]
    (Or.inl (by decide))).1

/-- C18: the Vertex fixture matrix has 11 rows and the Face fixture matrix 61, each of
nine entries; in both an entry equal to 0 (accept) stands only in the column of `EOL`
or of `EOF`, and every row has an entry equal to 1 (reject). -/
theorem accept_and_reject_entries :
    vertexMatrix.length = 11 ∧ faceMatrix.length = 61 ∧
    EOL.toNat = 5 ∧ EOF.toNat = 6 ∧
    ∀ M ∈ [vertexMatrix, faceMatrix], ∀ row ∈ M,
      row.length = 9 ∧ 1 ∈ row ∧ ∀ j < 9, row.getD j 1 = 0 → j = 5 ∨ j = 6 := by
  decide

/-- C19 (as stated it fails): from state 2 the first token after the keyword, `Space`,
leads to the reject state 1, in the Vertex and in the Face fixture matrix. -/
theorem entry_state_counterexample :
    parserFinal vertexMatrix 2 [Space, Integer, Space, Integer, Space, Integer, EOL] = 1 ∧
      accepted vertexMatrix 2 [Space, Integer, Space, Integer, Space, Integer, EOL] = false ∧
      parserFinal faceMatrix 2 [Space, Integer, Space, Integer, Space, Integer, EOL] = 1 ∧
      accepted faceMatrix 2 [Space, Integer, Space, Integer, Space, Integer, EOL] = false := by
  decide

/-- C19 (amended): row 0 is the entry of the tokens that follow the keyword, and state 2
is the state entered on the `Space` after the keyword: stepping the Vertex fixture matrix
from row 0 over `Space, Integer, Space, Integer, Space, Integer, EOL` (the tokens after
the keyword of `v 1 2 3\n`) reaches the accept state 0 without visiting the reject
state 1, and so does stepping it from state 2 over the tokens after that first `Space`;
likewise for the Face fixture matrix and `f 1 2 3\n`. -/
theorem entry_row_is_zero :
    parserStep vertexMatrix 0 Space = 2 ∧
      accepted vertexMatrix 0 [Space, Integer, Space, Integer, Space, Integer, EOL] = true ∧
      accepted vertexMatrix 2 [Integer, Space, Integer, Space, Integer, EOL] = true ∧
      parserStep faceMatrix 0 Space = 2 ∧
      accepted faceMatrix 0 [Space, Integer, Space, Integer, Space, Integer, EOL] = true ∧
      accepted faceMatrix 2 [Integer, Space, Integer, Space, Integer, EOL] = true := by
  decide

/-! ### C15, C14: the Face matrix -/

/-- After the third corner every further `Space C` is accepted, up to the terminator. -/
theorem loop_accepts {M : List (List Nat)} {C : List TokenType} {e : Nat} (e2 : Nat)
    {T : TokenType} (h1 : pathTo M e (Space :: C) e2 = true) (h2 : pathTo M e2 (Space :: C) e2 = true)
    (hT1 : parserStep M e T = 0) (hT2 : parserStep M e2 T = 0) (k : Nat) :
    accepted M e ((List.replicate k (Space :: C)).flatten ++ [T]) = true := by
  have loop : ∀ k, accepted M e2 ((List.replicate k (Space :: C)).flatten ++ [T]) = true := by
    intro k
    induction k with
    | zero => simp [accepted_single, hT2]
    | succ k ih =>
      rw [List.replicate_succ, List.flatten_cons, List.append_assoc]
      exact pathTo_accepted _ h2 ih
  cases k with
  | zero => simp [accepted_single, hT1]
  | succ k =>
    rw [List.replicate_succ, List.flatten_cons, List.append_assoc]
    exact pathTo_accepted _ h1 (loop k)

/-- From the state after a corner, an accepted run is a number of `Space C` and then a
terminator. -/
theorem loop_inv {M : List (List Nat)} {C : List TokenType} {e e2 l : Nat} (hl : l ≠ 0)
    (hE : exits M e = [(Space, l), (EOL, 0), (EOF, 0)])
    (hE2 : exits M e2 = [(Space, l), (EOL, 0), (EOF, 0)])
    (hP : forcedPath M l C e2 = true) :
    ∀ (n : Nat) (ts : List TokenType), ts.length ≤ n →
      (accepted M e ts = true ∨ accepted M e2 ts = true) →
      ∃ k T, (T = EOL ∨ T = EOF) ∧ ts = (List.replicate k (Space :: C)).flatten ++ [T] := by
  intro n
  induction n with
  | zero =>
    intro ts hlen h
    have : ts = [] := List.length_eq_zero.mp (by omega)
    subst this
    rcases h with h | h <;> cases h
  | succ n ih =>
    intro ts hlen h
    have key : ∀ s, exits M s = [(Space, l), (EOL, 0), (EOF, 0)] → accepted M s ts = true →
        ∃ k T, (T = EOL ∨ T = EOF) ∧ ts = (List.replicate k (Space :: C)).flatten ++ [T] := by
      intro s hs hacc
      obtain ⟨t, q, ts2, hm, hts, hc⟩ := accepted_inv hacc
      rw [hs] at hm
      simp only [List.mem_cons, Prod.mk.injEq, List.mem_singleton, List.not_mem_nil,
        or_false] at hm
      rcases hm with ⟨rfl, rfl⟩ | ⟨rfl, rfl⟩ | ⟨rfl, rfl⟩
      · rcases hc with ⟨_, hq⟩ | ⟨_, _, hacc2⟩
        · exact absurd hq hl
        · obtain ⟨ts3, h3, hacc3⟩ := forcedPath_inv C hP hacc2
          have hlen3 : ts3.length ≤ n := by
            rw [hts, h3] at hlen
            simp only [List.length_cons, List.length_append] at hlen
            omega
          obtain ⟨k, T, hT, hk⟩ := ih ts3 hlen3 (Or.inr hacc3)
          refine ⟨k + 1, T, hT, ?_⟩
          rw [hts, h3, hk, List.replicate_succ, List.flatten_cons]
          simp
      · rcases hc with ⟨h2, _⟩ | ⟨_, hq, _⟩
        · exact ⟨0, EOL, Or.inl rfl, by rw [hts, h2]; rfl⟩
        · exact absurd rfl hq
      · rcases hc with ⟨h2, _⟩ | ⟨_, hq, _⟩
        · exact ⟨0, EOF, Or.inr rfl, by rw [hts, h2]; rfl⟩
        · exact absurd rfl hq
    rcases h with h | h
    · exact key e hE h
    · exact key e2 hE2 h

theorem faceTokens_succ_succ (C : List TokenType) (k : Nat) (T : TokenType) :
    faceTokens C (k + 2) T =
      (Space :: C ++ (Space :: C ++ (Space :: C))) ++
        ((List.replicate k (Space :: C)).flatten ++ [T]) := by
  simp [faceTokens, List.replicate_succ]

/-- A face of at least three corners of one of the four shapes is accepted. -/
theorem face_accepts_aux {C : List TokenType} (hC : C ∈ cornerShapes) (k : Nat)
    {T : TokenType} (hT : T = EOL ∨ T = EOF) :
    accepted faceMatrix 0 (faceTokens C (k + 2) T) = true := by
  rw [faceTokens_succ_succ]
  simp only [cornerShapes, List.mem_cons, List.mem_singleton, List.not_mem_nil, or_false] at hC
  rcases hC with rfl | rfl | rfl | rfl
  · refine pathTo_accepted _ (q := 58) (by decide) ?_
    rcases hT with rfl | rfl
    · exact loop_accepts 60 (by decide) (by decide) (by decide) (by decide) k
    · exact loop_accepts 60 (by decide) (by decide) (by decide) (by decide) k
  · refine pathTo_accepted _ (q := 33) (by decide) ?_
    rcases hT with rfl | rfl
    · exact loop_accepts 37 (by decide) (by decide) (by decide) (by decide) k
    · exact loop_accepts 37 (by decide) (by decide) (by decide) (by decide) k
  · refine pathTo_accepted _ (q := 49) (by decide) ?_
    rcases hT with rfl | rfl
    · exact loop_accepts 54 (by decide) (by decide) (by decide) (by decide) k
    · exact loop_accepts 54 (by decide) (by decide) (by decide) (by decide) k
  · refine pathTo_accepted _ (q := 19) (by decide) ?_
    rcases hT with rfl | rfl
    · exact loop_accepts 25 (by decide) (by decide) (by decide) (by decide) k
    · exact loop_accepts 25 (by decide) (by decide) (by decide) (by decide) k

/-- C15: stepping the Face fixture matrix from row 0 over the tokens that follow the
keyword `f`, for each of the four corner shapes (`Integer`; `Integer Slash Integer`;
`Integer Slash Slash Integer`; `Integer Slash Integer Slash Integer`), every `n ≥ 3` and
each terminator `T` among `EOL` and `EOF`, the sequence `Space C (Space C)^(n-1) T` with
all `C` of that shape reaches the accept state 0 at its last token without visiting
state 0 or the reject state 1 before. -/
theorem face_accepts_well_formed (C : List TokenType) (n : Nat) (T : TokenType)
    (hC : C ∈ cornerShapes) (hn : 3 ≤ n) (hT : T = EOL ∨ T = EOF) :
    accepted faceMatrix 0 (faceTokens C (n - 1) T) = true := by
  obtain ⟨k, rfl⟩ : ∃ k, n = k + 3 := ⟨n - 3, by omega⟩
  exact face_accepts_aux hC k hT

theorem face_accepts_well_formed_witness :
    accepted faceMatrix 0
      [Space, Integer, Slash, Slash, Integer, Space, Integer, Slash, Slash, Integer,
       Space, Integer, Slash, Slash, Integer, EOL] = true :=
  face_accepts_well_formed [Integer, Slash, Slash, Integer] 3 EOL (by decide) (by decide)
    (Or.inl rfl)

/-- An accepted run of the Face matrix from row 0 is `Space C (Space C)^k T` with `k ≥ 2`
and all corners of one shape. -/
theorem face_accepted_form {ts : List TokenType} (h : accepted faceMatrix 0 ts = true) :
    ∃ C ∈ cornerShapes, ∃ k T, 2 ≤ k ∧ (T = EOL ∨ T = EOF) ∧ ts = faceTokens C k T := by
  obtain ⟨ts1, e1, h3⟩ := forcedPath_inv [Space, Integer] (q := 3) (by decide) h
  obtain ⟨t, q, ts2, hm, e2, hc⟩ := accepted_inv h3
  rw [show exits faceMatrix 3 = [(Slash, 4), (Space, 55)] by decide] at hm
  simp only [List.mem_cons, Prod.mk.injEq, List.mem_singleton, List.not_mem_nil,
    or_false] at hm
  rcases hm with ⟨rfl, rfl⟩ | ⟨rfl, rfl⟩
  · -- `Integer Slash ...`
    rcases hc with ⟨_, hq⟩ | ⟨_, _, h4⟩
    · cases hq
    obtain ⟨t, q, ts3, hm, e3, hc⟩ := accepted_inv h4
    rw [show exits faceMatrix 4 = [(Integer, 5), (Slash, 38)] by decide] at hm
    simp only [List.mem_cons, Prod.mk.injEq, List.mem_singleton, List.not_mem_nil,
      or_false] at hm
    rcases hm with ⟨rfl, rfl⟩ | ⟨rfl, rfl⟩
    · -- `Integer Slash Integer ...`
      rcases hc with ⟨_, hq⟩ | ⟨_, _, h5⟩
      · cases hq
      obtain ⟨t, q, ts4, hm, e4, hc⟩ := accepted_inv h5
      rw [show exits faceMatrix 5 = [(Slash, 6), (Space, 26)] by decide] at hm
      simp only [List.mem_cons, Prod.mk.injEq, List.mem_singleton, List.not_mem_nil,
        or_false] at hm
      rcases hm with ⟨rfl, rfl⟩ | ⟨rfl, rfl⟩
      · -- corners `v/vt/vn`
        rcases hc with ⟨_, hq⟩ | ⟨_, _, h6⟩
        · cases hq
        obtain ⟨ts5, e5, h19⟩ := forcedPath_inv
          [Integer, Space, Integer, Slash, Integer, Slash, Integer,
           Space, Integer, Slash, Integer, Slash, Integer] (q := 19) (by decide) h6
        obtain ⟨k, T, hT, e6⟩ := loop_inv (M := faceMatrix)
          (C := [Integer, Slash, Integer, Slash, Integer]) (e := 19) (l := 20)
          (by decide) (by decide) (show exits faceMatrix 25 = _ by decide) (by decide)
          ts5.length ts5 (le_refl _) (Or.inl h19)
        refine ⟨[Integer, Slash, Integer, Slash, Integer], by decide, k + 2, T, by omega, hT, ?_⟩
        rw [faceTokens_succ_succ, e1, e2, e3, e4, e5, e6]
        rfl
      · -- corners `v/vt`
        rcases hc with ⟨_, hq⟩ | ⟨_, _, h26⟩
        · cases hq
        obtain ⟨ts5, e5, h33⟩ := forcedPath_inv
          [Integer, Slash, Integer, Space, Integer, Slash, Integer] (q := 33) (by decide) h26
        obtain ⟨k, T, hT, e6⟩ := loop_inv (M := faceMatrix)
          (C := [Integer, Slash, Integer]) (e := 33) (l := 34)
          (by decide) (by decide) (show exits faceMatrix 37 = _ by decide) (by decide)
          ts5.length ts5 (le_refl _) (Or.inl h33)
        refine ⟨[Integer, Slash, Integer], by decide, k + 2, T, by omega, hT, ?_⟩
        rw [faceTokens_succ_succ, e1, e2, e3, e4, e5, e6]
        rfl
    · -- corners `v//vn`
      rcases hc with ⟨_, hq⟩ | ⟨_, _, h38⟩
      · cases hq
      obtain ⟨ts5, e5, h49⟩ := forcedPath_inv
        [Integer, Space, Integer, Slash, Slash, Integer, Space, Integer, Slash, Slash, Integer]
        (q := 49) (by decide) h38
      obtain ⟨k, T, hT, e6⟩ := loop_inv (M := faceMatrix)
        (C := [Integer, Slash, Slash, Integer]) (e := 49) (l := 50)
        (by decide) (by decide) (show exits faceMatrix 54 = _ by decide) (by decide)
        ts5.length ts5 (le_refl _) (Or.inl h49)
      refine ⟨[Integer, Slash, Slash, Integer], by decide, k + 2, T, by omega, hT, ?_⟩
      rw [faceTokens_succ_succ, e1, e2, e3, e5, e6]
      rfl
  · -- corners `v`
    rcases hc with ⟨_, hq⟩ | ⟨_, _, h55⟩
    · cases hq
    obtain ⟨ts5, e5, h58⟩ := forcedPath_inv [Integer, Space, Integer] (q := 58) (by decide) h55
    obtain ⟨k, T, hT, e6⟩ := loop_inv (M := faceMatrix)
      (C := [Integer]) (e := 58) (l := 59)
      (by decide) (by decide) (show exits faceMatrix 60 = _ by decide) (by decide)
      ts5.length ts5 (le_refl _) (Or.inl h58)
    refine ⟨[Integer], by decide, k + 2, T, by omega, hT, ?_⟩
    rw [faceTokens_succ_succ, e1, e2, e5, e6]
    rfl

/-- C14: every token sequence that the Face fixture matrix accepts from row 0 (the state
after the last token is 0 and no earlier state of the run is 0 or 1) has the form
`Space C (Space C)^k T` with `k ≥ 2`, `T` an `EOL` or an `EOF`, and all corners `C` of one
and the same shape among `Integer`, `Integer Slash Integer`, `Integer Slash Slash Integer`
and `Integer Slash Integer Slash Integer`; the run over a face that mixes `1/2` and `1//2`
corners, and the run over a face of two corners, stop in the reject state 1. -/
theorem face_enforces_homogeneous_corners (ts : List TokenType)
    (h : accepted faceMatrix 0 ts = true) :
    (∃ C ∈ cornerShapes, ∃ k T, 2 ≤ k ∧ (T = EOL ∨ T = EOF) ∧ ts = faceTokens C k T) ∧
      parserFinal faceMatrix 0
        [Space, Integer, Slash, Integer, Space, Integer, Slash, Slash, Integer,
         Space, Integer, Slash, Integer, EOL] = 1 ∧
      parserFinal faceMatrix 0 [Space, Integer, Space, Integer, EOL] = 1 :=
  ⟨face_accepted_form h, by decide, by decide⟩

theorem face_enforces_homogeneous_corners_witness :
    ∃ C ∈ cornerShapes, ∃ k T, 2 ≤ k ∧ (T = EOL ∨ T = EOF) ∧
      [Space, Integer, Space, Integer, Space, Integer, Space, Integer, EOF]
        = faceTokens C k T :=
  (face_enforces_homogeneous_corners
    [Space, Integer, Space, Integer, Space, Integer, Space, Integer, EOF] (by decide)).1

/-! ### The line fields along `Next` and `SkipLine` -/

theorem Track.here {s : scanner} (h : Inv s) : Track s s [] :=
  ⟨Adv.refl h, rfl, rfl⟩

theorem Track.seq {s1 s2 s3 : scanner} {p q : List Nat} (h12 : Track s1 s2 p)
    (h23 : Track s2 s3 q) : Track s1 s3 (p ++ q) :=
  ⟨h12.1.trans h23.1, by rw [h12.2.1, h23.2.1, List.append_assoc],
    by rw [h23.2.2, h12.2.2, List.foldl_append]⟩

theorem has_lineFields (s : scanner) : lineFields (hasOk s).2 = lineFields s := by
  unfold hasOk
  split
  · split
    · rfl
    · rfl
  · rfl

theorem has_track (s : scanner) (h : Inv s) : Track s (hasOk s).2 [] := by
  obtain ⟨_, hs⟩ := has_spec s h
  exact ⟨hs.adv, hs.2.1.symm, has_lineFields s⟩

theorem stepLine_stepByte_lineFields (b : Nat) (s t : scanner)
    (ht : lineFields t = lineFields (stepLine s)) :
    lineFields (stepByte b t) = lineStep (lineFields s) b := by
  simp only [lineFields, Prod.mk.injEq] at ht
  obtain ⟨h1, h2, h3⟩ := ht
  have hsw : (stepLine s).switchLine = false := by
    unfold stepLine
    cases hs : s.switchLine <;> simp [hs]
  rw [hsw] at h2
  unfold stepByte lineStep lineFields
  by_cases hb : b = 10
  · simp only [hb, if_true]
    rw [h1, h3]
    unfold stepLine refreshLine
    cases s.switchLine <;> simp
  · simp only [hb, if_false]
    rw [h1, h2, h3]
    unfold stepLine refreshLine
    cases s.switchLine <;> simp

theorem step_track (s : scanner) (h : Inv s) {b : Nat} {rest : List Nat}
    (hu : unread s = b :: rest) : ∃ s2, step s = some s2 ∧ unread s2 = rest ∧ Track s s2 [b] := by
  obtain ⟨s2, hst, hp⟩ := step_cons s h hu
  obtain ⟨hI0, hu0, _, _⟩ := stepLine_spec s h
  have hpk : peek (stepLine s) = some (b, (hasOk (stepLine s)).2) :=
    peek_cons (stepLine s) hI0 (hu0.trans hu)
  have he : step s = some (stepByte b (hasOk (stepLine s)).2) := by
    rw [step_eq, hpk]; rfl
  have h2 : s2 = stepByte b (hasOk (stepLine s)).2 := by
    rw [hst] at he; exact Option.some.inj he
  refine ⟨s2, hst, hp.2, hp.1, by rw [hu, hp.2]; rfl, ?_⟩
  rw [h2]
  exact stepLine_stepByte_lineFields b s _ (has_lineFields _)

theorem skipCR_track (s : scanner) (h : Inv s) {d : Nat} {rest : List Nat}
    (hu : unread s = 13 :: d :: rest) :
    ∃ s2, skipCR 13 s = some (d, s2) ∧ unread s2 = d :: rest ∧ Track s s2 [13] := by
  obtain ⟨hb, hs⟩ := has_spec s h
  have ht : (hasOk s).1 = true := by rw [hb, hu]; simp
  obtain ⟨s2, hst, hu2, ht2⟩ := step_track (hasOk s).2 hs.1 (hs.2.1.trans hu)
  have hI2 : Inv s2 := ht2.1.1
  have h3 := has_track s2 hI2
  obtain ⟨_, hs2⟩ := has_spec s2 hI2
  refine ⟨(hasOk s2).2, ?_, hs2.2.1.trans hu2, ?_⟩
  · simp only [skipCR, has_eq h, ht, if_true, hst]
    exact peek_cons s2 hI2 hu2
  · have := ((has_track s h).seq ht2).seq h3
    simpa using this

theorem body_track (fuel : Nat)
    (ih1 : ∀ s st buf t lex s2, Inv s → nextLoop fuel s st buf = .ok (t, lex, s2) →
      ∃ pre, Track s s2 pre)
    (ih2 : ∀ s t lex s2, Inv s → NextFuel fuel s = .ok (t, lex, s2) → ∃ pre, Track s s2 pre)
    (s : scanner) (st : stateType) (buf : List Nat) (d : Nat) (rest : List Nat)
    (t : TokenType) (lex : List Nat) (s2 : scanner)
    (hI : Inv s) (hu : unread s = d :: rest)
    (h : loopBody fuel s st buf d = .ok (t, lex, s2)) : ∃ pre, Track s s2 pre := by
  unfold loopBody at h
  by_cases e : matrixAt (getSymbolType d) st = start
  · rw [if_pos e] at h
    by_cases c : (s.skipComments && decide (tokenTypeOf st = Comment)) = true
    · rw [if_pos c] at h
      exact ih2 s t lex s2 hI h
    · rw [if_neg c] at h
      simp only [Result.ok.injEq, Prod.mk.injEq] at h
      rw [← h.2.2]
      exact ⟨[], Track.here hI⟩
  · rw [if_neg e] at h
    obtain ⟨s4, hst, hu4, ht4⟩ := step_track s hI hu
    rw [hst] at h
    simp only at h
    obtain ⟨pre, hp⟩ := ih1 s4 _ _ t lex s2 ht4.1.1 h
    exact ⟨[d] ++ pre, ht4.seq hp⟩

theorem track_aux (fuel : Nat) :
    (∀ s st buf t lex s2, Inv s → nextLoop fuel s st buf = .ok (t, lex, s2) →
      ∃ pre, Track s s2 pre) ∧
    (∀ s t lex s2, Inv s → NextFuel fuel s = .ok (t, lex, s2) → ∃ pre, Track s s2 pre) := by
  induction fuel with
  | zero =>
    constructor
    · intro s st buf t lex s2 _ h; rw [nextLoop] at h; cases h
    · intro s t lex s2 _ h; rw [NextFuel] at h; cases h
  | succ fuel ih =>
    obtain ⟨ih1, ih2⟩ := ih
    constructor
    · intro s st buf t lex s2 hI h
      rw [nextLoop_succ _ _ _ _ hI] at h
      obtain ⟨hb, hs⟩ := has_spec s hI
      have h0 := has_track s hI
      cases hu : unread s with
      | nil =>
        have ht : (hasOk s).1 = false := by rw [hb, hu]; simp
        rw [ht] at h
        simp only [Bool.false_eq_true, if_false, Result.ok.injEq, Prod.mk.injEq] at h
        rw [← h.2.2]
        exact ⟨[], h0⟩
      | cons c rest =>
        have ht : (hasOk s).1 = true := by rw [hb, hu]; simp
        have hu1 : unread (hasOk s).2 = c :: rest := hs.2.1.trans hu
        rw [ht, if_pos rfl, peek_cons _ hs.1 hu1] at h
        simp only at h
        have h1 := has_track (hasOk s).2 hs.1
        obtain ⟨_, hs1⟩ := has_spec (hasOk s).2 hs.1
        have hu2 : unread (hasOk (hasOk s).2).2 = c :: rest := hs1.2.1.trans hu1
        have h01 : Track s (hasOk (hasOk s).2).2 [] := by simpa using h0.seq h1
        by_cases hc : c = 13
        · subst hc
          cases rest with
          | nil =>
            rw [skipCR_last _ hs1.1 hu2] at h
            cases h
          | cons d rest2 =>
            obtain ⟨s3, h3, hu3, ht3⟩ := skipCR_track _ hs1.1 hu2
            rw [h3] at h
            simp only at h
            obtain ⟨pre, hp⟩ := body_track fuel ih1 ih2 s3 st buf d rest2 t lex s2
              ht3.1.1 hu3 h
            exact ⟨[] ++ [13] ++ pre, (h01.seq ht3).seq hp⟩
        · rw [skipCR_ne _ hc] at h
          simp only at h
          obtain ⟨pre, hp⟩ := body_track fuel ih1 ih2 _ st buf c rest t lex s2 hs1.1 hu2 h
          exact ⟨[] ++ pre, h01.seq hp⟩
    · intro s t lex s2 hI h
      rw [NextFuel_succ _ _ hI] at h
      have h0 := has_track s hI
      by_cases ht : (hasOk s).1 = true
      · rw [if_pos ht] at h
        obtain ⟨pre, hp⟩ := ih1 _ _ _ t lex s2 h0.1.1 h
        exact ⟨[] ++ pre, h0.seq hp⟩
      · rw [if_neg ht] at h
        simp only [Result.ok.injEq, Prod.mk.injEq] at h
        rw [← h.2.2]
        exact ⟨[], h0⟩

/-- A call of `Next` that returns moves the line fields as `step` does for each byte it
consumed. -/
theorem Next_track {s : scanner} (hI : Inv s) {t : TokenType} {lex : List Nat} {s2 : scanner}
    (h : Next s = .ok (t, lex, s2)) : ∃ pre, Track s s2 pre :=
  (track_aux _).2 s t lex s2 hI h

theorem lineHead_append_lineRest (u : List Nat) : lineHead u ++ lineRest u = u := by
  induction u with
  | nil => rfl
  | cons c rest ih =>
    by_cases hc : c = 10
    · simp [lineHead, lineRest, hc]
    · simp [lineHead, lineRest, hc, ih]

theorem lineRest_length_le (u : List Nat) : (lineRest u).length ≤ u.length := by
  induction u with
  | nil => simp [lineRest]
  | cons c rest ih =>
    by_cases hc : c = 10
    · simp [lineRest, hc]
    · simp only [lineRest, hc, if_false, List.length_cons]; omega

/-- The loop of `SkipLine` consumes the bytes up to and including the first `'\n'`. -/
theorem skipLineLoop_spec (fuel : Nat) : ∀ s : scanner, Inv s → (unread s).length < fuel →
    ∃ s2, skipLineLoop fuel s = .ok s2 ∧ unread s2 = lineRest (unread s) ∧
      Track s s2 (lineHead (unread s)) := by
  induction fuel with
  | zero => intro s _ h; omega
  | succ fuel ih =>
    intro s hI hf
    rw [skipLineLoop, has_eq hI]
    obtain ⟨hb, hs⟩ := has_spec s hI
    have h0 := has_track s hI
    cases hu : unread s with
    | nil =>
      have ht : (hasOk s).1 = false := by rw [hb, hu]; simp
      simp only [ht, Bool.false_eq_true, if_false]
      refine ⟨(hasOk s).2, rfl, by rw [hs.2.1, hu]; rfl, ?_⟩
      simpa [lineHead] using h0
    | cons c rest =>
      have ht : (hasOk s).1 = true := by rw [hb, hu]; simp
      have hu1 : unread (hasOk s).2 = c :: rest := hs.2.1.trans hu
      simp only [ht, if_true, peek_cons _ hs.1 hu1]
      have h1 := has_track (hasOk s).2 hs.1
      obtain ⟨_, hs1⟩ := has_spec (hasOk s).2 hs.1
      have hu2 : unread (hasOk (hasOk s).2).2 = c :: rest := hs1.2.1.trans hu1
      have h01 : Track s (hasOk (hasOk s).2).2 [] := by simpa using h0.seq h1
      obtain ⟨s3, hst, hu3, ht3⟩ := step_track _ hs1.1 hu2
      simp only [hst]
      by_cases hc : c = 10
      · simp only [hc, if_true]
        refine ⟨s3, rfl, by simp [lineRest, hu3], ?_⟩
        have := h01.seq ht3
        simpa [lineHead, hc] using this
      · simp only [hc, if_false]
        obtain ⟨s4, h4, hu4, ht4⟩ := ih s3 ht3.1.1 (by
          rw [hu3]; rw [hu] at hf; simp only [List.length_cons] at hf; omega)
        refine ⟨s4, h4, by simp [lineRest, hc, hu4, hu3], ?_⟩
        have := (h01.seq ht3).seq ht4
        simpa [lineHead, hc, hu3] using this

/-- What `SkipLine` does: nothing when the last consumed byte was a `'\n'`, and otherwise
it consumes the bytes up to and including the first `'\n'`. -/
theorem SkipLine_spec {s : scanner} (hI : Inv s) :
    ∃ s2, SkipLine s = .ok s2 ∧
      ((s.switchLine = true ∧ s2 = s) ∨
        (s.switchLine = false ∧ unread s2 = lineRest (unread s) ∧
          Track s s2 (lineHead (unread s)))) := by
  unfold SkipLine
  cases hsw : s.switchLine with
  | true => exact ⟨s, by simp, Or.inl ⟨rfl, rfl⟩⟩
  | false =>
    obtain ⟨s2, h2, hu2, ht2⟩ := skipLineLoop_spec _ s hI (Nat.lt_succ_self _)
    exact ⟨s2, by simpa using h2, Or.inr ⟨rfl, hu2, ht2⟩⟩

theorem SkipLine_track {s s2 : scanner} (hI : Inv s) (h : SkipLine s = .ok s2) :
    ∃ pre, Track s s2 pre := by
  obtain ⟨s3, h3, hc⟩ := SkipLine_spec hI
  rw [h3] at h
  simp only [Result.ok.injEq] at h
  subst h
  rcases hc with ⟨_, rfl⟩ | ⟨_, _, ht⟩
  · exact ⟨[], Track.here hI⟩
  · exact ⟨_, ht⟩

theorem runCalls_track (calls : List Call) : ∀ {s s2 : scanner}, Inv s →
    runCalls calls s = .ok s2 → ∃ pre, Track s s2 pre := by
  induction calls with
  | nil =>
    intro s s2 hI h
    simp only [runCalls, Result.ok.injEq] at h
    subst h
    exact ⟨[], Track.here hI⟩
  | cons c cs ih =>
    intro s s2 hI h
    cases c with
    | next =>
      rw [runCalls] at h
      cases hn : Next s with
      | ok r =>
        obtain ⟨t, lex, s1⟩ := r
        rw [hn] at h
        simp only at h
        obtain ⟨p, hp⟩ := Next_track hI hn
        obtain ⟨q, hq⟩ := ih hp.1.1 h
        exact ⟨p ++ q, hp.seq hq⟩
      | panicked => rw [hn] at h; cases h
      | outOfFuel => rw [hn] at h; cases h
    | skipLine =>
      rw [runCalls] at h
      cases hn : SkipLine s with
      | ok s1 =>
        rw [hn] at h
        simp only at h
        obtain ⟨p, hp⟩ := SkipLine_track hI hn
        obtain ⟨q, hq⟩ := ih hp.1.1 h
        exact ⟨p ++ q, hp.seq hq⟩
      | panicked => rw [hn] at h; cases h
      | outOfFuel => rw [hn] at h; cases h

/-- A scanner reached from `NewScanner` by calls that return: its line fields are those
of its consumed bytes, which with the unread bytes make up the input. -/
theorem reach_spec {input : List Nat} {skip : Bool} {calls : List Call} {s : scanner}
    (h : runCalls calls (SkipComments (NewScanner input) skip) = .ok s) :
    Inv s ∧ input = consumed input s ++ unread s ∧
      lineFields s = lineState (consumed input s) := by
  have hI0 : Inv (SkipComments (NewScanner input) skip) := Inv_NewScanner input
  have hu0 : unread (SkipComments (NewScanner input) skip) = input := unread_NewScanner input
  obtain ⟨pre, ha, hu, hl⟩ := runCalls_track calls hI0 h
  rw [hu0] at hu
  have hp := ha.2.2
  rw [hu0] at hp
  have hp0 : (SkipComments (NewScanner input) skip).posNum = 0 := rfl
  rw [hp0] at hp
  have hlen : input.length = pre.length + (unread s).length := by
    conv_lhs => rw [hu]
    simp
  have hpos : s.posNum = (pre.length : Int) := by
    rw [hlen] at hp; push_cast at hp; omega
  have hc : consumed input s = pre := by
    unfold consumed
    rw [hpos, Int.toNat_ofNat]
    conv_lhs => rw [hu]
    simp
  rw [hc]
  exact ⟨ha.1, hu, hl⟩

/-! ### The line fields and the lines of the input -/

theorem lineState_snoc (c : List Nat) (b : Nat) :
    lineState (c ++ [b]) = lineStep (lineState c) b := by
  simp [lineState, List.foldl_append]

theorem lineAt_skip (c : List Nat) : ∀ (w : List Nat) (j : Nat),
    lineAt (c.count 10 + 1 + j) (c ++ w) = lineAt j (lineRest w) := by
  induction c with
  | nil =>
    intro w j
    have e : List.count 10 ([] : List Nat) + 1 + j = j + 1 := by simp; omega
    rw [e]; rfl
  | cons x c ih =>
    intro w j
    by_cases hx : x = 10
    · subst hx
      have e : List.count 10 (10 :: c) + 1 + j = (c.count 10 + 1 + j) + 1 := by
        rw [List.count_cons_self]
        omega
      rw [e]
      show lineAt (c.count 10 + 1 + j) (lineRest (10 :: (c ++ w))) = _
      simp only [lineRest, if_true]
      exact ih w j
    · have e : List.count 10 (x :: c) + 1 + j = (c.count 10 + j) + 1 := by
        rw [List.count_cons_of_ne (fun h => hx h.symm)]
        omega
      rw [e]
      show lineAt (c.count 10 + j) (lineRest (x :: (c ++ w))) = _
      simp only [lineRest, hx, if_false]
      have e2 : lineAt (c.count 10 + j) (lineRest (c ++ w)) = lineAt (c.count 10 + j + 1) (c ++ w) :=
        rfl
      rw [e2, show c.count 10 + j + 1 = c.count 10 + 1 + j by omega]
      exact ih w j

/-- What the line fields say about the consumed bytes `c`: `switchLine` holds when the
last byte is a `'\n'`; `lineNum` counts the `'\n'` bytes, less a last one; `lineStr` is
the consumed part of the line of the last byte. -/
theorem lineState_spec (c : List Nat) :
    ((lineState c).2.1 = true ↔ c.getLast? = some 10) ∧
    (lineState c).2.2 + (if (lineState c).2.1 then 1 else 0) = (c.count 10 : Int) ∧
    (∀ u, lineAt (c.count 10) (c ++ u)
      = (if (lineState c).2.1 then [] else (lineState c).1) ++ firstLine u) ∧
    ((lineState c).2.1 = true → ∀ u, lineAt (c.count 10 - 1) (c ++ u) = (lineState c).1) := by
  induction c using List.reverseRecOn with
  | nil =>
    refine ⟨by simp [lineState], by simp [lineState], ?_, by simp [lineState]⟩
    intro u
    simp [lineState, lineAt]
  | append_singleton c b ih =>
    obtain ⟨ha, hb, hc, hd⟩ := ih
    rw [lineState_snoc]
    by_cases hb10 : b = 10
    · subst hb10
      have hcount : (c ++ [10]).count 10 = c.count 10 + 1 := by simp
      refine ⟨by simp [lineStep], ?_, ?_, ?_⟩
      · rw [hcount]
        simp only [lineStep, if_true]
        push_cast
        split at hb <;> simp_all
      · intro u
        rw [hcount, List.append_assoc]
        have := lineAt_skip c ([10] ++ u) 0
        simp only [Nat.add_zero] at this
        rw [this]
        simp [lineStep, lineRest, lineAt]
      · intro _ u
        rw [hcount, List.append_assoc, Nat.add_sub_cancel, hc]
        simp [lineStep, firstLine]
    · have hcount : (c ++ [b]).count 10 = c.count 10 := by
        rw [List.count_append, List.count_cons_of_ne (fun h => hb10 h.symm)]
        simp
      refine ⟨?_, ?_, ?_, ?_⟩
      · simp [lineStep, hb10]
      · rw [hcount]
        simp only [lineStep, hb10, if_false]
        split at hb <;> simp_all
      · intro u
        rw [hcount, List.append_assoc, hc]
        simp [lineStep, hb10, firstLine]
      · intro h
        simp [lineStep, hb10] at h

theorem lineState_lineNum (c : List Nat) : (lineState c).2.2 = (c.dropLast.count 10 : Int) := by
  induction c using List.reverseRecOn with
  | nil => simp [lineState]
  | append_singleton c b _ =>
    obtain ⟨_, hb, _, _⟩ := lineState_spec c
    rw [lineState_snoc, List.dropLast_concat]
    by_cases h : b = 10
    · simp only [lineStep, h, if_true]
      split at hb <;> simp_all
    · simp only [lineStep, h, if_false]
      split at hb <;> simp_all

/-! ### C11, C12, C13: `Line`, `SkipLine`, `LineString`; C20: lossless tokenisation -/

theorem foldl_lineHead (u : List Nat) : ∀ (ls : List Nat) (ln : Int),
    ((lineHead u).foldl lineStep (ls, false, ln)).1 = ls ++ firstLine u := by
  induction u with
  | nil => intro ls ln; simp [lineHead, firstLine]
  | cons c rest ih =>
    intro ls ln
    by_cases hc : c = 10
    · simp [lineHead, firstLine, hc, lineStep]
    · simp only [lineHead, firstLine, hc, if_false, List.foldl_cons]
      have e : lineStep (ls, false, ln) c = (ls ++ [c], false, ln) := by
        simp [lineStep, hc]
      rw [e, ih]
      simp

theorem count_dropLast_of_switch {c : List Nat} (h : (lineState c).2.1 = true) :
    c.dropLast.count 10 = c.count 10 - 1 := by
  obtain ⟨_, hb, _, _⟩ := lineState_spec c
  have hn := lineState_lineNum c
  rw [h, hn] at hb
  simp only [if_true] at hb
  omega

theorem count_dropLast_of_not_switch {c : List Nat} (h : (lineState c).2.1 = false) :
    c.dropLast.count 10 = c.count 10 := by
  obtain ⟨_, hb, _, _⟩ := lineState_spec c
  have hn := lineState_lineNum c
  rw [h, hn] at hb
  simp only [Bool.false_eq_true, if_false, add_zero] at hb
  omega

/-- C12 (as stated it fails): after `Next` returned the `EOL` of `"\nab\n"`, `SkipLine`
consumes nothing: the unread bytes stay `"ab\n"`.  And when the `Read` of `NewScanner`
delivers only the first byte of `"v x\nf"`, `SkipLine` on the new scanner stops at the
end of the short fill: `" x\nf"` stays unread, not `"f"`. -/
theorem skipLine_counterexample :
    (¬ ∀ (input : List Nat) (calls : List Call) (s s2 : scanner),
      runCalls calls (NewScanner input) = .ok s → SkipLine s = .ok s2 →
      unread s2 = lineRest (unread s)) ∧
    ((match NewScannerFrom [some 1] [118, 32, 120, 10, 102] with
      | some s =>
        match SkipLine s with
        | .ok s2 => some (unread s, unread s2)
        | _ => none
      | none => none) = some ([118, 32, 120, 10, 102], [32, 120, 10, 102]) ∧
      lineRest [118, 32, 120, 10, 102] = [102]) := by
  refine ⟨fun h => ?_, by decide!⟩
  have := h [10, 97, 98, 10] [Call.next]
    { NewScanner [10, 97, 98, 10] with bufpos := 1, posNum := 1, switchLine := true }
    { NewScanner [10, 97, 98, 10] with bufpos := 1, posNum := 1, switchLine := true }
    (by decide!) (by decide!)
  revert this
  decide!

/-- C12 (amended): for a reader that fills every `Read` request completely until the stream
is exhausted, in every scanner state reached from `NewScanner` by `Next` and `SkipLine`
calls that return, `SkipLine` returns; when the most recently consumed byte is
a `'\n'` it consumes nothing, and otherwise (also when no byte is consumed yet) it
consumes exactly the unread bytes up to and including their first `'\n'`: the unread
input becomes the part that follows that `'\n'`, empty if there is none. -/
theorem skipLine_discards_through_newline (input : List Nat) (skip : Bool)
    (calls : List Call) (s : scanner)
    (hrun : runCalls calls (SkipComments (NewScanner input) skip) = .ok s) :
    ∃ s2, SkipLine s = .ok s2 ∧
      unread s2 = if (consumed input s).getLast? = some 10 then unread s
                  else lineRest (unread s) := by
  obtain ⟨hI, _, h2⟩ := reach_spec hrun
  have hsw : s.switchLine = (lineState (consumed input s)).2.1 := congrArg (fun x => x.2.1) h2
  obtain ⟨ha, _, _, _⟩ := lineState_spec (consumed input s)
  obtain ⟨s2, h3, hc⟩ := SkipLine_spec hI
  refine ⟨s2, h3, ?_⟩
  rcases hc with ⟨hs, rfl⟩ | ⟨hs, hu, _⟩
  · rw [if_pos (ha.mp (hsw ▸ hs))]
  · rw [if_neg (fun e => by rw [hsw, ha.mpr e] at hs; cases hs), hu]

theorem skipLine_discards_through_newline_witness :
    runCalls [Call.next] (SkipComments (NewScanner [118, 32, 120, 10, 102]) true)
        = .ok { NewScanner [118, 32, 120, 10, 102] with
                  bufpos := 1, posNum := 1, lineStr := [118] } ∧
      ∃ s2, SkipLine { NewScanner [118, 32, 120, 10, 102] with
                         bufpos := 1, posNum := 1, lineStr := [118] } = .ok s2 ∧
        unread s2 = [102] := by
  refine ⟨by decide!, ?_⟩
  obtain ⟨s2, h1, h2⟩ := skipLine_discards_through_newline [118, 32, 120, 10, 102] true
    [Call.next]
    { NewScanner [118, 32, 120, 10, 102] with bufpos := 1, posNum := 1, lineStr := [118] }
    (by decide!)
  refine ⟨s2, h1, h2.trans ?_⟩
  decide!

/-- C13 (amended): for a reader that fills every `Read` request completely until the stream
is exhausted, in every scanner state reached from `NewScanner` by `Next` and `SkipLine`
calls that return, `SkipLine` returns and `LineString` then is the complete text, without the
terminating `'\n'`, of the line that was current when `SkipLine` was called: the line of
the input that holds the most recently consumed byte (a consumed `'\n'` belongs to the
line it ends; the first line if no byte is consumed yet). -/
theorem lineString_after_skipLine (input : List Nat) (skip : Bool) (calls : List Call)
    (s : scanner) (hrun : runCalls calls (SkipComments (NewScanner input) skip) = .ok s) :
    ∃ s2, SkipLine s = .ok s2 ∧
      LineString s2 = lineAt ((consumed input s).dropLast.count 10) input := by
  obtain ⟨hI, h1, h2⟩ := reach_spec hrun
  have hsw : s.switchLine = (lineState (consumed input s)).2.1 := congrArg (fun x => x.2.1) h2
  have hls : s.lineStr = (lineState (consumed input s)).1 := congrArg (fun x => x.1) h2
  obtain ⟨_, _, hc, hd⟩ := lineState_spec (consumed input s)
  obtain ⟨s2, h3, hcase⟩ := SkipLine_spec hI
  refine ⟨s2, h3, ?_⟩
  rcases hcase with ⟨hs, rfl⟩ | ⟨hs, _, ht⟩
  · rw [hsw] at hs
    rw [count_dropLast_of_switch hs]
    exact (hls.trans (hd hs (unread s2)).symm).trans (congrArg (lineAt _) h1.symm)
  · rw [hsw] at hs
    rw [count_dropLast_of_not_switch hs]
    have e1 : lineAt ((consumed input s).count 10) input
        = (lineState (consumed input s)).1 ++ firstLine (unread s) := by
      have := hc (unread s)
      rw [hs] at this
      exact (congrArg (lineAt _) h1).trans this
    have hl : s2.lineStr = ((lineHead (unread s)).foldl lineStep (lineFields s)).1 :=
      congrArg (fun x => x.1) ht.2.2
    have hf : lineFields s = ((lineState (consumed input s)).1, false,
        (lineState (consumed input s)).2.2) := by
      rw [h2, ← hs]
    rw [e1, LineString, hl, hf, foldl_lineHead]

theorem lineString_after_skipLine_witness :
    runCalls [Call.next] (SkipComments (NewScanner [118, 32, 120, 10, 102]) true)
        = .ok { NewScanner [118, 32, 120, 10, 102] with
                  bufpos := 1, posNum := 1, lineStr := [118] } ∧
      ∃ s2, SkipLine { NewScanner [118, 32, 120, 10, 102] with
                         bufpos := 1, posNum := 1, lineStr := [118] } = .ok s2 ∧
        LineString s2 = [118, 32, 120] := by
  refine ⟨by decide!, ?_⟩
  obtain ⟨s2, h1, h2⟩ := lineString_after_skipLine [118, 32, 120, 10, 102] true [Call.next]
    { NewScanner [118, 32, 120, 10, 102] with bufpos := 1, posNum := 1, lineStr := [118] }
    (by decide!)
  refine ⟨s2, h1, h2.trans ?_⟩
  decide!

/-- C20 (amended): for a reader that fills every `Read` request completely until the stream
is exhausted (`NewScanner`), and for every input in which each `'\r'` is immediately
followed by a byte other than `'\r'`, in particular for every input without `'\r'`, scanned with comment skipping
disabled, the scanner does not fail and the lexemes of all tokens returned before the
first `EOF`, concatenated, are the input with its `'\r'` bytes removed (the input itself
when it has none). -/
theorem lossless_tokenisation (input : List Nat) (h : crFollowed input = true) :
    ∃ toks, tokens (SkipComments (NewScanner input) false) = .ok toks ∧
      lexemes toks = stripCR input ∧ (13 ∉ input → lexemes toks = input) := by
  obtain ⟨toks, h1, h2⟩ := tokens_lexemes_of_crFollowed h
  refine ⟨toks, h1, h2, fun hn => ?_⟩
  rw [h2, stripCR, List.filter_eq_self]
  intro a ha
  have : a ≠ 13 := fun e => hn (e ▸ ha)
  simpa using this

theorem lossless_tokenisation_witness :
    crFollowed [102, 32, 49, 47, 50, 13, 10] = true ∧
      ∃ toks, tokens (SkipComments (NewScanner [102, 32, 49, 47, 50, 13, 10]) false) = .ok toks ∧
        lexemes toks = stripCR [102, 32, 49, 47, 50, 13, 10] ∧
        (13 ∉ [102, 32, 49, 47, 50, 13, 10] → lexemes toks = [102, 32, 49, 47, 50, 13, 10]) :=
  ⟨by decide, lossless_tokenisation [102, 32, 49, 47, 50, 13, 10] (by decide)⟩

/-! ### C21: buffering is transparent -/

theorem tokensL_ne_outOfFuel (skip : Bool) (n : Nat) : ∀ u : List Nat, u.length < n →
    tokensL n skip u ≠ .outOfFuel := by
  induction n with
  | zero => intro u h; omega
  | succ n ih =>
    intro u hu
    unfold tokensL
    cases h : NextL skip u with
    | none => simp
    | some r =>
      obtain ⟨t, lex, rest⟩ := r
      simp only
      by_cases ht : t = EOF
      · rw [if_pos ht]; simp
      · rw [if_neg ht]
        have hl := NextL_length h ht
        have := ih rest (by omega)
        cases h2 : tokensL n skip rest with
        | ok toks => simp
        | panicked => simp
        | outOfFuel => exact absurd h2 this

/-- C21: buffering is transparent.  For every input, delivered by a reader that fills each
read completely, and for either comment-skipping setting, the tokens that the buffered
scanner (255-byte buffer, cursor and fill length kept modulo 256) returns before the
first `EOF` are those of the same machine run over the whole input as one list, which
never runs out of calls; the results of the first `n` calls agree as well, a failing call
included.  Instances: the empty input, an input of exactly 255 bytes, and an input of 510
bytes with a token that straddles the refill after byte 255. -/
theorem buffering_is_transparent (input : List Nat) (skip : Bool) :
    tokens (SkipComments (NewScanner input) skip) = directTokens skip input ∧
      directTokens skip input ≠ .outOfFuel ∧
      (∀ n, (nextN n (SkipComments (NewScanner input) skip)).tokens
        = directNextN n skip input) ∧
      tokens (NewScanner []) = .ok [] ∧
      tokens (NewScanner (List.replicate 255 97)) = .ok [(Word, List.replicate 255 97)] ∧
      tokens (NewScanner (List.replicate 250 97 ++ 32 :: List.replicate 259 49))
        = .ok [(Word, List.replicate 250 97), (Space, [32]),
               (Integer, List.replicate 259 49)] := by
  have key : ∀ (inp : List Nat) (b : Bool),
      tokens (SkipComments (NewScanner inp) b) = directTokens b inp := by
    intro inp b
    have hI := Inv_SkipComments (Inv_NewScanner inp) b
    have hu : unread (SkipComments (NewScanner inp) b) = inp := by
      rw [unread_SkipComments, unread_NewScanner]
    have := tokens_refines (inp.length + 1) hI
    rw [hu] at this
    rw [tokens, hu, this]
    rfl
  have dflt : ∀ inp : List Nat, NewScanner inp = SkipComments (NewScanner inp) true :=
    fun _ => rfl
  refine ⟨key input skip, tokensL_ne_outOfFuel skip _ input (Nat.lt_succ_self _), ?_, ?_, ?_, ?_⟩
  · intro n
    have hI := Inv_SkipComments (Inv_NewScanner input) skip
    have hu : unread (SkipComments (NewScanner input) skip) = input := by
      rw [unread_SkipComments, unread_NewScanner]
    have hs : (SkipComments (NewScanner input) skip).skipComments = skip := rfl
    unfold directNextN
    cases h : nextNL n skip input with
    | none =>
      have := nextN_panicked n hI (by rw [hs, hu]; exact h)
      rw [this]
      rfl
    | some r =>
      obtain ⟨toks, rest⟩ := r
      exact nextN_tokens_of_nextNL hI (by rw [hs, hu]; exact h)
  · rw [dflt, key]
    decide!
  · rw [dflt, key]
    decide!
  · rw [dflt, key]
    decide!

/-! ### C22: progress -/

theorem nextNL_progress (n : Nat) : ∀ {skip : Bool} {u : List Nat}
    {toks : List (TokenType × List Nat)} {rest : List Nat},
    nextNL n skip u = some (toks, rest) →
    countNonEOF toks + rest.length ≤ u.length ∧
      (∀ x ∈ toks, x.1 ≠ EOF → x.2 ≠ []) ∧
      (∀ (i : Nat) (x : TokenType × List Nat), u.length ≤ i → toks[i]? = some x →
        x = (EOF, [])) := by
  induction n with
  | zero =>
    intro skip u toks rest h
    simp only [nextNL, Option.some.injEq, Prod.mk.injEq] at h
    obtain ⟨rfl, rfl⟩ := h
    refine ⟨by simp [countNonEOF], by simp, by simp⟩
  | succ n ih =>
    intro skip u toks rest h
    unfold nextNL at h
    cases h1 : NextL skip u with
    | none => rw [h1] at h; cases h
    | some r =>
      obtain ⟨t, lex, rest1⟩ := r
      rw [h1] at h
      simp only at h
      cases h2 : nextNL n skip rest1 with
      | none => rw [h2] at h; cases h
      | some r2 =>
        obtain ⟨toks2, rest2⟩ := r2
        rw [h2] at h
        simp only [Option.some.injEq, Prod.mk.injEq] at h
        obtain ⟨rfl, rfl⟩ := h
        obtain ⟨ha, hb, hc⟩ := ih h2
        by_cases ht : t = EOF
        · subst ht
          obtain ⟨hu, hlex, hrest⟩ := NextL_eof h1
          subst hu; subst hlex; subst hrest
          refine ⟨?_, ?_, ?_⟩
          · simpa [countNonEOF] using ha
          · intro x hx hne
            rcases List.mem_cons.mp hx with rfl | hx
            · exact absurd rfl hne
            · exact hb x hx hne
          · intro i x _ hi
            cases i with
            | zero =>
              simp only [List.getElem?_cons_zero, Option.some.injEq] at hi
              exact hi.symm
            | succ j =>
              rw [List.getElem?_cons_succ] at hi
              exact hc j x (Nat.zero_le _) hi
        · have hl := NextL_length h1 ht
          have hne : u ≠ [] := by
            rintro rfl
            rw [NextL_nil] at h1
            simp only [Option.some.injEq, Prod.mk.injEq] at h1
            exact ht h1.1.symm
          obtain ⟨_, _, _, _, hlex, _⟩ := NextL_spec hne h1
          refine ⟨?_, ?_, ?_⟩
          · have : countNonEOF ((t, lex) :: toks2) = countNonEOF toks2 + 1 := by
              simp [countNonEOF, ht]
            omega
          · intro x hx hx2
            rcases List.mem_cons.mp hx with rfl | hx
            · exact hlex
            · exact hb x hx hx2
          · intro i x hi hx
            cases i with
            | zero => omega
            | succ j =>
              rw [List.getElem?_cons_succ] at hx
              exact hc j x (by omega) hx

/-- C22: progress.  On a scanner made by `NewScanner`, after any number of `Next` calls
that did not fail: the next call ends with the calls and loop steps it is given (the
recursion over skipped comments is well-founded); when it returns a token other than
`EOF`, the lexeme is not empty and strictly fewer bytes are unread than before the call;
every token other than `EOF` returned so far has a non-empty lexeme; the number of such
tokens is at most the number of consumed bytes, so at most the length of the input; and
every call after the first `input.length` calls returns `(EOF, "")`. -/
theorem next_progress (input : List Nat) (skip : Bool) (n : Nat)
    (toks : List (TokenType × List Nat)) (s : scanner)
    (hrun : nextN n (SkipComments (NewScanner input) skip) = .ok (toks, s)) :
    Next s ≠ .outOfFuel ∧
      (∀ t lex s2, Next s = .ok (t, lex, s2) → t ≠ EOF →
        lex ≠ [] ∧ (unread s2).length < (unread s).length) ∧
      (∀ x ∈ toks, x.1 ≠ EOF → x.2 ≠ []) ∧
      countNonEOF toks + (unread s).length ≤ input.length ∧
      (∀ (i : Nat) (x : TokenType × List Nat), input.length ≤ i → toks[i]? = some x →
        x = (EOF, [])) := by
  have hI0 := Inv_SkipComments (Inv_NewScanner input) skip
  have hI : Inv s := (nextN_ok hI0 hrun).2.1
  obtain ⟨_, _, hL⟩ := consumed_spec hrun
  obtain ⟨ha, hb, hc⟩ := nextNL_progress n hL
  refine ⟨Next_ne_outOfFuel hI, ?_, hb, ha, hc⟩
  intro t lex s2 h ht
  have h1 := (Next_ok hI h).1
  have hne : unread s ≠ [] := by
    intro e
    rw [e, NextL_nil] at h1
    simp only [Option.some.injEq, Prod.mk.injEq] at h1
    exact ht h1.1.symm
  obtain ⟨_, _, _, _, hlex, _⟩ := NextL_spec hne h1
  exact ⟨hlex, NextL_length h1 ht⟩

theorem next_progress_witness :
    nextN 5 (SkipComments (NewScanner [118, 32, 49, 10]) true)
        = .ok ([(Word, [118]), (Space, [32]), (Integer, [49]), (EOL, [10]), (EOF, [])],
            { NewScanner [118, 32, 49, 10] with
                bufpos := 4, posNum := 4, lineStr := [118, 32, 49], switchLine := true }) ∧
      countNonEOF [(Word, [118]), (Space, [32]), (Integer, [49]), (EOL, [10]), (EOF, [])]
          + (unread { NewScanner [118, 32, 49, 10] with
                        bufpos := 4, posNum := 4, lineStr := [118, 32, 49],
                        switchLine := true }).length ≤ [118, 32, 49, 10].length :=
  ⟨by decide!,
    (next_progress [118, 32, 49, 10] true 5
      [(Word, [118]), (Space, [32]), (Integer, [49]), (EOL, [10]), (EOF, [])]
      { NewScanner [118, 32, 49, 10] with
          bufpos := 4, posNum := 4, lineStr := [118, 32, 49], switchLine := true }
      (by decide!)).2.2.2.1⟩

/-! ### C9: `Position` and the lengths of the lexemes -/

/-- C20 (as stated it fails): a reader may deliver fewer bytes than the buffer holds, and
the scanner takes a short fill for the end of the input.  When the `Read` of `NewScanner`
delivers the first three bytes of `"v 1 2\n"`, the tokens before `EOF` are `Word "v"`,
`Space " "`, `Integer "1"`: their lexemes are not the input.  When it delivers the first
two bytes of `"a\r\n"`, the call after `Word "a"` panics. -/
theorem lossless_tokenisation_counterexample :
    crFollowed [118, 32, 49, 32, 50, 10] = true ∧
      (NewScannerFrom [some 3] [118, 32, 49, 32, 50, 10]).map
          (fun s => tokens (SkipComments s false))
        = some (.ok [(Word, [118]), (Space, [32]), (Integer, [49])]) ∧
      lexemes [(Word, [118]), (Space, [32]), (Integer, [49])]
        ≠ stripCR [118, 32, 49, 32, 50, 10] ∧
      crFollowed [97, 13, 10] = true ∧
      (NewScannerFrom [some 2] [97, 13, 10]).map (fun s => tokens (SkipComments s false))
        = some .panicked := by
  decide!

/-- C4 (as stated it fails): when the `Read` of `NewScanner` delivers only the first byte
of `"#a\n"`, the scanner takes the short fill for the end of the input and returns
`(Comment, "#")` with either setting: the stream with comment skipping on is not the
stream with comment skipping off without its `Comment` tokens, and the `Comment` token is
followed by no `EOL` token. -/
theorem comment_skipping_counterexample :
    13 ∉ [35, 97, 10] ∧ commentsClosed [35, 97, 10] = true ∧
      (NewScannerFrom [some 1] [35, 97, 10]).map (fun s => tokens (SkipComments s false))
        = some (.ok [(Comment, [35])]) ∧
      (NewScannerFrom [some 1] [35, 97, 10]).map (fun s => tokens (SkipComments s true))
        = some (.ok [(Comment, [35])]) ∧
      dropComments [(Comment, [35])] ≠ [(Comment, [35])] ∧
      [(Comment, [35])][1]? = none := by
  decide!

/-- C7 (as stated it fails): when the `Read` of `NewScanner` delivers the first two bytes,
the second call of `Next` on `"a\r\n"` panics (the `'\r'` ends the short fill), while on
`"a\n"` it returns `EOL`; and when it delivers the first three bytes, the calls on
`"a\r\nb"` return `Word "a"`, `EOL`, `EOF`, while on `"a\nb"` they return `Word "a"`,
`EOL`, `Word "b"`. -/
theorem crlf_scans_counterexample :
    crlfOnly [97, 13, 10] = true ∧
      (NewScannerFrom [some 2] [97, 13, 10]).map (fun s => (nextN 2 s).tokens)
        = some .panicked ∧
      (NewScannerFrom [some 2] (stripCR [97, 13, 10])).map (fun s => (nextN 2 s).tokens)
        = some (.ok [(Word, [97]), (EOL, [10])]) ∧
      crlfOnly [97, 13, 10, 98] = true ∧
      (NewScannerFrom [some 3] [97, 13, 10, 98]).map (fun s => (nextN 3 s).tokens)
        = some (.ok [(Word, [97]), (EOL, [10]), (EOF, [])]) ∧
      (NewScannerFrom [some 3] (stripCR [97, 13, 10, 98])).map (fun s => (nextN 3 s).tokens)
        = some (.ok [(Word, [97]), (EOL, [10]), (Word, [98])]) := by
  refine ⟨by decide, by decide!, by decide!, by decide, by decide!, by decide!⟩

/-- C13 (as stated it fails): when the `Read` of `NewScanner` delivers only the first byte
of `"v x\nf"`, `SkipLine` on the new scanner stops at the end of the short fill and
`LineString` is `"v"`, not the line `"v x"`. -/
theorem lineString_counterexample :
    (match NewScannerFrom [some 1] [118, 32, 120, 10, 102] with
      | some s =>
        match SkipLine s with
        | .ok s2 => some (LineString s2)
        | _ => none
      | none => none) = some [118] ∧
      lineAt 0 [118, 32, 120, 10, 102] = [118, 32, 120] := by
  decide!

end ObjScanner
